import Mathlib

/-!
# SamsungTask puzzle solver: a shallow embedding of `src/puzzle_solver.cpp`

The solver reads vertices and triangles, builds the rib (edge) adjacency
(`readAndInitTriangles`), derives the pressure index and then emits the
triangles in extraction order (`generateExtractionSequence`).

Modelling conventions

* `index_type_t` is `size_t`: a `Nat` below `2 ^ 64`; `invalidIndex` is the
  sentinel `size_t(-1)`.
* `int` is 32-bit two's complement: arithmetic on the `int` fields of `Rib` is
  wrapped by `wrapInt`. The pressure counts and map keys are `int` too; they count
  at most two receiver entries per triangle, stay far below `2 ^ 31` for the triangle
  counts of the task conditions, and are kept as unbounded integers.
* `std::vector` / `std::array` accesses are unchecked in the source.  An access
  outside the container is reported by the model as `Status.outOfBounds`, the
  use of an iterator whose node was erased as `Status.invalidIterator`; both
  stand for undefined behaviour, for which the source has no diagnostic.
* `assert` is taken as active: a failing assertion ends the run with
  `Status.assertionFailed`.
* The text written to the output stream is modelled by the list of the numbers
  written (`ti + 1` for every call of `outputSingleTriangleIndex`).
-/

namespace PuzzleSolver

/-! ## Helper types -/

/-- The sentinel `invalidIndex = index_type_t(-1)` for a 64-bit `size_t`. -/
def invalidIndex : Nat := 18446744073709551615

/-- The decrement `--el` on a `size_t` (wraps at zero): `(el + (2^64 - 1)) mod 2^64`. -/
def decIndex (el : Nat) : Nat := (el + 18446744073709551615) % 18446744073709551616

/-- The value an `int` holds after an arithmetic result `z`: 32-bit two's complement
wrap-around, `((z + 2^31) mod 2^32) - 2^31`. -/
def wrapInt (z : Int) : Int := (z + 2147483648) % 4294967296 - 2147483648

/-- How a run (or a stage of it) ends. -/
inductive Status where
  | finished
  | assertionFailed
  | outOfBounds
  | invalidIterator
  | outOfFuel
deriving DecidableEq, Repr

/-- The `struct Vertex`. -/
structure Vertex where
  x : Int
  y : Int
deriving DecidableEq, Repr

/-- The `struct Rib`: the direction vector and the two owner slots. -/
structure Rib where
  deltaX : Int
  deltaY : Int
  ownerTriangles : Nat × Nat
deriving DecidableEq, Repr

/-- The constructor `Rib(l, r)`. -/
def Rib.new (l r : Vertex) : Rib :=
  { deltaX := wrapInt (r.x - l.x)
    deltaY := wrapInt (r.y - l.y)
    ownerTriangles := (invalidIndex, invalidIndex) }

/-- The method `Rib::setOwner`: the first slot when it is free, else the second. -/
def Rib.setOwner (rib : Rib) (t : Nat) : Rib :=
  if rib.ownerTriangles.1 = invalidIndex then
    { rib with ownerTriangles := (t, rib.ownerTriangles.2) }
  else
    { rib with ownerTriangles := (rib.ownerTriangles.1, t) }

/-- The method `Rib::getOtherOwner`. -/
def Rib.getOtherOwner (rib : Rib) (t : Nat) : Nat :=
  if rib.ownerTriangles.1 = t then rib.ownerTriangles.2 else rib.ownerTriangles.1

/-- The `struct Triangle`: the two slots for counter-clockwise ribs. -/
structure Triangle where
  ribs : Nat × Nat
deriving DecidableEq, Repr

/-- The constructor `Triangle()`. -/
def Triangle.new : Triangle := { ribs := (invalidIndex, invalidIndex) }

/-- The entries a range-for over a two-slot index array visits when it leaves at the
first `invalidIndex` (the loops over `Triangle::ribs` and over a receiver array). -/
def validEntries (a : Nat × Nat) : List Nat :=
  if a.1 = invalidIndex then []
  else if a.2 = invalidIndex then [a.1]
  else [a.1, a.2]

/-! ## Adjacency builder -/

/-- The function `isRibCCWise`, on `int` arithmetic. -/
def isRibCCWise (mainRib secondRib : Rib) : Bool :=
  decide (0 < wrapInt (wrapInt (mainRib.deltaX * secondRib.deltaY)
                        - wrapInt (mainRib.deltaY * secondRib.deltaX)))

/-- The functor `_vertex_sorter::operator()`; both vertices are read unchecked. -/
def sortVertices (vertices : List Vertex) (vi1 vi2 : Nat) : Except Status (Nat × Nat) :=
  match vertices[vi1]?, vertices[vi2]? with
  | some v1, some v2 => .ok (if v2.x < v1.x then (vi2, vi1) else (vi1, vi2))
  | _, _ => .error .outOfBounds

/-- Element `i` of the local array `vertexIndices`. -/
def vertexAt (vertexIndices : Nat × Nat × Nat) (i : Nat) : Nat :=
  match i with
  | 0 => vertexIndices.1
  | 1 => vertexIndices.2.1
  | _ => vertexIndices.2.2

/-- The table `vertexCombinations`. -/
def vertexCombinations : List (Nat × Nat) := [(1, 2), (0, 2), (0, 1)]

/-- What the body of the triangle loop works on: `m_ribs`, `verticesToRibs`, the
triangle under construction and `ribPos`. -/
structure TriangleState where
  ribs : List Rib
  verticesToRibs : List ((Nat × Nat) × Nat)
  currentTriangle : Triangle
  ribPos : Nat
deriving DecidableEq, Repr

/-- The write `currentTriangle.ribs[ribPos++] = ribIndex` into the two-slot array. -/
def pushRib (s : TriangleState) (ribIndex : Nat) : Except Status TriangleState :=
  if s.ribPos = 0 then
    .ok { s with currentTriangle := { ribs := (ribIndex, s.currentTriangle.ribs.2) }, ribPos := 1 }
  else if s.ribPos = 1 then
    .ok { s with currentTriangle := { ribs := (s.currentTriangle.ribs.1, ribIndex) }, ribPos := 2 }
  else
    .error .outOfBounds

/-- The lookup of the vertex pair in `verticesToRibs`, creating the rib when it is new:
returns `m_ribs`, the map and `ribIndex`. -/
def findOrCreateRib (vertices : List Vertex) (s : TriangleState) (vertexPair : Nat × Nat) :
    Except Status (List Rib × List ((Nat × Nat) × Nat) × Nat) :=
  match s.verticesToRibs.lookup vertexPair with
  | some ribIndex => .ok (s.ribs, s.verticesToRibs, ribIndex)
  | none =>
    match vertices[vertexPair.1]?, vertices[vertexPair.2]? with
    | some l, some r =>
      .ok (s.ribs ++ [Rib.new l r], s.verticesToRibs ++ [(vertexPair, s.ribs.length)],
           s.ribs.length)
    | _, _ => .error .outOfBounds

/-- The orientation part of the loop body, for a rib that is not vertical. -/
def classifyRib (vertices : List Vertex) (vertexIndices : Nat × Nat × Nat)
    (combinationNum : Nat) (vertexPair : Nat × Nat) (rib : Rib) (ribIndex : Nat)
    (s : TriangleState) : Except Status TriangleState :=
  match vertices[vertexPair.1]?, vertices[vertexAt vertexIndices combinationNum]? with
  | some l, some third =>
    if isRibCCWise rib (Rib.new l third) then pushRib s ribIndex else .ok s
  | _, _ => .error .outOfBounds

/-- One pass of the loop over `vertexCombinations` in `readAndInitTriangles`. -/
def processCombination (vertices : List Vertex) (triangleIndex : Nat)
    (vertexIndices : Nat × Nat × Nat) (combinationNum : Nat) (curCombination : Nat × Nat)
    (s : TriangleState) : Except Status TriangleState :=
  match sortVertices vertices (vertexAt vertexIndices curCombination.1)
      (vertexAt vertexIndices curCombination.2) with
  | .error e => .error e
  | .ok vertexPair =>
    match findOrCreateRib vertices s vertexPair with
    | .error e => .error e
    | .ok (ribs1, map1, ribIndex) =>
      match ribs1[ribIndex]? with
      | none => .error .outOfBounds
      | some rib0 =>
        let rib := rib0.setOwner triangleIndex
        let s1 : TriangleState :=
          { s with ribs := ribs1.set ribIndex rib, verticesToRibs := map1 }
        if rib.deltaX = 0 then .ok s1
        else classifyRib vertices vertexIndices combinationNum vertexPair rib ribIndex s1

/-- The loop over `vertexCombinations`, from combination `combinationNum` on. -/
def processCombinations (vertices : List Vertex) (triangleIndex : Nat)
    (vertexIndices : Nat × Nat × Nat) :
    Nat → List (Nat × Nat) → TriangleState → Except Status TriangleState
  | _, [], s => .ok s
  | combinationNum, c :: cs, s =>
    match processCombination vertices triangleIndex vertexIndices combinationNum c s with
    | .error e => .error e
    | .ok s1 => processCombinations vertices triangleIndex vertexIndices (combinationNum + 1) cs s1

/-- The members `m_ribs`, `m_triangles` and the local map `verticesToRibs`. -/
structure Build where
  ribs : List Rib
  triangles : List Triangle
  verticesToRibs : List ((Nat × Nat) × Nat)
deriving DecidableEq, Repr

/-- The body of the triangle loop of `readAndInitTriangles` for the triangle whose three
1-based vertex indices are `input`. The new triangle is kept in `currentTriangle` and
stored in `m_triangles` once its three combinations are done. -/
def processTriangle (vertices : List Vertex) (triangleIndex : Nat) (input : Nat × Nat × Nat)
    (b : Build) : Except Status Build :=
  let vertexIndices := (decIndex input.1, decIndex input.2.1, decIndex input.2.2)
  match processCombinations vertices triangleIndex vertexIndices 0 vertexCombinations
      { ribs := b.ribs, verticesToRibs := b.verticesToRibs,
        currentTriangle := Triangle.new, ribPos := 0 } with
  | .error e => .error e
  | .ok s =>
    .ok { ribs := s.ribs, triangles := b.triangles ++ [s.currentTriangle],
          verticesToRibs := s.verticesToRibs }

/-- The triangle loop of `readAndInitTriangles`, from triangle `triangleIndex` on. -/
def readTrianglesFrom (vertices : List Vertex) :
    Nat → List (Nat × Nat × Nat) → Build → Except Status Build
  | _, [], b => .ok b
  | triangleIndex, t :: ts, b =>
    match processTriangle vertices triangleIndex t b with
    | .error e => .error e
    | .ok b1 => readTrianglesFrom vertices (triangleIndex + 1) ts b1

/-- The method `readAndInitTriangles` on the vertex list and the triangles of the input. -/
def readAndInitTriangles (vertices : List Vertex) (triangles : List (Nat × Nat × Nat)) :
    Except Status Build :=
  readTrianglesFrom vertices 0 triangles { ribs := [], triangles := [], verticesToRibs := [] }

/-! ## Pressure index -/

/-- The two index vectors `trianglePressureIndex` and `trianglePressureReceiversIndex`. -/
structure PressureIndex where
  pressure : List Int
  receivers : List (Nat × Nat)
deriving DecidableEq, Repr

/-- The body of the loop over the ribs of triangle `ti`, for one rib index `ri`. -/
def pressRib (ribs : List Rib) (ti ri : Nat) (g : PressureIndex) : Except Status PressureIndex :=
  match ribs[ri]? with
  | none => .error .outOfBounds
  | some rib =>
    let pressureReceiverTriangle := rib.getOtherOwner ti
    if pressureReceiverTriangle = invalidIndex then .ok g
    else
      match g.pressure[pressureReceiverTriangle]?, g.receivers[ti]? with
      | some p, some pressureReceivers =>
        .ok { pressure := g.pressure.set pressureReceiverTriangle (p + 1)
              receivers := g.receivers.set ti
                (if pressureReceivers.1 = invalidIndex
                  then (pressureReceiverTriangle, pressureReceivers.2)
                  else (pressureReceivers.1, pressureReceiverTriangle)) }
      | _, _ => .error .outOfBounds

/-- The loop over `m_triangles[ti].ribs`, which leaves at the first `invalidIndex`. -/
def pressTriangle (ribs : List Rib) (ti : Nat) (triangle : Triangle) (g : PressureIndex) :
    Except Status PressureIndex :=
  if triangle.ribs.1 = invalidIndex then .ok g
  else
    match pressRib ribs ti triangle.ribs.1 g with
    | .error e => .error e
    | .ok g1 =>
      if triangle.ribs.2 = invalidIndex then .ok g1
      else pressRib ribs ti triangle.ribs.2 g1

/-- The loop over all triangles that fills the two index vectors, from triangle `ti` on. -/
def pressFrom (ribs : List Rib) : Nat → List Triangle → PressureIndex → Except Status PressureIndex
  | _, [], g => .ok g
  | ti, t :: ts, g =>
    match pressTriangle ribs ti t g with
    | .error e => .error e
    | .ok g1 => pressFrom ribs (ti + 1) ts g1

/-- The first part of `generateExtractionSequence`: both index vectors. -/
def buildPressureIndex (b : Build) : Except Status PressureIndex :=
  pressFrom b.ribs 0 b.triangles
    { pressure := List.replicate b.triangles.length 0
      receivers := List.replicate b.triangles.length (invalidIndex, invalidIndex) }

/-! ## Priority extraction -/

/-- The `std::multimap<int, index_type_t>` in iteration order. Every triangle has one
node, so a node (and the iterator kept for it in `triangleToMapPosIndex`) is named by
the triangle it carries. -/
abbrev PressureMap := List (Int × Nat)

/-- The call `emplace(key, t)`: behind the entries with an equal key (upper bound). -/
def emplace (key : Int) (t : Nat) : PressureMap → PressureMap
  | [] => [(key, t)]
  | e :: rest => if key < e.1 then (key, t) :: e :: rest else e :: emplace key t rest

/-- The call `insert(begin(), node)`: with the hint `begin()` the node goes in front of
the entries with an equal key (lower bound). -/
def insertAtBegin (key : Int) (t : Nat) : PressureMap → PressureMap
  | [] => [(key, t)]
  | e :: rest => if key ≤ e.1 then (key, t) :: e :: rest else e :: insertAtBegin key t rest

/-- The call `extract(triangleToMapPosIndex[t])`: the key of the node of triangle `t`
and the map without it; `none` when the node is no longer in the map. -/
def extractNode (t : Nat) : PressureMap → Option (Int × PressureMap)
  | [] => none
  | e :: rest =>
    if e.2 = t then some (e.1, rest)
    else
      match extractNode t rest with
      | none => none
      | some (key, rest1) => some (key, e :: rest1)

/-- The body of the loop over the receivers: extract the node, decrement its key and
insert it again with the hint `begin()`. -/
def decreaseKey (t : Nat) (m : PressureMap) : Option PressureMap :=
  match extractNode t m with
  | none => none
  | some (key, m1) => some (insertAtBegin (key - 1) t m1)

/-- The loop over `trianglePressureReceiversIndex[triangleToExtract]`, which leaves at
the first `invalidIndex`. -/
def relaxReceivers (receivers : Nat × Nat) (m : PressureMap) : Option PressureMap :=
  if receivers.1 = invalidIndex then some m
  else
    match decreaseKey receivers.1 m with
    | none => none
    | some m1 =>
      if receivers.2 = invalidIndex then some m1
      else decreaseKey receivers.2 m1

/-- The loop that fills `pressureToTriangleMap`, from triangle `ti` on. -/
def fillMap : Nat → List Int → PressureMap → PressureMap
  | _, [], m => m
  | ti, p :: ps, m => fillMap (ti + 1) ps (emplace p ti m)

/-- The state of the extraction loop: the map and the numbers written so far. -/
structure ExtractState where
  map : PressureMap
  output : List Nat
deriving DecidableEq, Repr

/-- What one evaluation of the `while` loop does. -/
inductive StepResult where
  | done
  | halt (status : Status) (output : List Nat)
  | next (st : ExtractState)
deriving DecidableEq, Repr

/-- One evaluation of the `while` loop of `generateExtractionSequence`: the test, the
assertion, the output of the triangle, `erase`, and the loop over its receivers. -/
def extractStep (receivers : List (Nat × Nat)) (st : ExtractState) : StepResult :=
  match st.map with
  | [] => .done
  | target :: rest =>
    if target.1 ≠ 0 then .halt .assertionFailed st.output
    else
      let triangleToExtract := target.2
      let output := st.output ++ [triangleToExtract + 1]
      match receivers[triangleToExtract]? with
      | none => .halt .outOfBounds output
      | some r =>
        match relaxReceivers r rest with
        | none => .halt .invalidIterator output
        | some m => .next { map := m, output := output }

/-- A run of the program: how it ended and what it wrote. -/
structure Run where
  status : Status
  output : List Nat
deriving DecidableEq, Repr

/-- The `while` loop, for at most `fuel` evaluations of its body. -/
def extractLoop (receivers : List (Nat × Nat)) : Nat → ExtractState → Run
  | 0, st =>
    match st.map with
    | [] => { status := .finished, output := st.output }
    | _ :: _ => { status := .outOfFuel, output := st.output }
  | fuel + 1, st =>
    match extractStep receivers st with
    | .done => { status := .finished, output := st.output }
    | .halt status output => { status := status, output := output }
    | .next st1 => extractLoop receivers fuel st1

/-- The method `generateExtractionSequence`. The loop body removes one entry of the map
each time, so `m_triangles.size()` evaluations empty it. -/
def generateExtractionSequence (b : Build) : Run :=
  match buildPressureIndex b with
  | .error e => { status := e, output := [] }
  | .ok g =>
    extractLoop g.receivers b.triangles.length
      { map := fillMap 0 g.pressure [], output := [] }

/-- The method `solve` on the parsed input: the vertex list and, for every triangle,
its three 1-based vertex indices. -/
def solve (vertices : List Vertex) (triangles : List (Nat × Nat × Nat)) : Run :=
  match readAndInitTriangles vertices triangles with
  | .error e => { status := e, output := [] }
  | .ok b => generateExtractionSequence b


/-! ## Vocabulary of the specification -/

/-- The triangles that have a node in the map, in map order. -/
def mapTriangles (m : PressureMap) : List Nat := m.map Prod.snd

/-- The receivers the extraction loop visits for triangle `s`: the valid prefix of
`trianglePressureReceiversIndex[s]`. -/
def receiversOf (receivers : List (Nat × Nat)) (s : Nat) : List Nat :=
  validEntries (receivers.getD s (invalidIndex, invalidIndex))

/-- The number of receiver entries equal to `t` held by the triangles of `owners`. -/
def pressureLoad (receivers : List (Nat × Nat)) (owners : List Nat) (t : Nat) : Nat :=
  (owners.map (fun s => (receiversOf receivers s).count t)).sum

/-- The loop over a receiver array, on the list of the entries it visits. -/
def relaxList : List Nat → PressureMap → Option PressureMap
  | [], m => some m
  | r :: rs, m =>
    match decreaseKey r m with
    | none => none
    | some m1 => relaxList rs m1

/-- The state after `k` complete evaluations of the loop body, if the loop gets that far. -/
def iterateSteps (receivers : List (Nat × Nat)) : Nat → ExtractState → Option ExtractState
  | 0, st => some st
  | k + 1, st =>
    match extractStep receivers st with
    | .next st1 => iterateSteps receivers k st1
    | _ => none

/-- Triangle `s` presses on triangle `r` according to the receiver index. -/
def Presses (receivers : List (Nat × Nat)) (s r : Nat) : Prop :=
  r ∈ receiversOf receivers s

/-- The pressure relation has no cycle. -/
def Acyclic (receivers : List (Nat × Nat)) : Prop :=
  ∀ t, ¬ Relation.TransGen (Presses receivers) t t

/-- The map is in key order. -/
def KeySorted (m : PressureMap) : Prop := m.Pairwise (fun a b => a.1 ≤ b.1)

/-- The invariant of the extraction loop, while the receivers `pending` of the triangle
just erased are still to be relaxed: every triangle has at most one node, the map is in
key order, the receivers of a triangle in the map are in the map, and the key of a node
counts the receiver entries naming its triangle that are held by triangles in the map
or are still pending. -/
structure MapInv (receivers : List (Nat × Nat)) (m : PressureMap) (pending : List Nat) :
    Prop where
  nodup : (mapTriangles m).Nodup
  sorted : KeySorted m
  inRange : ∀ t ∈ mapTriangles m, t < receivers.length
  closed : ∀ s ∈ mapTriangles m, ∀ r ∈ receiversOf receivers s, r ∈ mapTriangles m
  pendingIn : ∀ r ∈ pending, r ∈ mapTriangles m
  key : ∀ e ∈ m,
    e.1 = (pressureLoad receivers (mapTriangles m) e.2 : Int) + (pending.count e.2 : Int)

/-- What the extraction loop started on map `m` with `out` already written achieves;
`emitted` lists the triangles it extracts (0-based, in order). -/
structure LoopSpec (receivers : List (Nat × Nat)) (m : PressureMap) (out : List Nat)
    (run : Run) (emitted : List Nat) : Prop where
  output_eq : run.output = out ++ emitted.map (· + 1)
  status : run.status = .finished ∨ run.status = .assertionFailed
  nodup : emitted.Nodup
  subset : ∀ t ∈ emitted, t ∈ mapTriangles m
  complete : run.status = .finished → emitted.Perm (mapTriangles m)
  short : run.status ≠ .finished → emitted.length < m.length
  order : ∀ s ∈ mapTriangles m, ∀ r ∈ receiversOf receivers s, r ∈ emitted →
    s ∈ emitted ∧ emitted.indexOf s < emitted.indexOf r
  acyclic : Acyclic receivers → run.status = .finished

/-- Triangle `T` presses on triangle `R`: `R` is the other owner of a rib that is in the
counter-clockwise rib list of `T`. -/
def PressesOn (b : Build) (T R : Nat) : Prop :=
  ∃ triangle ri rib, b.triangles[T]? = some triangle ∧ ri ∈ validEntries triangle.ribs
    ∧ b.ribs[ri]? = some rib ∧ rib.getOtherOwner T = R ∧ R ≠ invalidIndex

/-- The other owner of rib `ri` seen from triangle `ti`, when there is one. -/
def otherOwnerOf (ribs : List Rib) (ti ri : Nat) : Option Nat :=
  match ribs[ri]? with
  | none => none
  | some rib => if rib.getOtherOwner ti = invalidIndex then none else some (rib.getOtherOwner ti)

/-- The triangles on which triangle `ti` presses, in the order of its rib list. -/
def pressedBy (ribs : List Rib) (ti : Nat) (triangle : Triangle) : List Nat :=
  (validEntries triangle.ribs).filterMap (otherOwnerOf ribs ti)

/-- What the two index vectors satisfy once the triangles below `k` are processed. -/
structure IndexInv (ribs : List Rib) (all : List Triangle) (k : Nat) (g : PressureIndex) :
    Prop where
  pressure_length : g.pressure.length = all.length
  receivers_length : g.receivers.length = all.length
  untouched : ∀ s, k ≤ s → s < all.length →
    g.receivers[s]? = some (invalidIndex, invalidIndex)
  count : ∀ t, t < all.length →
    g.pressure[t]? = some ((pressureLoad g.receivers (List.range all.length) t : Nat) : Int)
  bound : ∀ s r, r ∈ receiversOf g.receivers s → r < all.length
  pressed : ∀ s triangle, s < k → all[s]? = some triangle →
    receiversOf g.receivers s = pressedBy ribs s triangle

/-- Both owner slots of a rib are free or hold a triangle index below `n`. -/
def OwnerOk (n : Nat) (rib : Rib) : Prop :=
  (rib.ownerTriangles.1 = invalidIndex ∨ rib.ownerTriangles.1 < n)
  ∧ (rib.ownerTriangles.2 = invalidIndex ∨ rib.ownerTriangles.2 < n)

/-- The owners of the ribs are below `n` and the map points into `m_ribs`. -/
structure RibsInv (n : Nat) (ribs : List Rib) (map : List ((Nat × Nat) × Nat)) : Prop where
  owners : ∀ rib ∈ ribs, OwnerOk n rib
  mapRange : ∀ e ∈ map, e.2 < ribs.length

/-- The rib vector `r1` continues `r`: every rib stays at its index with its direction,
a first owner once set stays, and (`hi` bounding the triangle indices) two taken owner
slots stay taken. -/
def RibsExtend (hi : Nat) (r r1 : List Rib) : Prop :=
  ∀ (i : Nat) (rib : Rib), r[i]? = some rib → ∃ rib1 : Rib, r1[i]? = some rib1
    ∧ rib1.deltaX = rib.deltaX
    ∧ (rib.ownerTriangles.1 ≠ invalidIndex → rib1.ownerTriangles.1 = rib.ownerTriangles.1)
    ∧ (hi ≤ invalidIndex → rib.ownerTriangles.1 ≠ invalidIndex →
        rib.ownerTriangles.2 ≠ invalidIndex → rib1.ownerTriangles.2 ≠ invalidIndex)

/-- The rib at index `ri` is a sound entry of the rib list of triangle `T`: it exists, it
is not vertical, and `T` is its first owner unless both owner slots are taken. -/
def GoodRib (hi : Nat) (ribs : List Rib) (T ri : Nat) : Prop :=
  ∃ rib, ribs[ri]? = some rib ∧ rib.deltaX ≠ 0
    ∧ (hi ≤ invalidIndex → rib.ownerTriangles.1 = T
        ∨ (rib.ownerTriangles.1 ≠ invalidIndex ∧ rib.ownerTriangles.2 ≠ invalidIndex))

/-- Every valid slot of the rib array `a` of triangle `T` is a sound entry. -/
def SlotsGood (hi : Nat) (ribs : List Rib) (T : Nat) (a : Nat × Nat) : Prop :=
  ∀ ri, ri = a.1 ∨ ri = a.2 → ri ≠ invalidIndex → GoodRib hi ribs T ri

/-- The invariant kept by the loop over the three combinations of triangle `k`. -/
structure TriangleInv (hi k : Nat) (s : TriangleState) : Prop where
  ribs : RibsInv (k + 1) s.ribs s.verticesToRibs
  slots : SlotsGood hi s.ribs k s.currentTriangle.ribs

/-- The invariant of the triangle loop before triangle `k`. -/
structure BuildInv (hi k : Nat) (b : Build) : Prop where
  length : b.triangles.length = k
  ribs : RibsInv k b.ribs b.verticesToRibs
  slots : ∀ T triangle, b.triangles[T]? = some triangle → SlotsGood hi b.ribs T triangle.ribs

/-- The map the extraction loop starts from. -/
def initialState (g : PressureIndex) : ExtractState :=
  { map := fillMap 0 g.pressure [], output := [] }

/-- The three sides of a triangle as pairs of 0-based vertex indices, in the order of
`vertexCombinations`. -/
def sidesOf (input : Nat × Nat × Nat) : List (Nat × Nat) :=
  [(decIndex input.2.1, decIndex input.2.2), (decIndex input.1, decIndex input.2.2),
   (decIndex input.1, decIndex input.2.1)]

/-- The key under which a side is looked up in `verticesToRibs`: what `sortVertices`
returns for its two vertex indices. -/
def canonicalKey (vertices : List Vertex) (side : Nat × Nat) : Nat × Nat :=
  match sortVertices vertices side.1 side.2 with
  | .ok vertexPair => vertexPair
  | .error _ => side

/-- How the ribs relate to the sides looked up so far (`seen` lists their keys in order):
the map numbers the ribs in the order of their creation, a rib has a first owner only if
its key was looked up, a second owner only if its key was looked up twice, and its
`deltaX` is the difference of the x coordinates of the two vertices of its key. -/
structure KeyInv (vertices : List Vertex) (seen : List (Nat × Nat)) (ribs : List Rib)
    (map : List ((Nat × Nat) × Nat)) : Prop where
  indices : map.map Prod.snd = List.range ribs.length
  free : ∀ (i : Nat) (rib : Rib), ribs[i]? = some rib →
    rib.ownerTriangles.1 = invalidIndex → rib.ownerTriangles.2 = invalidIndex
  first : ∀ (i : Nat) (rib : Rib) (key : Nat × Nat), ribs[i]? = some rib → (key, i) ∈ map →
    rib.ownerTriangles.1 ≠ invalidIndex → 1 ≤ seen.count key
  second : ∀ (i : Nat) (rib : Rib) (key : Nat × Nat), ribs[i]? = some rib → (key, i) ∈ map →
    rib.ownerTriangles.2 ≠ invalidIndex → 2 ≤ seen.count key
  delta : ∀ (i : Nat) (rib : Rib) (key : Nat × Nat), ribs[i]? = some rib → (key, i) ∈ map →
    ∃ l r : Vertex, vertices[key.1]? = some l ∧ vertices[key.2]? = some r
      ∧ rib.deltaX = wrapInt (r.x - l.x)

/-- The edge of a side: its two vertex indices as an unordered pair. -/
def edgeOf (side : Nat × Nat) : Nat × Nat := (min side.1 side.2, max side.1 side.2)

/-! ## Example inputs -/

/-- Two triangles on the edge (0,0)-(2,0): triangle 1 = (0,0),(2,0),(1,2) lies above it,
triangle 2 = (2,0),(0,0),(1,-2) is its mirror image below. -/
def mirrorVertices : List Vertex :=
  [{ x := 0, y := 0 }, { x := 2, y := 0 }, { x := 1, y := 2 }, { x := 1, y := -2 }]

/-- The triangles of the mirror example, by 1-based vertex indices. -/
def mirrorTriangles : List (Nat × Nat × Nat) := [(1, 2, 3), (2, 1, 4)]

/-- A chain of three: triangle 3 (top) presses on triangle 2, which presses on
triangle 1 (bottom). -/
def chainVertices : List Vertex :=
  [{ x := 0, y := 0 }, { x := 2, y := 0 }, { x := 1, y := 2 }, { x := 1, y := -2 },
   { x := -1, y := -3 }]

/-- The triangles of the chain example. -/
def chainTriangles : List (Nat × Nat × Nat) := [(1, 4, 5), (1, 2, 4), (1, 2, 3)]

/-- A free triangle followed by two triangles that lie on the same side of their common
edge (0,0)-(2,0), so that each presses on the other. -/
def cycleVertices : List Vertex :=
  [{ x := 0, y := 0 }, { x := 2, y := 0 }, { x := 1, y := 2 }, { x := 1, y := 3 },
   { x := 10, y := 10 }, { x := 11, y := 10 }, { x := 10, y := 11 }]

/-- The triangles of the cycle example. -/
def cycleTriangles : List (Nat × Nat × Nat) := [(5, 6, 7), (1, 2, 3), (2, 1, 4)]

/-- The adjacency the builder produces for an input it accepts (empty otherwise). -/
def buildOf (vertices : List Vertex) (triangles : List (Nat × Nat × Nat)) : Build :=
  match readAndInitTriangles vertices triangles with
  | .ok b => b
  | .error _ => { ribs := [], triangles := [], verticesToRibs := [] }

/-- Two triangles on the vertical edge (0,0)-(0,2), one to its right and one to its left. -/
def verticalVertices : List Vertex :=
  [{ x := 0, y := 0 }, { x := 0, y := 2 }, { x := 1, y := 1 }, { x := -1, y := 1 }]

/-- The triangles of the vertical example; the second lists the common edge in the
opposite direction. -/
def verticalTriangles : List (Nat × Nat × Nat) := [(1, 2, 3), (2, 1, 4)]

/-- The same two triangles, the second listing the common edge in the same direction. -/
def verticalTrianglesAligned : List (Nat × Nat × Nat) := [(1, 2, 3), (1, 2, 4)]

/-- Three triangles that all use the edge (0,0)-(2,0): triangles 1 and 2 lie below it,
triangle 3 above it. -/
def fanVertices : List Vertex :=
  [{ x := 0, y := 0 }, { x := 2, y := 0 }, { x := 1, y := -2 }, { x := 1, y := -5 },
   { x := 1, y := 2 }]

/-- The triangles of the fan example. -/
def fanTriangles : List (Nat × Nat × Nat) := [(1, 2, 3), (1, 2, 4), (1, 2, 5)]

/-- Two triangles on the edge (0,0)-(65536,0), with coordinates inside the range
[-1000000, 1000000] of the task conditions: triangle 1 lies below the edge, triangle 2
above it. -/
def wideVertices : List Vertex :=
  [{ x := 0, y := 0 }, { x := 65536, y := 0 }, { x := 1, y := 32768 },
   { x := 1, y := -32768 }]

/-- The triangles of the wide example. -/
def wideTriangles : List (Nat × Nat × Nat) := [(2, 1, 4), (1, 2, 3)]

/-- The unordered pair of vertex indices `a`, `b`, written smaller index first. -/
def unorderedPair (a b : Nat) : Nat × Nat := (min a b, max a b)

/-- The distinct unordered vertex-index pairs that occur as a side of some triangle. -/
def distinctSides (triangles : List (Nat × Nat × Nat)) : List (Nat × Nat) :=
  (triangles.flatMap (fun t =>
    [unorderedPair t.2.1 t.2.2, unorderedPair t.1 t.2.2, unorderedPair t.1 t.2.1])).dedup

/-- The exact cross product of the rib from `l` to `r` with the vector from `l` to `p`,
on unbounded integers: positive when `p` lies above the line through `l` and `r`
(`l` left of `r`). -/
def crossExact (l r p : Vertex) : Int :=
  (r.x - l.x) * (p.y - l.y) - (r.y - l.y) * (p.x - l.x)

/-! ## Vocabulary and examples for the arithmetic and mesh properties -/

/-- The exact value, on unbounded integers, of the expression whose sign `isRibCCWise`
tests. -/
def crossOfRibs (mainRib secondRib : Rib) : Int :=
  mainRib.deltaX * secondRib.deltaY - mainRib.deltaY * secondRib.deltaX

/-- A coordinate inside the range [-1000000, 1000000] of the task conditions. -/
def coordinateOk (v : Vertex) : Bool :=
  decide (-1000000 ≤ v.x) && decide (v.x ≤ 1000000) && decide (-1000000 ≤ v.y)
    && decide (v.y ≤ 1000000)

/-- The rib state after the owners in `owners` were set one after the other on a fresh
rib. -/
def ribAfter (owners : List Nat) : Rib :=
  owners.foldl Rib.setOwner (Rib.new { x := 0, y := 0 } { x := 1, y := 0 })

/-- The sides of all triangles of the input, each with the 0-based index of the vertex
opposite to it: the edge as an unordered pair, and the third vertex. -/
def meshSides (triangles : List (Nat × Nat × Nat)) : List ((Nat × Nat) × Nat) :=
  triangles.flatMap (fun t =>
    [(edgeOf (decIndex t.2.1, decIndex t.2.2), decIndex t.1),
     (edgeOf (decIndex t.1, decIndex t.2.2), decIndex t.2.1),
     (edgeOf (decIndex t.1, decIndex t.2.1), decIndex t.2.2)])

/-- The exact cross product that tells on which side of the edge `edge` the vertex with
index `third` lies. -/
def sideOfEdge (vertices : List Vertex) (edge : Nat × Nat) (third : Nat) : Int :=
  crossExact (vertices.getD edge.1 { x := 0, y := 0 }) (vertices.getD edge.2 { x := 0, y := 0 })
    (vertices.getD third { x := 0, y := 0 })

/-- The mesh condition of the pressure bound: every edge has at most two owners, and the
third vertices of the two owners of a shared edge lie strictly on opposite sides of it. -/
def meshOk (vertices : List Vertex) (triangles : List (Nat × Nat × Nat)) : Bool :=
  (meshSides triangles).enum.all (fun a =>
    decide (((meshSides triangles).map Prod.fst).count a.2.1 ≤ 2)
    && (meshSides triangles).enum.all (fun b =>
      a.1 == b.1 || a.2.1 != b.2.1
        || decide (sideOfEdge vertices a.2.1 a.2.2 * sideOfEdge vertices b.2.1 b.2.2 < 0)))

/-- A flat triangle (0,0),(65536,0),(32768,10) with a neighbour across each of its three
edges: (1,-32769) below the long edge, (10000,100) and (50000,100) above the two short
ones. All coordinates are inside the range of the task conditions. -/
def pressedVertices : List Vertex :=
  [{ x := 0, y := 0 }, { x := 65536, y := 0 }, { x := 32768, y := 10 },
   { x := 1, y := -32769 }, { x := 10000, y := 100 }, { x := 50000, y := 100 }]

/-- The triangles of the pressed example. -/
def pressedTriangles : List (Nat × Nat × Nat) := [(1, 2, 3), (1, 2, 4), (1, 3, 5), (3, 2, 6)]

/-- The number of ribs `e` in the counter-clockwise rib list of triangle `s` for which
`getOtherOwner` called for `s` returns the triangle `t`. -/
def pairsOnto (b : Build) (s t : Nat) : Nat :=
  ((validEntries (b.triangles.getD s Triangle.new).ribs).filter
    (fun ri => decide (otherOwnerOf b.ribs s ri = some t))).length

/-- The entries of the map are in ascending order of their key and, for equal keys, in
ascending order of their triangle index. -/
def IndexOrdered (m : PressureMap) : Prop :=
  m.Pairwise (fun a c => a.1 < c.1 ∨ (a.1 = c.1 ∧ a.2 < c.2))

/-- The last receiver in the list `pending` whose key becomes 0 when the receivers are
relaxed one after the other on the map `m`. -/
def lastReachingZero : List Nat → PressureMap → Option Nat
  | [], _ => none
  | r :: rs, m =>
    match extractNode r m with
    | none => none
    | some (key, m1) =>
      match lastReachingZero rs (insertAtBegin (key - 1) r m1) with
      | some x => some x
      | none => if key - 1 = 0 then some r else none

/-- The two tests the body of the combination loop makes before it writes a rib into the
rib list, for the rib from `l` to `r` and the opposite vertex `p`: the rib is not
vertical and `isRibCCWise` accepts it against the rib from `l` to `p`. -/
def ccwVertices (l r p : Vertex) : Bool :=
  decide ((Rib.new l r).deltaX ≠ 0) && isRibCCWise (Rib.new l r) (Rib.new l p)

/-- The classification of a side by the body of the combination loop, from the vertex
coordinates: the side is stored under the key `key` and the opposite vertex has the
index `third`. -/
def ccwSide (vertices : List Vertex) (key : Nat × Nat) (third : Nat) : Bool :=
  match vertices[key.1]?, vertices[key.2]?, vertices[third]? with
  | some l, some r, some p => ccwVertices l r p
  | _, _, _ => false

/-- Every rib carries the `int` differences of the coordinates of the two vertices of
its key, and the first vertex of the key is not to the right of the second. -/
def RibGeom (vertices : List Vertex) (ribs : List Rib) (map : List ((Nat × Nat) × Nat)) :
    Prop :=
  ∀ (i : Nat) (rib : Rib) (key : Nat × Nat), ribs[i]? = some rib → (key, i) ∈ map →
    ∃ l r : Vertex, vertices[key.1]? = some l ∧ vertices[key.2]? = some r ∧ l.x ≤ r.x
      ∧ rib.deltaX = wrapInt (r.x - l.x) ∧ rib.deltaY = wrapInt (r.y - l.y)

/-- The three vertex indices of an input triangle are inside the vertex list. -/
abbrev indicesInRange (vertices : List Vertex) (t : Nat × Nat × Nat) : Prop :=
  decIndex t.1 < vertices.length ∧ decIndex t.2.1 < vertices.length
    ∧ decIndex t.2.2 < vertices.length

/-- The three sides of an input triangle, each with the index of the opposite vertex, in
the order of `vertexCombinations`. -/
def sidesWithThird (input : Nat × Nat × Nat) : List ((Nat × Nat) × Nat) :=
  [((decIndex input.2.1, decIndex input.2.2), decIndex input.1),
   ((decIndex input.1, decIndex input.2.2), decIndex input.2.1),
   ((decIndex input.1, decIndex input.2.1), decIndex input.2.2)]

/-- The two tests of the loop body on unbounded integers: the rib from `l` to `r` is not
vertical and the exact cross product with the vector from `l` to `p` is positive. -/
def ccwVerticesExact (l r p : Vertex) : Bool :=
  decide (r.x - l.x ≠ 0) && decide (0 < crossExact l r p)

/-- The classification of a side with the cross product computed exactly. -/
def ccwSideExact (vertices : List Vertex) (key : Nat × Nat) (third : Nat) : Bool :=
  match vertices[key.1]?, vertices[key.2]?, vertices[third]? with
  | some l, some r, some p => ccwVerticesExact l r p
  | _, _, _ => false

/-! ## The pressure relation of the input -/

/-- The side `side` of a triangle with the opposite vertex at index `third` is a
counter-clockwise-aligned edge in the sense of the specification: read from its left
vertex to its right vertex (a vertical side has neither), the exact cross product with
the vector to the third vertex is positive. -/
def ccwAlignedEdge (vertices : List Vertex) (side : Nat × Nat) (third : Nat) : Bool :=
  match vertices[side.1]?, vertices[side.2]?, vertices[third]? with
  | some a, some b, some p =>
    if a.x < b.x then decide (0 < crossExact a b p)
    else if b.x < a.x then decide (0 < crossExact b a p)
    else false
  | _, _, _ => false

/-- The pressure relation of the input, from the coordinates alone: triangle `s` presses
on triangle `r` when a counter-clockwise-aligned edge of `s` is also an edge of `r`. -/
def inputPresses (vertices : List Vertex) (triangles : List (Nat × Nat × Nat))
    (s r : Nat) : Bool :=
  match triangles[s]?, triangles[r]? with
  | some ts, some tr =>
    s != r && (sidesWithThird ts).any (fun e =>
      ccwAlignedEdge vertices e.1 e.2
        && (sidesWithThird tr).any (fun f => edgeOf f.1 == edgeOf e.1))
  | _, _ => false

/-- The pairs of the pressure relation of the input. -/
def inputPressure (vertices : List Vertex) (triangles : List (Nat × Nat × Nat)) :
    List (Nat × Nat) :=
  (List.range triangles.length).flatMap (fun s =>
    ((List.range triangles.length).filter (fun r => inputPresses vertices triangles s r)).map
      (fun r => (s, r)))

/-- Two triangles above the edge (0,0)-(65536,0), with coordinates inside the range of
the task conditions: each has the common edge as a counter-clockwise-aligned edge. -/
def stackedVertices : List Vertex :=
  [{ x := 0, y := 0 }, { x := 65536, y := 0 }, { x := 1, y := 32768 }, { x := 1, y := 3 }]

/-- The triangles of the stacked example. -/
def stackedTriangles : List (Nat × Nat × Nat) := [(1, 2, 3), (1, 2, 4)]

/-! ## Vocabulary for the calls of the other-owner lookup -/

/-- Every rib whose first owner is triangle `T` has its key among `seen`. -/
def FirstOwned (seen : List (Nat × Nat)) (T : Nat) (ribs : List Rib)
    (map : List ((Nat × Nat) × Nat)) : Prop :=
  ∀ (i : Nat) (rib : Rib) (key : Nat × Nat), ribs[i]? = some rib → (key, i) ∈ map →
    rib.ownerTriangles.1 = T → 1 ≤ seen.count key

/-- Every rib with triangle `T` in both owner slots has its key twice among `seen`. -/
def SelfOwned (seen : List (Nat × Nat)) (T : Nat) (ribs : List Rib)
    (map : List ((Nat × Nat) × Nat)) : Prop :=
  ∀ (i : Nat) (rib : Rib) (key : Nat × Nat), ribs[i]? = some rib → (key, i) ∈ map →
    rib.ownerTriangles.1 = T → rib.ownerTriangles.2 = T → 2 ≤ seen.count key

/-- Every entry of the rib list of a triangle built from the input triangles `done` is
the rib of a side of that triangle which passed the tests of the loop body. -/
def ListsSound (vertices : List Vertex) (done : List (Nat × Nat × Nat)) (b : Build) : Prop :=
  ∀ (T : Nat) (t : Nat × Nat × Nat) (triangle : Triangle), done[T]? = some t →
    b.triangles[T]? = some triangle →
    ∀ ri, (ri = triangle.ribs.1 ∨ ri = triangle.ribs.2) → ri ≠ invalidIndex →
      ∃ e ∈ sidesWithThird t, (canonicalKey vertices e.1, ri) ∈ b.verticesToRibs
        ∧ ccwSide vertices (canonicalKey vertices e.1) e.2 = true

/-! ## The map operations -/

theorem relaxReceivers_eq (r : Nat × Nat) (m : PressureMap) :
    relaxReceivers r m = relaxList (validEntries r) m := by
  unfold relaxReceivers validEntries
  by_cases h1 : r.1 = invalidIndex
  · simp [h1, relaxList]
  · by_cases h2 : r.2 = invalidIndex
    · simp only [h1, h2, if_true, if_false, relaxList]
    · simp only [h1, h2, if_false, relaxList]
      cases h : decreaseKey r.1 m with
      | none => rfl
      | some m1 =>
        simp only []
        cases h' : decreaseKey r.2 m1 <;> rfl

theorem extractNode_some {t : Nat} :
    ∀ {m : PressureMap}, t ∈ mapTriangles m → ∃ k m1, extractNode t m = some (k, m1)
  | [], h => by simp [mapTriangles] at h
  | e :: rest, h => by
    by_cases he : e.2 = t
    · exact ⟨e.1, rest, by simp [extractNode, he]⟩
    · have hin : t ∈ mapTriangles rest := by
        simp only [mapTriangles, List.map_cons, List.mem_cons] at h
        rcases h with h | h
        · exact absurd h.symm he
        · exact h
      obtain ⟨k, m1, hk⟩ := extractNode_some hin
      exact ⟨k, e :: m1, by simp [extractNode, he, hk]⟩

theorem extractNode_perm {t : Nat} :
    ∀ {m : PressureMap} {k : Int} {m1 : PressureMap}, extractNode t m = some (k, m1) →
      m.Perm ((k, t) :: m1) ∧ m1.Sublist m
  | [], _, _, h => by simp [extractNode] at h
  | e :: rest, k, m1, h => by
    by_cases he : e.2 = t
    · simp only [extractNode, he, if_true, Option.some.injEq, Prod.mk.injEq] at h
      obtain ⟨hk, hm⟩ := h
      subst hm
      have : e = (k, t) := by rw [← hk, ← he]
      rw [this]
      exact ⟨List.Perm.refl _, List.sublist_cons_self _ _⟩
    · simp only [extractNode, he, if_false] at h
      cases hr : extractNode t rest with
      | none => simp [hr] at h
      | some p =>
        obtain ⟨k1, rest1⟩ := p
        simp only [hr, Option.some.injEq, Prod.mk.injEq] at h
        obtain ⟨hk, hm⟩ := h
        subst hk; subst hm
        obtain ⟨hp, hs⟩ := extractNode_perm hr
        exact ⟨(List.Perm.cons e hp).trans (List.Perm.swap _ _ _), hs.cons₂ e⟩

theorem insertAtBegin_perm (k : Int) (t : Nat) :
    ∀ m : PressureMap, (insertAtBegin k t m).Perm ((k, t) :: m)
  | [] => List.Perm.refl _
  | e :: rest => by
    unfold insertAtBegin
    by_cases h : k ≤ e.1
    · simp [h]
    · simp only [h, if_false]
      exact (List.Perm.cons e (insertAtBegin_perm k t rest)).trans (List.Perm.swap _ _ _)

theorem emplace_perm (k : Int) (t : Nat) :
    ∀ m : PressureMap, (emplace k t m).Perm ((k, t) :: m)
  | [] => List.Perm.refl _
  | e :: rest => by
    unfold emplace
    by_cases h : k < e.1
    · simp [h]
    · simp only [h, if_false]
      exact (List.Perm.cons e (emplace_perm k t rest)).trans (List.Perm.swap _ _ _)

theorem insertAtBegin_sorted (k : Int) (t : Nat) :
    ∀ m : PressureMap, KeySorted m → KeySorted (insertAtBegin k t m)
  | [], _ => by simp [insertAtBegin, KeySorted]
  | e :: rest, h => by
    unfold insertAtBegin
    have h' := List.pairwise_cons.1 h
    by_cases hk : k ≤ e.1
    · simp only [hk, if_true]
      refine List.pairwise_cons.2 ⟨?_, h⟩
      intro a ha
      rcases List.mem_cons.1 ha with ha | ha
      · rw [ha]; exact hk
      · exact le_trans hk (h'.1 a ha)
    · simp only [hk, if_false]
      refine List.pairwise_cons.2 ⟨?_, insertAtBegin_sorted k t rest h'.2⟩
      intro a ha
      rcases List.mem_cons.1 ((insertAtBegin_perm k t rest).mem_iff.1 ha) with ha | ha
      · rw [ha]; exact le_of_lt (not_le.1 hk)
      · exact h'.1 a ha

theorem emplace_sorted (k : Int) (t : Nat) :
    ∀ m : PressureMap, KeySorted m → KeySorted (emplace k t m)
  | [], _ => by simp [emplace, KeySorted]
  | e :: rest, h => by
    unfold emplace
    have h' := List.pairwise_cons.1 h
    by_cases hk : k < e.1
    · simp only [hk, if_true]
      refine List.pairwise_cons.2 ⟨?_, h⟩
      intro a ha
      rcases List.mem_cons.1 ha with ha | ha
      · rw [ha]; exact le_of_lt hk
      · exact le_trans (le_of_lt hk) (h'.1 a ha)
    · simp only [hk, if_false]
      refine List.pairwise_cons.2 ⟨?_, emplace_sorted k t rest h'.2⟩
      intro a ha
      rcases List.mem_cons.1 ((emplace_perm k t rest).mem_iff.1 ha) with ha | ha
      · rw [ha]; exact not_lt.1 hk
      · exact h'.1 a ha

theorem mapTriangles_perm {m m1 : PressureMap} (h : m.Perm m1) :
    (mapTriangles m).Perm (mapTriangles m1) := h.map _

theorem pressureLoad_perm (receivers : List (Nat × Nat)) {a b : List Nat} (h : a.Perm b)
    (t : Nat) : pressureLoad receivers a t = pressureLoad receivers b t :=
  (h.map _).sum_eq

theorem pressureLoad_cons (receivers : List (Nat × Nat)) (s : Nat) (l : List Nat) (t : Nat) :
    pressureLoad receivers (s :: l) t
      = (receiversOf receivers s).count t + pressureLoad receivers l t := by
  simp [pressureLoad]

theorem count_le_pressureLoad (receivers : List (Nat × Nat)) {s : Nat} {l : List Nat}
    (hs : s ∈ l) (t : Nat) : (receiversOf receivers s).count t ≤ pressureLoad receivers l t := by
  induction l with
  | nil => simp at hs
  | cons a l ih =>
    rw [pressureLoad_cons]
    rcases List.mem_cons.1 hs with h | h
    · subst h; exact Nat.le_add_right _ _
    · exact le_trans (ih h) (Nat.le_add_left _ _)

/-! ## The invariant of the extraction loop -/

theorem decreaseKey_inv {receivers : List (Nat × Nat)} {m : PressureMap} {r : Nat}
    {pending : List Nat} (h : MapInv receivers m (r :: pending)) :
    ∃ m1, decreaseKey r m = some m1 ∧ MapInv receivers m1 pending
      ∧ (mapTriangles m1).Perm (mapTriangles m) := by
  have hr : r ∈ mapTriangles m := h.pendingIn r (List.mem_cons_self _ _)
  obtain ⟨k, m0, hx⟩ := extractNode_some hr
  obtain ⟨hp, hs⟩ := extractNode_perm hx
  have hp1 : (insertAtBegin (k - 1) r m0).Perm ((k - 1, r) :: m0) := insertAtBegin_perm _ _ _
  have ht : (mapTriangles (insertAtBegin (k - 1) r m0)).Perm (mapTriangles m) :=
    (mapTriangles_perm hp1).trans (mapTriangles_perm hp).symm
  have hnd : (r :: mapTriangles m0).Nodup := (mapTriangles_perm hp).nodup_iff.1 h.nodup
  refine ⟨insertAtBegin (k - 1) r m0, by simp [decreaseKey, hx], ?_, ht⟩
  refine ⟨ht.nodup_iff.2 h.nodup, insertAtBegin_sorted _ _ _ (List.Pairwise.sublist hs h.sorted),
    fun t h1 => h.inRange t (ht.mem_iff.1 h1),
    fun s h1 q hq => ht.mem_iff.2 (h.closed s (ht.mem_iff.1 h1) q hq),
    fun q hq => ht.mem_iff.2 (h.pendingIn q (List.mem_cons_of_mem _ hq)), ?_⟩
  intro e he
  rw [pressureLoad_perm receivers ht]
  rcases List.mem_cons.1 (hp1.mem_iff.1 he) with he | he
  · subst he
    have hk := h.key (k, r) (hp.mem_iff.2 (List.mem_cons_self _ _))
    simp only [List.count_cons_self, Nat.cast_add, Nat.cast_one] at hk
    simp only
    omega
  · have hem : e ∈ m := hs.subset he
    have hne : e.2 ≠ r := by
      intro heq
      apply (List.nodup_cons.1 hnd).1
      rw [← heq]
      exact List.mem_map_of_mem _ he
    have hk := h.key e hem
    rw [List.count_cons_of_ne hne] at hk
    exact hk

theorem relaxList_inv {receivers : List (Nat × Nat)} :
    ∀ (pending : List Nat) {m : PressureMap}, MapInv receivers m pending →
      ∃ m1, relaxList pending m = some m1 ∧ MapInv receivers m1 []
        ∧ (mapTriangles m1).Perm (mapTriangles m)
  | [], m, h => ⟨m, rfl, h, List.Perm.refl _⟩
  | r :: rs, m, h => by
    obtain ⟨m1, h1, hi, hp⟩ := decreaseKey_inv h
    obtain ⟨m2, h2, hi2, hp2⟩ := relaxList_inv rs hi
    exact ⟨m2, by simp [relaxList, h1, h2], hi2, hp2.trans hp⟩

theorem pressureLoad_eq_zero {receivers : List (Nat × Nat)} {t : Nat} :
    ∀ {l : List Nat}, (∀ s ∈ l, t ∉ receiversOf receivers s) → pressureLoad receivers l t = 0
  | [], _ => rfl
  | a :: l, h => by
    rw [pressureLoad_cons, pressureLoad_eq_zero (fun s hs => h s (List.mem_cons_of_mem _ hs)),
      List.count_eq_zero.2 (h a (List.mem_cons_self _ _))]

theorem not_pressed_of_key_zero {receivers : List (Nat × Nat)} {T : Nat} {rest : PressureMap}
    (h : MapInv receivers ((0, T) :: rest) []) :
    ∀ s ∈ T :: mapTriangles rest, T ∉ receiversOf receivers s := by
  intro s hs
  have hk := h.key (0, T) (List.mem_cons_self _ _)
  have hle := count_le_pressureLoad receivers (l := mapTriangles ((0, T) :: rest)) hs T
  simp only [List.count_nil, Nat.cast_zero, add_zero] at hk
  have h0 : (receiversOf receivers s).count T = 0 := by omega
  exact List.count_eq_zero.1 h0

theorem receiversOf_eq_of_getElem {receivers : List (Nat × Nat)} {T : Nat} {r : Nat × Nat}
    (h : receivers[T]? = some r) : receiversOf receivers T = validEntries r := by
  simp [receiversOf, List.getD_eq_getElem?_getD, h]

theorem extractStep_zero {receivers : List (Nat × Nat)} {T : Nat} {rest : PressureMap}
    (out : List Nat) (h : MapInv receivers ((0, T) :: rest) []) :
    ∃ m1, extractStep receivers { map := (0, T) :: rest, output := out }
          = .next { map := m1, output := out ++ [T + 1] }
      ∧ MapInv receivers m1 [] ∧ (mapTriangles m1).Perm (mapTriangles rest)
      ∧ (∀ r ∈ receiversOf receivers T, r ∈ mapTriangles rest) := by
  have hT : T < receivers.length := h.inRange T (List.mem_cons_self _ _)
  have hget : receivers[T]? = some receivers[T] := List.getElem?_eq_getElem hT
  have hrecv := receiversOf_eq_of_getElem hget
  have hnp := not_pressed_of_key_zero h
  have hnd : (T :: mapTriangles rest).Nodup := h.nodup
  have hsorted : KeySorted rest := (List.pairwise_cons.1 h.sorted).2
  have hin : ∀ s ∈ T :: mapTriangles rest, ∀ r ∈ receiversOf receivers s,
      r ∈ mapTriangles rest := by
    intro s hs r hr
    rcases List.mem_cons.1 (h.closed s hs r hr) with h1 | h1
    · subst h1; exact absurd hr (hnp s hs)
    · exact h1
  have hinv : MapInv receivers rest (receiversOf receivers T) := by
    refine ⟨(List.nodup_cons.1 hnd).2, hsorted,
      fun t ht => h.inRange t (List.mem_cons_of_mem _ ht),
      fun s hs r hr => hin s (List.mem_cons_of_mem _ hs) r hr,
      fun r hr => hin T (List.mem_cons_self _ _) r hr, ?_⟩
    intro e he
    have hk := h.key e (List.mem_cons_of_mem _ he)
    have hc : pressureLoad receivers (mapTriangles ((0, T) :: rest)) e.2
        = (receiversOf receivers T).count e.2 + pressureLoad receivers (mapTriangles rest) e.2 :=
      pressureLoad_cons receivers T (mapTriangles rest) e.2
    rw [hc] at hk
    simp only [List.count_nil, Nat.cast_zero, add_zero, Nat.cast_add] at hk
    omega
  obtain ⟨m1, h1, hi1, hp1⟩ := relaxList_inv _ hinv
  refine ⟨m1, ?_, hi1, hp1, hin T (List.mem_cons_self _ _)⟩
  rw [hrecv] at h1
  simp [extractStep, hget, relaxReceivers_eq, h1]

theorem extractStep_nonzero (receivers : List (Nat × Nat)) {k : Int} (T : Nat)
    (rest : PressureMap) (out : List Nat) (hk : k ≠ 0) :
    extractStep receivers { map := (k, T) :: rest, output := out }
      = .halt .assertionFailed out := by
  simp [extractStep, hk]

/-! ## An acyclic pressure relation leaves a triangle that nothing presses on -/

theorem exists_unpressed {receivers : List (Nat × Nat)} (hac : Acyclic receivers)
    (l : List Nat) (hl : l ≠ []) : ∃ t ∈ l, ∀ s ∈ l, ¬ Presses receivers s t := by
  obtain ⟨x, hx⟩ := List.exists_mem_of_ne_nil l hl
  let rel : {t // t ∈ l} → {t // t ∈ l} → Prop :=
    fun a b => Relation.TransGen (Presses receivers) a.1 b.1
  haveI : IsTrans {t // t ∈ l} rel := ⟨fun _ _ _ h1 h2 => Relation.TransGen.trans h1 h2⟩
  haveI : IsIrrefl {t // t ∈ l} rel := ⟨fun a h => hac a.1 h⟩
  have wf : WellFounded rel := Finite.wellFounded_of_trans_of_irrefl rel
  obtain ⟨m, _, hmin⟩ := wf.has_min Set.univ ⟨⟨x, hx⟩, trivial⟩
  exact ⟨m.1, m.2, fun s hs hp => hmin ⟨s, hs⟩ trivial (Relation.TransGen.single hp)⟩

theorem head_key_zero_of_acyclic {receivers : List (Nat × Nat)} (hac : Acyclic receivers)
    {e : Int × Nat} {rest : PressureMap} (h : MapInv receivers (e :: rest) []) : e.1 = 0 := by
  obtain ⟨t, ht, hmin⟩ := exists_unpressed hac (mapTriangles (e :: rest)) (by simp [mapTriangles])
  obtain ⟨e1, he1, het⟩ := List.mem_map.1 ht
  have hk1 := h.key e1 he1
  rw [het, pressureLoad_eq_zero (fun s hs => hmin s hs)] at hk1
  simp only [List.count_nil, Nat.cast_zero, add_zero] at hk1
  have hk := h.key e (List.mem_cons_self _ _)
  simp only [List.count_nil, Nat.cast_zero, add_zero] at hk
  have hle : e.1 ≤ e1.1 := by
    rcases List.mem_cons.1 he1 with h1 | h1
    · rw [h1]
    · exact (List.pairwise_cons.1 h.sorted).1 e1 h1
  omega

/-! ## What a run of the extraction loop produces -/

theorem mapTriangles_length (m : PressureMap) : (mapTriangles m).length = m.length := by
  simp [mapTriangles]

theorem extractLoop_spec (receivers : List (Nat × Nat)) :
    ∀ (fuel : Nat) (m : PressureMap) (out : List Nat), MapInv receivers m [] →
      m.length ≤ fuel →
      ∃ emitted, LoopSpec receivers m out
        (extractLoop receivers fuel { map := m, output := out }) emitted
  | 0, [], out, _, _ =>
    ⟨[], by simp [extractLoop], Or.inl rfl, List.nodup_nil, by simp, fun _ => List.Perm.refl _,
      fun h => absurd rfl h, by simp, fun _ => rfl⟩
  | 0, _ :: _, _, _, hlen => by simp at hlen
  | fuel + 1, [], out, _, _ =>
    ⟨[], by simp [extractLoop, extractStep], Or.inl rfl, List.nodup_nil, by simp,
      fun _ => List.Perm.refl _, fun h => absurd rfl h, by simp, fun _ => rfl⟩
  | fuel + 1, (k, T) :: rest, out, h, hlen => by
    by_cases hk : k = 0
    · subst hk
      obtain ⟨m1, hstep, hinv, hperm, _⟩ := extractStep_zero out h
      have hlen1 : m1.length ≤ fuel := by
        have := hperm.length_eq
        rw [mapTriangles_length, mapTriangles_length] at this
        simp only [List.length_cons] at hlen
        omega
      obtain ⟨E, hE⟩ := extractLoop_spec receivers fuel m1 (out ++ [T + 1]) hinv hlen1
      have hrun : extractLoop receivers (fuel + 1) { map := (0, T) :: rest, output := out }
          = extractLoop receivers fuel { map := m1, output := out ++ [T + 1] } := by
        simp [extractLoop, hstep]
      rw [hrun]
      have hnd : (T :: mapTriangles rest).Nodup := h.nodup
      have hTE : T ∉ E := fun hT =>
        (List.nodup_cons.1 hnd).1 (hperm.mem_iff.1 (hE.subset T hT))
      have hnp := not_pressed_of_key_zero h
      refine ⟨T :: E, by rw [hE.output_eq]; simp, hE.status, List.nodup_cons.2 ⟨hTE, hE.nodup⟩,
        ?_, ?_, ?_, ?_, hE.acyclic⟩
      · intro t ht
        rcases List.mem_cons.1 ht with ht | ht
        · subst ht; exact List.mem_cons_self _ _
        · exact List.mem_cons_of_mem _ (hperm.mem_iff.1 (hE.subset t ht))
      · intro hfin
        exact ((hE.complete hfin).trans hperm).cons T
      · intro hfin
        have h1 := hE.short hfin
        have h2 := hperm.length_eq
        rw [mapTriangles_length, mapTriangles_length] at h2
        simp only [List.length_cons]
        omega
      · intro s hs r hr hrE
        have hrT : r ≠ T := fun heq => hnp s hs (heq ▸ hr)
        have hrE1 : r ∈ E := by
          rcases List.mem_cons.1 hrE with h1 | h1
          · exact absurd h1 hrT
          · exact h1
        rcases List.mem_cons.1 hs with hsT | hsT
        · subst hsT
          refine ⟨List.mem_cons_self _ _, ?_⟩
          rw [List.indexOf_cons_self, List.indexOf_cons_ne _ (Ne.symm hrT)]
          exact Nat.succ_pos _
        · have hsT1 : s ≠ T := fun heq => (List.nodup_cons.1 hnd).1 (heq ▸ hsT)
          obtain ⟨h1, h2⟩ := hE.order s (hperm.mem_iff.2 hsT) r hr hrE1
          refine ⟨List.mem_cons_of_mem _ h1, ?_⟩
          rw [List.indexOf_cons_ne _ (Ne.symm hsT1), List.indexOf_cons_ne _ (Ne.symm hrT)]
          exact Nat.succ_lt_succ h2
    · refine ⟨[], by simp [extractLoop, extractStep_nonzero receivers T rest out hk],
        Or.inr (by simp [extractLoop, extractStep_nonzero receivers T rest out hk]),
        List.nodup_nil, by simp, ?_, by simp, by simp, ?_⟩
      · intro hfin
        simp [extractLoop, extractStep_nonzero receivers T rest out hk] at hfin
      · intro hac
        exact absurd (head_key_zero_of_acyclic hac h) hk

theorem mapInv_key_nonneg {receivers : List (Nat × Nat)} {m : PressureMap}
    (h : MapInv receivers m []) : ∀ e ∈ m, 0 ≤ e.1 := by
  intro e he
  have := h.key e he
  simp only [List.count_nil, Nat.cast_zero, add_zero] at this
  omega

/-- With an acyclic pressure relation every evaluation of the loop body finds the key 0
in front (the least key), finds the receivers of the extracted triangle in the map, and
completes. -/
theorem iterateSteps_of_acyclic {receivers : List (Nat × Nat)} (hac : Acyclic receivers) :
    ∀ (k : Nat) (m : PressureMap) (out : List Nat), MapInv receivers m [] → k < m.length →
      ∃ st t rest st1, iterateSteps receivers k { map := m, output := out } = some st
        ∧ st.map = (0, t) :: rest
        ∧ (∀ e ∈ st.map, 0 ≤ e.1)
        ∧ (∀ r ∈ receiversOf receivers t, r ∈ mapTriangles rest)
        ∧ extractStep receivers st = .next st1
  | _, [], _, _, hk => by simp at hk
  | 0, (key, T) :: rest, out, h, _ => by
    have hz : key = 0 := head_key_zero_of_acyclic hac h
    subst hz
    obtain ⟨m1, hstep, _, _, hin⟩ := extractStep_zero out h
    exact ⟨_, T, rest, _, rfl, rfl, mapInv_key_nonneg h, hin, hstep⟩
  | k + 1, (key, T) :: rest, out, h, hk => by
    have hz : key = 0 := head_key_zero_of_acyclic hac h
    subst hz
    obtain ⟨m1, hstep, hinv, hperm, _⟩ := extractStep_zero out h
    have hlen1 : k < m1.length := by
      have := hperm.length_eq
      rw [mapTriangles_length, mapTriangles_length] at this
      simp only [List.length_cons] at hk
      omega
    obtain ⟨st, t, rest1, st1, h1, h2, h3, h4, h5⟩ :=
      iterateSteps_of_acyclic hac k m1 (out ++ [T + 1]) hinv hlen1
    exact ⟨st, t, rest1, st1, by simp [iterateSteps, hstep, h1], h2, h3, h4, h5⟩

/-- A step that goes on has extracted the triangle in front of the map, whose key was 0,
and has written its number. -/
theorem extractStep_next {receivers : List (Nat × Nat)} {st st1 : ExtractState}
    (h : extractStep receivers st = .next st1) :
    ∃ t rest, st.map = (0, t) :: rest ∧ st1.output = st.output ++ [t + 1] := by
  unfold extractStep at h
  split at h
  · cases h
  · rename_i target rest hmap
    split at h
    · cases h
    · rename_i hz
      simp only at h
      split at h
      · cases h
      · split at h
        · cases h
        · simp only [StepResult.next.injEq] at h
          subst h
          refine ⟨target.2, rest, ?_, rfl⟩
          rw [hmap]
          have : target.1 = 0 := by simpa using hz
          rw [← this]

/-- A step stops on the assertion only when the key in front of the map is not 0, and
then it has written nothing. -/
theorem extractStep_halt_assertion {receivers : List (Nat × Nat)} {st : ExtractState}
    {out : List Nat} (h : extractStep receivers st = .halt .assertionFailed out) :
    (∃ e rest, st.map = e :: rest ∧ e.1 ≠ 0) ∧ out = st.output := by
  unfold extractStep at h
  split at h
  · cases h
  · rename_i target rest hmap
    split at h
    · rename_i hz
      simp only [StepResult.halt.injEq, true_and] at h
      exact ⟨⟨target, rest, hmap, hz⟩, h.symm⟩
    · simp only at h
      split at h
      · cases h
      · split at h
        · cases h
        · cases h

/-- A run that ends on the assertion went through `k` complete steps and then met a
key different from 0 in front of the map; its output is what those steps wrote. -/
theorem extractLoop_assertionFailed {receivers : List (Nat × Nat)} :
    ∀ (fuel : Nat) (st : ExtractState),
      (extractLoop receivers fuel st).status = .assertionFailed →
      ∃ k st1 e rest, iterateSteps receivers k st = some st1 ∧ st1.map = e :: rest ∧ e.1 ≠ 0
        ∧ (extractLoop receivers fuel st).output = st1.output
  | 0, st, h => by
    unfold extractLoop at h
    split at h <;> cases h
  | fuel + 1, st, h => by
    unfold extractLoop at h ⊢
    cases hs : extractStep receivers st with
    | done => simp [hs] at h
    | halt status out =>
      simp only [hs] at h ⊢
      subst h
      obtain ⟨⟨e, rest, h1, h2⟩, h3⟩ := extractStep_halt_assertion hs
      exact ⟨0, st, e, rest, rfl, h1, h2, h3⟩
    | next st1 =>
      simp only [hs] at h ⊢
      obtain ⟨k, st2, e, rest, h1, h2, h3, h4⟩ := extractLoop_assertionFailed fuel st1 h
      exact ⟨k + 1, st2, e, rest, by simp [iterateSteps, hs, h1], h2, h3, h4⟩

/-! ## The pressure index -/

theorem set_bump {l : List Int} {o : Nat} {p : Int} (h : l[o]? = some p) (t : Nat) :
    (l.set o (p + 1))[t]? = (l[t]?).map (fun q => q + (([o] : List Nat).count t : Int)) := by
  have ho : o < l.length := (List.getElem?_eq_some.1 h).1
  by_cases hto : o = t
  · subst hto
    simp [List.getElem?_set_self ho, h]
  · rw [List.getElem?_set_ne hto]
    have : ([o] : List Nat).count t = 0 := List.count_eq_zero.2 (by simp [Ne.symm hto])
    simp [this]

theorem pressRib_spec {ribs : List Rib} {ti ri : Nat} {g g1 : PressureIndex}
    (h : pressRib ribs ti ri g = .ok g1) :
    (otherOwnerOf ribs ti ri = none ∧ g1 = g) ∨
    (∃ o p a, otherOwnerOf ribs ti ri = some o ∧ o ≠ invalidIndex ∧ g.pressure[o]? = some p
      ∧ g.receivers[ti]? = some a
      ∧ g1 = { pressure := g.pressure.set o (p + 1)
               receivers := g.receivers.set ti
                 (if a.1 = invalidIndex then (o, a.2) else (a.1, o)) }) := by
  unfold pressRib at h
  cases hr : ribs[ri]? with
  | none => simp [hr] at h
  | some rib =>
    simp only [hr] at h
    by_cases ho : rib.getOtherOwner ti = invalidIndex
    · left
      simp only [ho, if_true, Except.ok.injEq] at h
      exact ⟨by simp [otherOwnerOf, hr, ho], h.symm⟩
    · right
      simp only [ho, if_false] at h
      cases hp : g.pressure[rib.getOtherOwner ti]? with
      | none => simp [hp] at h
      | some p =>
        cases ha : g.receivers[ti]? with
        | none => simp [hp, ha] at h
        | some a =>
          simp only [hp, ha, Except.ok.injEq] at h
          exact ⟨_, p, a, by simp [otherOwnerOf, hr, ho], ho, hp, rfl, h.symm⟩

/-- What one rib does to the index vectors when the receiver array of `ti` holds the
entries `have_` (at most one) and nothing else. -/
theorem pressRib_effect {ribs : List Rib} {ti ri : Nat} {g g1 : PressureIndex} {a : Nat × Nat}
    (ha : g.receivers[ti]? = some a) (ha2 : a.2 = invalidIndex)
    (h : pressRib ribs ti ri g = .ok g1) :
    g1.pressure.length = g.pressure.length
    ∧ g1.receivers.length = g.receivers.length
    ∧ (∀ s, s ≠ ti → g1.receivers[s]? = g.receivers[s]?)
    ∧ (∀ t, g1.pressure[t]? = (g.pressure[t]?).map
        (fun q => q + (((otherOwnerOf ribs ti ri).toList.count t : Nat) : Int)))
    ∧ (∀ o ∈ (otherOwnerOf ribs ti ri).toList, o < g.pressure.length)
    ∧ ∃ a1, g1.receivers[ti]? = some a1
        ∧ validEntries a1 = validEntries a ++ (otherOwnerOf ribs ti ri).toList
        ∧ (a.1 = invalidIndex → a1.2 = invalidIndex) := by
  rcases pressRib_spec h with ⟨ho, hg⟩ | ⟨o, p, a', ho, hoi, hp, ha', hg⟩
  · subst hg
    refine ⟨rfl, rfl, fun _ _ => rfl, fun t => ?_, by simp [ho], a, ha, by simp [ho],
      fun _ => ha2⟩
    simp [ho]
  · rw [ha] at ha'
    obtain rfl : a = a' := Option.some.inj ha'
    have hti : ti < g.receivers.length := (List.getElem?_eq_some.1 ha).1
    have hol : o < g.pressure.length := (List.getElem?_eq_some.1 hp).1
    subst hg
    refine ⟨by simp, by simp, fun s hs => by simp [List.getElem?_set_ne (Ne.symm hs)],
      fun t => ?_, ?_, (if a.1 = invalidIndex then (o, a.2) else (a.1, o)),
      by simp [List.getElem?_set_self hti], ?_, ?_⟩
    · rw [ho]; exact set_bump hp t
    · intro q hq
      rw [ho] at hq
      simp only [Option.toList_some, List.mem_singleton] at hq
      rw [hq]; exact hol
    · rw [ho]
      by_cases h1 : a.1 = invalidIndex
      · simp [validEntries, h1, ha2, hoi]
      · simp [validEntries, h1, ha2, hoi]
    · intro h1
      simp [h1, ha2]

theorem pressTriangle_spec {ribs : List Rib} {ti : Nat} {triangle : Triangle}
    {g g1 : PressureIndex} (hrecv : g.receivers[ti]? = some (invalidIndex, invalidIndex))
    (h : pressTriangle ribs ti triangle g = .ok g1) :
    g1.pressure.length = g.pressure.length
    ∧ g1.receivers.length = g.receivers.length
    ∧ (∀ s, s ≠ ti → g1.receivers[s]? = g.receivers[s]?)
    ∧ (∀ t, g1.pressure[t]? = (g.pressure[t]?).map
        (fun q => q + (((pressedBy ribs ti triangle).count t : Nat) : Int)))
    ∧ (∀ o ∈ pressedBy ribs ti triangle, o < g.pressure.length)
    ∧ ∃ a1, g1.receivers[ti]? = some a1 ∧ validEntries a1 = pressedBy ribs ti triangle := by
  unfold pressTriangle at h
  by_cases h0 : triangle.ribs.1 = invalidIndex
  · simp only [h0, if_true, Except.ok.injEq] at h
    subst h
    have hp : pressedBy ribs ti triangle = [] := by simp [pressedBy, validEntries, h0]
    rw [hp]
    refine ⟨rfl, rfl, fun _ _ => rfl, fun t => by simp, by simp, _, hrecv, ?_⟩
    simp [validEntries]
  · simp only [h0, if_false] at h
    cases hr0 : pressRib ribs ti triangle.ribs.1 g with
    | error e => simp [hr0] at h
    | ok ga =>
      simp only [hr0] at h
      obtain ⟨hl1, hl2, hs1, hp1, hb1, a1, ha1, hv1, hslot1⟩ := pressRib_effect hrecv rfl hr0
      have hv1' : validEntries a1 = (otherOwnerOf ribs ti triangle.ribs.1).toList := by
        rw [hv1]; simp [validEntries]
      by_cases h1 : triangle.ribs.2 = invalidIndex
      · simp only [h1, if_true, Except.ok.injEq] at h
        subst h
        have hp : pressedBy ribs ti triangle = (otherOwnerOf ribs ti triangle.ribs.1).toList := by
          simp only [pressedBy, validEntries, h0, h1, if_true, if_false, List.filterMap_cons,
            List.filterMap_nil]
          cases otherOwnerOf ribs ti triangle.ribs.1 <;> rfl
        rw [hp]
        exact ⟨hl1, hl2, hs1, hp1, hb1, a1, ha1, hv1'⟩
      · simp only [h1, if_false] at h
        have ha12 : a1.2 = invalidIndex := hslot1 rfl
        obtain ⟨hl3, hl4, hs2, hp2, hb2, a2, ha2, hv2, _⟩ := pressRib_effect ha1 ha12 h
        have hp : pressedBy ribs ti triangle = (otherOwnerOf ribs ti triangle.ribs.1).toList
            ++ (otherOwnerOf ribs ti triangle.ribs.2).toList := by
          simp only [pressedBy, validEntries, h0, h1, if_false, List.filterMap_cons,
            List.filterMap_nil]
          cases otherOwnerOf ribs ti triangle.ribs.1 <;>
            cases otherOwnerOf ribs ti triangle.ribs.2 <;> rfl
        rw [hp]
        refine ⟨hl3.trans hl1, hl4.trans hl2, fun s hs => (hs2 s hs).trans (hs1 s hs),
          fun t => ?_, ?_, a2, ha2, by rw [hv2, hv1']⟩
        · rw [hp2 t, hp1 t, Option.map_map]
          congr 1
          funext q
          simp only [Function.comp, List.count_append, Nat.cast_add]
          ring
        · intro o ho
          rcases List.mem_append.1 ho with ho | ho
          · exact hb1 o ho
          · rw [← hl1]; exact hb2 o ho

theorem sum_map_update {f f1 : Nat → Nat} {k c : Nat} :
    ∀ {l : List Nat}, l.Nodup → k ∈ l → (∀ s ∈ l, s ≠ k → f1 s = f s) → f1 k = f k + c →
      (l.map f1).sum = (l.map f).sum + c
  | [], _, hk, _, _ => by simp at hk
  | a :: l, hnd, hk, hs, hc => by
    obtain ⟨hal, hndl⟩ := List.nodup_cons.1 hnd
    by_cases hak : a = k
    · subst hak
      have hmap : l.map f1 = l.map f :=
        List.map_congr_left (fun s hs1 =>
          hs s (List.mem_cons_of_mem _ hs1) (fun heq => hal (heq ▸ hs1)))
      simp only [List.map_cons, List.sum_cons, hmap, hc]
      omega
    · have hkl : k ∈ l := by
        rcases List.mem_cons.1 hk with h | h
        · exact absurd h.symm hak
        · exact h
      have ih := sum_map_update hndl hkl (fun s hs1 => hs s (List.mem_cons_of_mem _ hs1)) hc
      simp only [List.map_cons, List.sum_cons, ih, hs a (List.mem_cons_self _ _) hak]
      omega

theorem receiversOf_congr {r1 r2 : List (Nat × Nat)} {s : Nat} (h : r1[s]? = r2[s]?) :
    receiversOf r1 s = receiversOf r2 s := by
  simp [receiversOf, h]

theorem receiversOf_invalid {r : List (Nat × Nat)} {s : Nat}
    (h : r[s]? = some (invalidIndex, invalidIndex)) : receiversOf r s = [] := by
  simp [receiversOf, h, validEntries]

theorem receiversOf_out_of_range {r : List (Nat × Nat)} {s : Nat} (h : r.length ≤ s) :
    receiversOf r s = [] := by
  simp [receiversOf, List.getElem?_eq_none h, validEntries]

theorem indexInv_init (ribs : List Rib) (all : List Triangle) :
    IndexInv ribs all 0
      { pressure := List.replicate all.length 0
        receivers := List.replicate all.length (invalidIndex, invalidIndex) } := by
  have hrecv : ∀ s, receiversOf (List.replicate all.length (invalidIndex, invalidIndex)) s = [] := by
    intro s
    by_cases hs : s < all.length
    · exact receiversOf_invalid (by simp [List.getElem?_replicate, hs])
    · exact receiversOf_out_of_range (by simp; omega)
  refine ⟨by simp, by simp, fun s _ hs => by simp [List.getElem?_replicate, hs], ?_, ?_, ?_⟩
  · intro t ht
    have : pressureLoad (List.replicate all.length (invalidIndex, invalidIndex))
        (List.range all.length) t = 0 :=
      pressureLoad_eq_zero (fun s _ => by rw [hrecv s]; simp)
    simp [this, List.getElem?_replicate, ht]
  · intro s r hr
    rw [hrecv s] at hr
    simp at hr
  · intro s _ hs _
    omega

theorem indexInv_step {ribs : List Rib} {all : List Triangle} {k : Nat} {g g1 : PressureIndex}
    {triangle : Triangle} (hinv : IndexInv ribs all k g) (hk : all[k]? = some triangle)
    (h : pressTriangle ribs k triangle g = .ok g1) : IndexInv ribs all (k + 1) g1 := by
  have hkl : k < all.length := (List.getElem?_eq_some.1 hk).1
  obtain ⟨hl1, hl2, hsame, hpress, hb, a1, ha1, hv1⟩ :=
    pressTriangle_spec (hinv.untouched k (le_refl _) hkl) h
  have hold : receiversOf g.receivers k = [] :=
    receiversOf_invalid (hinv.untouched k (le_refl _) hkl)
  have hnew : receiversOf g1.receivers k = pressedBy ribs k triangle := by
    rw [receiversOf_eq_of_getElem ha1, hv1]
  have hother : ∀ s, s ≠ k → receiversOf g1.receivers s = receiversOf g.receivers s :=
    fun s hs => receiversOf_congr (hsame s hs)
  refine ⟨hl1.trans hinv.pressure_length, hl2.trans hinv.receivers_length, ?_, ?_, ?_, ?_⟩
  · intro s hs hsl
    rw [hsame s (by omega)]
    exact hinv.untouched s (by omega) hsl
  · intro t ht
    rw [hpress t, hinv.count t ht]
    have hsum : pressureLoad g1.receivers (List.range all.length) t
        = pressureLoad g.receivers (List.range all.length) t
          + (pressedBy ribs k triangle).count t := by
      unfold pressureLoad
      refine sum_map_update (List.nodup_range _) (List.mem_range.2 hkl) ?_ ?_
      · intro s _ hs
        rw [hother s hs]
      · rw [hnew, hold]
        simp
    rw [hsum]
    simp
  · intro s r hr
    by_cases hs : s = k
    · subst hs
      rw [hnew] at hr
      have := hb r hr
      rw [hinv.pressure_length] at this
      exact this
    · rw [hother s hs] at hr
      exact hinv.bound s r hr
  · intro s tri hs htri
    by_cases hsk : s = k
    · subst hsk
      rw [hk] at htri
      obtain rfl : triangle = tri := Option.some.inj htri
      exact hnew
    · rw [hother s hsk]
      exact hinv.pressed s tri (by omega) htri

theorem pressFrom_spec {ribs : List Rib} {all : List Triangle} :
    ∀ (ts : List Triangle) (k : Nat) (g g1 : PressureIndex), IndexInv ribs all k g →
      (∀ j, ts[j]? = all[k + j]?) → k + ts.length = all.length →
      pressFrom ribs k ts g = .ok g1 → IndexInv ribs all all.length g1
  | [], k, g, g1, hinv, _, hlen, h => by
    simp only [pressFrom, Except.ok.injEq] at h
    subst h
    simp only [List.length_nil, add_zero] at hlen
    rw [← hlen]
    exact hinv
  | t :: ts, k, g, g1, hinv, hts, hlen, h => by
    unfold pressFrom at h
    cases hp : pressTriangle ribs k t g with
    | error e => simp [hp] at h
    | ok g2 =>
      simp only [hp] at h
      have hk : all[k]? = some t := by
        have := hts 0
        simpa using this.symm
      refine pressFrom_spec ts (k + 1) g2 g1 (indexInv_step hinv hk hp) ?_ ?_ h
      · intro j
        have := hts (j + 1)
        simp only [List.getElem?_cons_succ] at this
        rw [this]
        congr 1
        omega
      · simp only [List.length_cons] at hlen
        omega

theorem buildPressureIndex_spec {b : Build} {g : PressureIndex}
    (h : buildPressureIndex b = .ok g) :
    IndexInv b.ribs b.triangles b.triangles.length g :=
  pressFrom_spec b.triangles 0 _ g (indexInv_init b.ribs b.triangles) (fun j => by simp)
    (by simp) h

theorem mem_pressedBy {ribs : List Rib} {T R : Nat} {triangle : Triangle} :
    R ∈ pressedBy ribs T triangle ↔
      ∃ ri rib, ri ∈ validEntries triangle.ribs ∧ ribs[ri]? = some rib
        ∧ rib.getOtherOwner T = R ∧ R ≠ invalidIndex := by
  unfold pressedBy
  rw [List.mem_filterMap]
  constructor
  · rintro ⟨ri, hri, ho⟩
    unfold otherOwnerOf at ho
    cases hr : ribs[ri]? with
    | none => simp [hr] at ho
    | some rib =>
      simp only [hr] at ho
      by_cases hi : rib.getOtherOwner T = invalidIndex
      · simp [hi] at ho
      · simp only [hi, if_false, Option.some.injEq] at ho
        exact ⟨ri, rib, hri, hr, ho, ho ▸ hi⟩
  · rintro ⟨ri, rib, hri, hr, ho, hi⟩
    refine ⟨ri, hri, ?_⟩
    simp [otherOwnerOf, hr, ho, hi]

/-- The receiver index holds the pressure relation of the ribs. -/
theorem pressesOn_iff {b : Build} {g : PressureIndex} (h : buildPressureIndex b = .ok g)
    (T R : Nat) : PressesOn b T R ↔ Presses g.receivers T R := by
  have hinv := buildPressureIndex_spec h
  unfold PressesOn Presses
  constructor
  · rintro ⟨triangle, ri, rib, ht, hri, hr, ho, hi⟩
    have hT : T < b.triangles.length := (List.getElem?_eq_some.1 ht).1
    rw [hinv.pressed T triangle hT ht]
    exact mem_pressedBy.2 ⟨ri, rib, hri, hr, ho, hi⟩
  · intro hR
    have hT : T < b.triangles.length := by
      by_contra hnot
      rw [receiversOf_out_of_range (by rw [hinv.receivers_length]; omega)] at hR
      simp at hR
    have ht : b.triangles[T]? = some b.triangles[T] := List.getElem?_eq_getElem hT
    rw [hinv.pressed T _ hT ht] at hR
    obtain ⟨ri, rib, hri, hr, ho, hi⟩ := mem_pressedBy.1 hR
    exact ⟨_, ri, rib, ht, hri, hr, ho, hi⟩

/-! ## The initial map -/

theorem fillMap_spec :
    ∀ (ps : List Int) (ti : Nat) (m : PressureMap), KeySorted m →
      KeySorted (fillMap ti ps m)
      ∧ (mapTriangles (fillMap ti ps m)).Perm (mapTriangles m ++ List.range' ti ps.length)
      ∧ (∀ e ∈ fillMap ti ps m, e ∈ m ∨ (ti ≤ e.2 ∧ ps[e.2 - ti]? = some e.1))
  | [], ti, m, hm => by simp [fillMap, hm]
  | p :: ps, ti, m, hm => by
    obtain ⟨h1, h2, h3⟩ := fillMap_spec ps (ti + 1) (emplace p ti m) (emplace_sorted p ti m hm)
    refine ⟨h1, ?_, ?_⟩
    · refine h2.trans ?_
      have hp : (mapTriangles (emplace p ti m)).Perm (ti :: mapTriangles m) :=
        mapTriangles_perm (emplace_perm p ti m)
      rw [List.length_cons, List.range'_succ]
      exact (hp.append_right _).trans List.perm_middle.symm
    · intro e he
      rcases h3 e he with h | ⟨hle, hget⟩
      · rcases List.mem_cons.1 ((emplace_perm p ti m).mem_iff.1 h) with h | h
        · right
          subst h
          simp
        · exact Or.inl h
      · right
        refine ⟨by omega, ?_⟩
        have : e.2 - ti = (e.2 - (ti + 1)) + 1 := by omega
        rw [this, List.getElem?_cons_succ]
        exact hget

theorem mapInv_init {ribs : List Rib} {all : List Triangle} {g : PressureIndex}
    (hinv : IndexInv ribs all all.length g) :
    MapInv g.receivers (fillMap 0 g.pressure []) []
    ∧ (mapTriangles (fillMap 0 g.pressure [])).Perm (List.range all.length) := by
  obtain ⟨h1, h2, h3⟩ := fillMap_spec g.pressure 0 [] List.Pairwise.nil
  have hperm : (mapTriangles (fillMap 0 g.pressure [])).Perm (List.range all.length) := by
    rw [List.range_eq_range', ← hinv.pressure_length]
    simpa [mapTriangles] using h2
  refine ⟨⟨hperm.nodup_iff.2 (List.nodup_range _), h1, ?_, ?_, by simp, ?_⟩, hperm⟩
  · intro t ht
    rw [hinv.receivers_length]
    exact List.mem_range.1 (hperm.mem_iff.1 ht)
  · intro s _ r hr
    exact hperm.mem_iff.2 (List.mem_range.2 (hinv.bound s r hr))
  · intro e he
    rcases h3 e he with h | ⟨_, hget⟩
    · simp at h
    · have het : e.2 < all.length :=
        List.mem_range.1 (hperm.mem_iff.1 (List.mem_map_of_mem _ he))
      have hc := hinv.count e.2 het
      simp only [Nat.sub_zero] at hget
      rw [hget] at hc
      rw [pressureLoad_perm g.receivers hperm]
      simpa using Option.some.inj hc

/-! ## Invariants of the adjacency builder -/

theorem ribsExtend_refl (hi : Nat) (r : List Rib) : RibsExtend hi r r :=
  fun _ rib h => ⟨rib, h, rfl, fun _ => rfl, fun _ _ h2 => h2⟩

theorem ribsExtend_trans {hi : Nat} {r r1 r2 : List Rib} (h1 : RibsExtend hi r r1)
    (h2 : RibsExtend hi r1 r2) : RibsExtend hi r r2 := by
  intro i rib hr
  obtain ⟨rib1, hr1, hd1, ho1, hp1⟩ := h1 i rib hr
  obtain ⟨rib2, hr2, hd2, ho2, hp2⟩ := h2 i rib1 hr1
  refine ⟨rib2, hr2, hd2.trans hd1, ?_, ?_⟩
  · intro hne
    have e1 := ho1 hne
    rw [ho2 (by rw [e1]; exact hne), e1]
  · intro hhi hne hne2
    have e1 := ho1 hne
    exact hp2 hhi (by rw [e1]; exact hne) (hp1 hhi hne hne2)

theorem goodRib_extend {hi T ri : Nat} {r r1 : List Rib} (hT : T < hi)
    (h : GoodRib hi r T ri) (hext : RibsExtend hi r r1) : GoodRib hi r1 T ri := by
  obtain ⟨rib, hr, hd, ho⟩ := h
  obtain ⟨rib1, hr1, hd1, ho1, hp1⟩ := hext ri rib hr
  refine ⟨rib1, hr1, by rw [hd1]; exact hd, ?_⟩
  intro hhi
  have hTi : T ≠ invalidIndex := by omega
  rcases ho hhi with h1 | ⟨h1, h2⟩
  · left
    rw [ho1 (by rw [h1]; exact hTi), h1]
  · right
    exact ⟨by rw [ho1 h1]; exact h1, hp1 hhi h1 h2⟩

theorem slotsGood_extend {hi T : Nat} {r r1 : List Rib} {a : Nat × Nat} (hT : T < hi)
    (h : SlotsGood hi r T a) (hext : RibsExtend hi r r1) : SlotsGood hi r1 T a :=
  fun ri h1 h2 => goodRib_extend hT (h ri h1 h2) hext

theorem lookup_mem {k : Nat × Nat} {v : Nat} :
    ∀ {l : List ((Nat × Nat) × Nat)}, l.lookup k = some v → (k, v) ∈ l
  | [], h => by simp at h
  | (k1, v1) :: l, h => by
    rw [List.lookup_cons] at h
    by_cases hk : k = k1
    · subst hk
      simp only [beq_self_eq_true] at h
      obtain rfl : v1 = v := Option.some.inj h
      exact List.mem_cons_self _ _
    · have hb : (k == k1) = false := by simpa using hk
      simp only [hb] at h
      exact List.mem_cons_of_mem _ (lookup_mem h)

theorem findOrCreateRib_spec {vertices : List Vertex} {s : TriangleState} {vp : Nat × Nat}
    {ribs1 : List Rib} {map1 : List ((Nat × Nat) × Nat)} {ri : Nat}
    (hmap : ∀ e ∈ s.verticesToRibs, e.2 < s.ribs.length)
    (h : findOrCreateRib vertices s vp = .ok (ribs1, map1, ri)) :
    ri < ribs1.length ∧ (∀ e ∈ map1, e.2 < ribs1.length)
    ∧ (ribs1 = s.ribs ∨ ∃ l r, ribs1 = s.ribs ++ [Rib.new l r]) := by
  unfold findOrCreateRib at h
  cases hl : s.verticesToRibs.lookup vp with
  | some ribIndex =>
    simp only [hl, Except.ok.injEq, Prod.mk.injEq] at h
    obtain ⟨h1, h2, h3⟩ := h
    subst h1; subst h2; subst h3
    exact ⟨hmap _ (lookup_mem hl), hmap, Or.inl rfl⟩
  | none =>
    simp only [hl] at h
    cases hv1 : vertices[vp.1]? with
    | none => simp [hv1] at h
    | some l =>
      cases hv2 : vertices[vp.2]? with
      | none => simp [hv1, hv2] at h
      | some r =>
        simp only [hv1, hv2, Except.ok.injEq, Prod.mk.injEq] at h
        obtain ⟨h1, h2, h3⟩ := h
        subst h1; subst h2; subst h3
        refine ⟨by simp, ?_, Or.inr ⟨l, r, rfl⟩⟩
        intro e he
        rcases List.mem_append.1 he with he | he
        · have := hmap e he
          simp only [List.length_append, List.length_singleton]
          omega
        · simp only [List.mem_singleton] at he
          subst he
          simp

theorem setOwner_deltaX (rib : Rib) (t : Nat) : (rib.setOwner t).deltaX = rib.deltaX := by
  unfold Rib.setOwner
  split <;> rfl

theorem setOwner_ownerOk {n t : Nat} {rib : Rib} (h : OwnerOk n rib) (ht : t < n) :
    OwnerOk n (rib.setOwner t) := by
  unfold Rib.setOwner
  split
  · exact ⟨Or.inr ht, h.2⟩
  · exact ⟨h.1, Or.inr ht⟩

theorem setOwner_first (rib : Rib) (t : Nat) (h : rib.ownerTriangles.1 ≠ invalidIndex) :
    (rib.setOwner t).ownerTriangles = (rib.ownerTriangles.1, t) := by
  simp [Rib.setOwner, h]

theorem setOwner_free (rib : Rib) (t : Nat) (h : rib.ownerTriangles.1 = invalidIndex) :
    (rib.setOwner t).ownerTriangles = (t, rib.ownerTriangles.2) := by
  simp [Rib.setOwner, h]

theorem ribsExtend_append (hi : Nat) (r : List Rib) (x : List Rib) : RibsExtend hi r (r ++ x) := by
  intro i rib h
  have hi1 : i < r.length := (List.getElem?_eq_some.1 h).1
  exact ⟨rib, by rw [List.getElem?_append_left hi1]; exact h, rfl, fun _ => rfl,
    fun _ _ h2 => h2⟩

theorem ribsExtend_setOwner {hi k ri : Nat} {r : List Rib} {rib0 : Rib} (hk : k < hi)
    (h0 : r[ri]? = some rib0) : RibsExtend hi r (r.set ri (rib0.setOwner k)) := by
  intro i rib h
  by_cases hi1 : ri = i
  · subst hi1
    rw [h0] at h
    obtain rfl : rib0 = rib := Option.some.inj h
    have hlen : ri < r.length := (List.getElem?_eq_some.1 h0).1
    refine ⟨rib0.setOwner k, List.getElem?_set_self hlen, setOwner_deltaX _ _, ?_, ?_⟩
    · intro hne
      rw [setOwner_first _ _ hne]
    · intro hhi hne _
      rw [setOwner_first _ _ hne]
      show k ≠ invalidIndex
      omega
  · exact ⟨rib, by rw [List.getElem?_set_ne hi1]; exact h, rfl, fun _ => rfl, fun _ _ h2 => h2⟩

theorem pushRib_inv {hi k ri : Nat} {s s1 : TriangleState} (hinv : TriangleInv hi k s)
    (hgood : GoodRib hi s.ribs k ri) (h : pushRib s ri = .ok s1) :
    TriangleInv hi k s1 ∧ s1.ribs = s.ribs := by
  unfold pushRib at h
  by_cases h0 : s.ribPos = 0
  · simp only [h0, if_true, Except.ok.injEq] at h
    subst h
    refine ⟨⟨hinv.ribs, ?_⟩, rfl⟩
    intro r hr hne
    rcases hr with hr | hr
    · rw [hr]; exact hgood
    · exact hinv.slots r (Or.inr hr) hne
  · by_cases h1 : s.ribPos = 1
    · simp only [h1, one_ne_zero, if_true, if_false, Except.ok.injEq] at h
      subst h
      refine ⟨⟨hinv.ribs, ?_⟩, rfl⟩
      intro r hr hne
      rcases hr with hr | hr
      · exact hinv.slots r (Or.inl hr) hne
      · rw [hr]; exact hgood
    · simp [h0, h1] at h

theorem processCombination_inv {vertices : List Vertex} {hi k : Nat}
    {vertexIndices : Nat × Nat × Nat} {combinationNum : Nat} {c : Nat × Nat}
    {s s1 : TriangleState} (hk : k < hi) (hinv : TriangleInv hi k s)
    (h : processCombination vertices k vertexIndices combinationNum c s = .ok s1) :
    TriangleInv hi k s1 ∧ RibsExtend hi s.ribs s1.ribs := by
  unfold processCombination at h
  cases hsv : sortVertices vertices (vertexAt vertexIndices c.1) (vertexAt vertexIndices c.2) with
  | error e => simp [hsv] at h
  | ok vp =>
    simp only [hsv] at h
    cases hf : findOrCreateRib vertices s vp with
    | error e => simp [hf] at h
    | ok res =>
      obtain ⟨ribs1, map1, ri⟩ := res
      simp only [hf] at h
      obtain ⟨hri, hmap1, hribs1⟩ := findOrCreateRib_spec hinv.ribs.mapRange hf
      have hget : ribs1[ri]? = some ribs1[ri] := List.getElem?_eq_getElem hri
      simp only [hget] at h
      have hext1 : RibsExtend hi s.ribs ribs1 := by
        rcases hribs1 with h1 | ⟨l, r, h1⟩
        · rw [h1]; exact ribsExtend_refl _ _
        · rw [h1]; exact ribsExtend_append _ _ _
      have hown1 : ∀ rib ∈ ribs1, OwnerOk (k + 1) rib := by
        intro rib hrib
        rcases hribs1 with h1 | ⟨l, r, h1⟩
        · rw [h1] at hrib; exact hinv.ribs.owners rib hrib
        · rw [h1] at hrib
          rcases List.mem_append.1 hrib with h2 | h2
          · exact hinv.ribs.owners rib h2
          · simp only [List.mem_singleton] at h2
            subst h2
            exact ⟨Or.inl rfl, Or.inl rfl⟩
      have hext : RibsExtend hi s.ribs (ribs1.set ri (ribs1[ri].setOwner k)) :=
        ribsExtend_trans hext1 (ribsExtend_setOwner hk hget)
      have hinv2 : TriangleInv hi k
          { s with ribs := ribs1.set ri (ribs1[ri].setOwner k), verticesToRibs := map1 } := by
        refine ⟨⟨?_, ?_⟩, slotsGood_extend hk hinv.slots hext⟩
        · intro rib hrib
          rcases List.mem_or_eq_of_mem_set hrib with h2 | h2
          · exact hown1 rib h2
          · rw [h2]
            exact setOwner_ownerOk (hown1 _ (List.getElem_mem _)) (Nat.lt_succ_self k)
        · intro e he
          simp only [List.length_set]
          exact hmap1 e he
      by_cases hdx : (ribs1[ri].setOwner k).deltaX = 0
      · simp only [hdx, if_true, Except.ok.injEq] at h
        subst h
        exact ⟨hinv2, hext⟩
      · simp only [hdx, if_false] at h
        unfold classifyRib at h
        cases hv1 : vertices[vp.1]? with
        | none => simp [hv1] at h
        | some l =>
          cases hv2 : vertices[vertexAt vertexIndices combinationNum]? with
          | none => simp [hv1, hv2] at h
          | some third =>
            simp only [hv1, hv2] at h
            by_cases hccw : isRibCCWise (ribs1[ri].setOwner k) (Rib.new l third) = true
            · simp only [hccw, if_true] at h
              have hgood : GoodRib hi (ribs1.set ri (ribs1[ri].setOwner k)) k ri := by
                refine ⟨_, List.getElem?_set_self hri, hdx, ?_⟩
                intro hhi
                by_cases hfree : ribs1[ri].ownerTriangles.1 = invalidIndex
                · left; rw [setOwner_free _ _ hfree]
                · right
                  rw [setOwner_first _ _ hfree]
                  exact ⟨hfree, by show k ≠ invalidIndex; omega⟩
              obtain ⟨h3, h4⟩ := pushRib_inv hinv2 hgood h
              exact ⟨h3, by rw [h4]; exact hext⟩
            · simp only [hccw, Bool.false_eq_true, if_false, Except.ok.injEq] at h
              subst h
              exact ⟨hinv2, hext⟩

theorem processCombinations_inv {vertices : List Vertex} {hi k : Nat}
    {vertexIndices : Nat × Nat × Nat} (hk : k < hi) :
    ∀ (cs : List (Nat × Nat)) (n : Nat) (s s1 : TriangleState), TriangleInv hi k s →
      processCombinations vertices k vertexIndices n cs s = .ok s1 →
      TriangleInv hi k s1 ∧ RibsExtend hi s.ribs s1.ribs
  | [], _, s, s1, hinv, h => by
    simp only [processCombinations, Except.ok.injEq] at h
    subst h
    exact ⟨hinv, ribsExtend_refl _ _⟩
  | c :: cs, n, s, s1, hinv, h => by
    unfold processCombinations at h
    cases hc : processCombination vertices k vertexIndices n c s with
    | error e => simp [hc] at h
    | ok s2 =>
      simp only [hc] at h
      obtain ⟨h1, h2⟩ := processCombination_inv hk hinv hc
      obtain ⟨h3, h4⟩ := processCombinations_inv hk cs (n + 1) s2 s1 h1 h
      exact ⟨h3, ribsExtend_trans h2 h4⟩

theorem processTriangle_inv {vertices : List Vertex} {hi k : Nat} {input : Nat × Nat × Nat}
    {b b1 : Build} (hk : k < hi) (hinv : BuildInv hi k b)
    (h : processTriangle vertices k input b = .ok b1) : BuildInv hi (k + 1) b1 := by
  unfold processTriangle at h
  simp only at h
  generalize hs0 : (TriangleState.mk b.ribs b.verticesToRibs Triangle.new 0) = s0 at h
  have hinv0 : TriangleInv hi k s0 := by
    subst hs0
    refine ⟨⟨?_, hinv.ribs.mapRange⟩, ?_⟩
    · intro rib hrib
      obtain ⟨h1, h2⟩ := hinv.ribs.owners rib hrib
      exact ⟨h1.imp_right (fun h => Nat.lt_succ_of_lt h), h2.imp_right (fun h => Nat.lt_succ_of_lt h)⟩
    · intro ri hri hne
      rcases hri with hri | hri <;> exact absurd hri hne
  cases hp : processCombinations vertices k
      (decIndex input.1, decIndex input.2.1, decIndex input.2.2) 0 vertexCombinations s0 with
  | error e => simp [hp] at h
  | ok s =>
    simp only [hp, Except.ok.injEq] at h
    subst h
    obtain ⟨h1, h2⟩ := processCombinations_inv hk _ _ _ _ hinv0 hp
    have h2' : RibsExtend hi b.ribs s.ribs := by subst hs0; exact h2
    refine ⟨by simp [hinv.length], h1.ribs, ?_⟩
    intro T tri hT
    by_cases hTk : T < b.triangles.length
    · rw [List.getElem?_append_left hTk] at hT
      exact slotsGood_extend (by rw [hinv.length] at hTk; omega) (hinv.slots T tri hT) h2'
    · have hTlen : T < (b.triangles ++ [s.currentTriangle]).length :=
        (List.getElem?_eq_some.1 hT).1
      simp only [List.length_append, List.length_singleton] at hTlen
      have hTeq : T = b.triangles.length := by omega
      rw [hTeq, List.getElem?_append_right (le_refl _)] at hT
      simp only [Nat.sub_self, List.getElem?_cons_zero, Option.some.injEq] at hT
      subst hT
      rw [hTeq, hinv.length]
      exact h1.slots

theorem readTrianglesFrom_inv {vertices : List Vertex} {hi : Nat} :
    ∀ (ts : List (Nat × Nat × Nat)) (k : Nat) (b b1 : Build), k + ts.length ≤ hi →
      BuildInv hi k b → readTrianglesFrom vertices k ts b = .ok b1 →
      BuildInv hi (k + ts.length) b1
  | [], k, b, b1, _, hinv, h => by
    simp only [readTrianglesFrom, Except.ok.injEq] at h
    subst h
    exact hinv
  | t :: ts, k, b, b1, hk, hinv, h => by
    unfold readTrianglesFrom at h
    simp only [List.length_cons] at hk
    cases hp : processTriangle vertices k t b with
    | error e => simp [hp] at h
    | ok b2 =>
      simp only [hp] at h
      have := readTrianglesFrom_inv ts (k + 1) b2 b1 (by omega)
        (processTriangle_inv (by omega) hinv hp) h
      simpa [Nat.add_assoc, Nat.add_comm 1] using this

theorem readAndInitTriangles_inv {vertices : List Vertex} {triangles : List (Nat × Nat × Nat)}
    {b : Build} (h : readAndInitTriangles vertices triangles = .ok b) :
    BuildInv triangles.length triangles.length b := by
  have h0 : BuildInv triangles.length 0 (Build.mk [] [] []) :=
    ⟨rfl, ⟨by simp, by simp⟩, by simp⟩
  have := readTrianglesFrom_inv triangles 0 _ b (by simp) h0 h
  simpa using this

/-! ## The pressure index of a built adjacency is always defined -/

theorem pressRib_lengths {ribs : List Rib} {ti ri : Nat} {g g1 : PressureIndex}
    (h : pressRib ribs ti ri g = .ok g1) :
    g1.pressure.length = g.pressure.length ∧ g1.receivers.length = g.receivers.length := by
  rcases pressRib_spec h with ⟨_, hg⟩ | ⟨o, p, a, _, _, _, _, hg⟩
  · subst hg; exact ⟨rfl, rfl⟩
  · subst hg; simp

theorem pressTriangle_lengths {ribs : List Rib} {ti : Nat} {triangle : Triangle}
    {g g1 : PressureIndex} (h : pressTriangle ribs ti triangle g = .ok g1) :
    g1.pressure.length = g.pressure.length ∧ g1.receivers.length = g.receivers.length := by
  unfold pressTriangle at h
  by_cases h0 : triangle.ribs.1 = invalidIndex
  · simp only [h0, if_true, Except.ok.injEq] at h
    subst h; exact ⟨rfl, rfl⟩
  · simp only [h0, if_false] at h
    cases hr0 : pressRib ribs ti triangle.ribs.1 g with
    | error e => simp [hr0] at h
    | ok ga =>
      simp only [hr0] at h
      obtain ⟨h1, h2⟩ := pressRib_lengths hr0
      by_cases h3 : triangle.ribs.2 = invalidIndex
      · simp only [h3, if_true, Except.ok.injEq] at h
        subst h; exact ⟨h1, h2⟩
      · simp only [h3, if_false] at h
        obtain ⟨h4, h5⟩ := pressRib_lengths h
        exact ⟨h4.trans h1, h5.trans h2⟩

theorem getOtherOwner_ok {n : Nat} {rib : Rib} (h : OwnerOk n rib) (t : Nat) :
    rib.getOtherOwner t = invalidIndex ∨ rib.getOtherOwner t < n := by
  unfold Rib.getOtherOwner
  split
  · exact h.2
  · exact h.1

theorem pressRib_ok {hi n ti ri : Nat} {ribs : List Rib} {g : PressureIndex}
    (hown : ∀ rib ∈ ribs, OwnerOk n rib) (hgood : GoodRib hi ribs ti ri)
    (hp : g.pressure.length = n) (hr : ti < g.receivers.length) :
    ∃ g1, pressRib ribs ti ri g = .ok g1 := by
  obtain ⟨rib, hrib, _, _⟩ := hgood
  unfold pressRib
  simp only [hrib]
  by_cases ho : rib.getOtherOwner ti = invalidIndex
  · exact ⟨g, by simp [ho]⟩
  · have hlt : rib.getOtherOwner ti < g.pressure.length := by
      rcases getOtherOwner_ok (hown rib (List.getElem?_mem hrib)) ti with h | h
      · exact absurd h ho
      · rw [hp]; exact h
    simp only [ho, if_false, List.getElem?_eq_getElem hlt, List.getElem?_eq_getElem hr]
    exact ⟨_, rfl⟩

theorem pressTriangle_ok {hi n ti : Nat} {ribs : List Rib} {triangle : Triangle}
    {g : PressureIndex} (hown : ∀ rib ∈ ribs, OwnerOk n rib)
    (hgood : SlotsGood hi ribs ti triangle.ribs)
    (hp : g.pressure.length = n) (hr : ti < g.receivers.length) :
    ∃ g1, pressTriangle ribs ti triangle g = .ok g1 := by
  unfold pressTriangle
  by_cases h0 : triangle.ribs.1 = invalidIndex
  · exact ⟨g, by simp [h0]⟩
  · simp only [h0, if_false]
    obtain ⟨ga, hga⟩ := pressRib_ok hown (hgood _ (Or.inl rfl) h0) hp hr
    simp only [hga]
    obtain ⟨h1, h2⟩ := pressRib_lengths hga
    by_cases h3 : triangle.ribs.2 = invalidIndex
    · exact ⟨ga, by simp [h3]⟩
    · simp only [h3, if_false]
      exact pressRib_ok hown (hgood _ (Or.inr rfl) h3) (h1.trans hp) (by rw [h2]; exact hr)

theorem pressFrom_ok {hi n : Nat} {ribs : List Rib} (hown : ∀ rib ∈ ribs, OwnerOk n rib) :
    ∀ (ts : List Triangle) (k : Nat) (g : PressureIndex),
      (∀ j triangle, ts[j]? = some triangle → SlotsGood hi ribs (k + j) triangle.ribs) →
      g.pressure.length = n → k + ts.length ≤ g.receivers.length →
      ∃ g1, pressFrom ribs k ts g = .ok g1
  | [], _, g, _, _, _ => ⟨g, rfl⟩
  | t :: ts, k, g, hts, hp, hr => by
    simp only [List.length_cons] at hr
    obtain ⟨g1, hg1⟩ := pressTriangle_ok hown (by simpa using hts 0 t (by simp)) hp
      (by omega : k < g.receivers.length)
    obtain ⟨h1, h2⟩ := pressTriangle_lengths hg1
    obtain ⟨g2, hg2⟩ := pressFrom_ok hown ts (k + 1) g1
      (fun j tri hj => by
        have := hts (j + 1) tri (by simpa using hj)
        rw [show k + 1 + j = k + (j + 1) by omega]
        exact this)
      (h1.trans hp) (by rw [h2]; omega)
    exact ⟨g2, by simp [pressFrom, hg1, hg2]⟩

/-- After a successful adjacency build the pressure index is computed without any
access outside the vectors. -/
theorem buildPressureIndex_ok {vertices : List Vertex} {triangles : List (Nat × Nat × Nat)}
    {b : Build} (h : readAndInitTriangles vertices triangles = .ok b) :
    ∃ g, buildPressureIndex b = .ok g := by
  have hinv := readAndInitTriangles_inv h
  unfold buildPressureIndex
  refine @pressFrom_ok triangles.length b.triangles.length b.ribs
    (by rw [hinv.length]; exact hinv.ribs.owners) b.triangles 0 _ ?_ (by simp) (by simp)
  intro j tri hj
  rw [Nat.zero_add]
  exact hinv.slots j tri hj

/-! ## Faults of the adjacency builder -/

theorem sortVertices_ok {vertices : List Vertex} {vi1 vi2 : Nat} {vp : Nat × Nat}
    (h : sortVertices vertices vi1 vi2 = .ok vp) :
    vi1 < vertices.length ∧ vi2 < vertices.length := by
  unfold sortVertices at h
  cases h1 : vertices[vi1]? with
  | none => simp [h1] at h
  | some v1 =>
    cases h2 : vertices[vi2]? with
    | none => simp [h1, h2] at h
    | some v2 =>
      exact ⟨(List.getElem?_eq_some.1 h1).1, (List.getElem?_eq_some.1 h2).1⟩

theorem sortVertices_error {vertices : List Vertex} {vi1 vi2 : Nat} {e : Status}
    (h : sortVertices vertices vi1 vi2 = .error e) : e = .outOfBounds := by
  unfold sortVertices at h
  split at h
  · cases h
  · cases h; rfl

theorem findOrCreateRib_error {vertices : List Vertex} {s : TriangleState} {vp : Nat × Nat}
    {e : Status} (h : findOrCreateRib vertices s vp = .error e) : e = .outOfBounds := by
  unfold findOrCreateRib at h
  split at h
  · cases h
  · split at h
    · cases h
    · cases h; rfl

theorem pushRib_error {s : TriangleState} {ri : Nat} {e : Status}
    (h : pushRib s ri = .error e) : e = .outOfBounds := by
  unfold pushRib at h
  split at h
  · cases h
  · split at h
    · cases h
    · cases h; rfl

theorem classifyRib_error {vertices : List Vertex} {vertexIndices : Nat × Nat × Nat}
    {combinationNum : Nat} {vp : Nat × Nat} {rib : Rib} {ri : Nat} {s : TriangleState}
    {e : Status} (h : classifyRib vertices vertexIndices combinationNum vp rib ri s = .error e) :
    e = .outOfBounds := by
  unfold classifyRib at h
  split at h
  · split at h
    · exact pushRib_error h
    · cases h
  · cases h; rfl

theorem processCombination_error {vertices : List Vertex} {k : Nat}
    {vertexIndices : Nat × Nat × Nat} {combinationNum : Nat} {c : Nat × Nat}
    {s : TriangleState} {e : Status}
    (h : processCombination vertices k vertexIndices combinationNum c s = .error e) :
    e = .outOfBounds := by
  unfold processCombination at h
  split at h
  · rename_i e1 h1
    cases h
    exact sortVertices_error h1
  · split at h
    · rename_i e1 h1
      cases h
      exact findOrCreateRib_error h1
    · split at h
      · cases h; rfl
      · simp only at h
        split at h
        · cases h
        · exact classifyRib_error h

theorem processCombinations_error {vertices : List Vertex} {k : Nat}
    {vertexIndices : Nat × Nat × Nat} {e : Status} :
    ∀ (cs : List (Nat × Nat)) (n : Nat) (s : TriangleState),
      processCombinations vertices k vertexIndices n cs s = .error e → e = .outOfBounds
  | [], _, _, h => by simp [processCombinations] at h
  | c :: cs, n, s, h => by
    unfold processCombinations at h
    cases hc : processCombination vertices k vertexIndices n c s with
    | error e1 =>
      simp only [hc, Except.error.injEq] at h
      subst h
      exact processCombination_error hc
    | ok s1 =>
      simp only [hc] at h
      exact processCombinations_error cs (n + 1) s1 h

theorem processTriangle_error {vertices : List Vertex} {k : Nat} {input : Nat × Nat × Nat}
    {b : Build} {e : Status} (h : processTriangle vertices k input b = .error e) :
    e = .outOfBounds := by
  unfold processTriangle at h
  simp only at h
  split at h
  · rename_i e1 h1
    cases h
    exact processCombinations_error _ _ _ h1
  · cases h

theorem readTrianglesFrom_error {vertices : List Vertex} {e : Status} :
    ∀ (ts : List (Nat × Nat × Nat)) (k : Nat) (b : Build),
      readTrianglesFrom vertices k ts b = .error e → e = .outOfBounds ∧ ts ≠ []
  | [], _, _, h => by simp [readTrianglesFrom] at h
  | t :: ts, k, b, h => by
    unfold readTrianglesFrom at h
    cases hp : processTriangle vertices k t b with
    | error e1 =>
      simp only [hp, Except.error.injEq] at h
      subst h
      exact ⟨processTriangle_error hp, by simp⟩
    | ok b1 =>
      simp only [hp] at h
      exact ⟨(readTrianglesFrom_error ts (k + 1) b1 h).1, by simp⟩

theorem processCombinations_cons_ok {vertices : List Vertex} {k : Nat}
    {vertexIndices : Nat × Nat × Nat} {n : Nat} {c : Nat × Nat} {cs : List (Nat × Nat)}
    {s s1 : TriangleState}
    (h : processCombinations vertices k vertexIndices n (c :: cs) s = .ok s1) :
    ∃ s2, processCombination vertices k vertexIndices n c s = .ok s2
      ∧ processCombinations vertices k vertexIndices (n + 1) cs s2 = .ok s1 := by
  rw [processCombinations] at h
  cases hc : processCombination vertices k vertexIndices n c s with
  | error e => rw [hc] at h; cases h
  | ok s2 => rw [hc] at h; exact ⟨s2, rfl, h⟩

theorem processCombination_ok_sort {vertices : List Vertex} {k : Nat}
    {vertexIndices : Nat × Nat × Nat} {n : Nat} {c : Nat × Nat} {s s1 : TriangleState}
    (h : processCombination vertices k vertexIndices n c s = .ok s1) :
    vertexAt vertexIndices c.1 < vertices.length
      ∧ vertexAt vertexIndices c.2 < vertices.length := by
  rw [processCombination] at h
  cases hsv : sortVertices vertices (vertexAt vertexIndices c.1) (vertexAt vertexIndices c.2) with
  | error e => rw [hsv] at h; cases h
  | ok vp => exact sortVertices_ok hsv

theorem processCombinations_inRange {vertices : List Vertex} {k : Nat}
    {vertexIndices : Nat × Nat × Nat} {s s1 : TriangleState}
    (hp : processCombinations vertices k vertexIndices 0 vertexCombinations s = .ok s1) :
    vertexIndices.1 < vertices.length ∧ vertexIndices.2.1 < vertices.length
      ∧ vertexIndices.2.2 < vertices.length := by
  rw [vertexCombinations] at hp
  obtain ⟨s2, h1, hp2⟩ := processCombinations_cons_ok hp
  obtain ⟨s3, h2, _⟩ := processCombinations_cons_ok hp2
  have e1 := processCombination_ok_sort h1
  have e2 := processCombination_ok_sort h2
  exact ⟨e2.1, e1.1, e1.2⟩

/-- The three 0-based vertex indices of a triangle that the builder accepted are inside
the vertex list. -/
theorem processTriangle_inRange {vertices : List Vertex} {k : Nat} {input : Nat × Nat × Nat}
    {b b1 : Build} (h : processTriangle vertices k input b = .ok b1) :
    decIndex input.1 < vertices.length ∧ decIndex input.2.1 < vertices.length
      ∧ decIndex input.2.2 < vertices.length := by
  rw [processTriangle] at h
  cases hp : processCombinations vertices k
      (decIndex input.1, decIndex input.2.1, decIndex input.2.2) 0 vertexCombinations
      (TriangleState.mk b.ribs b.verticesToRibs Triangle.new 0) with
  | error e => simp only [hp] at h; cases h
  | ok s =>
    have := processCombinations_inRange hp
    simpa using this

theorem readTrianglesFrom_inRange {vertices : List Vertex} :
    ∀ (ts : List (Nat × Nat × Nat)) (k : Nat) (b b1 : Build),
      readTrianglesFrom vertices k ts b = .ok b1 →
      ∀ t ∈ ts, decIndex t.1 < vertices.length ∧ decIndex t.2.1 < vertices.length
        ∧ decIndex t.2.2 < vertices.length
  | [], _, _, _, _ => by simp
  | t :: ts, k, b, b1, h => by
    unfold readTrianglesFrom at h
    cases hp : processTriangle vertices k t b with
    | error e1 => simp [hp] at h
    | ok b2 =>
      simp only [hp] at h
      intro t1 ht1
      rcases List.mem_cons.1 ht1 with h1 | h1
      · subst h1; exact processTriangle_inRange hp
      · exact readTrianglesFrom_inRange ts (k + 1) b2 b1 h t1 h1

/-- For a `size_t` value `el` and a vertex list that fits a `size_t` count, the
decremented index is inside the list exactly when `el` is in `[1, N]`. -/
theorem decIndex_lt_iff {el n : Nat} (hel : el < 18446744073709551616)
    (hn : n < 18446744073709551616) : decIndex el < n ↔ 1 ≤ el ∧ el ≤ n := by
  unfold decIndex
  omega

/-! ## The whole run -/

/-- Either the adjacency build reads outside the vertex list (or writes outside a rib
array) and nothing is written, or both index stages succeed and the run is a run of the
extraction loop on the initial map. -/
theorem solve_cases (vertices : List Vertex) (triangles : List (Nat × Nat × Nat)) :
    (readAndInitTriangles vertices triangles = .error .outOfBounds ∧ triangles ≠ []
      ∧ solve vertices triangles = { status := .outOfBounds, output := [] })
    ∨ (∃ b g emitted, readAndInitTriangles vertices triangles = .ok b
        ∧ buildPressureIndex b = .ok g
        ∧ b.triangles.length = triangles.length
        ∧ solve vertices triangles
            = extractLoop g.receivers triangles.length (initialState g)
        ∧ MapInv g.receivers (initialState g).map []
        ∧ (initialState g).map.length = triangles.length
        ∧ LoopSpec g.receivers (initialState g).map [] (solve vertices triangles) emitted
        ∧ (mapTriangles (initialState g).map).Perm (List.range triangles.length)) := by
  cases hb : readAndInitTriangles vertices triangles with
  | error e =>
    left
    obtain ⟨h1, h2⟩ := readTrianglesFrom_error _ _ _ hb
    subst h1
    exact ⟨rfl, h2, by simp [solve, hb]⟩
  | ok b =>
    right
    obtain ⟨g, hg⟩ := buildPressureIndex_ok hb
    have hlen : b.triangles.length = triangles.length := (readAndInitTriangles_inv hb).length
    obtain ⟨hmi, hperm⟩ := mapInv_init (buildPressureIndex_spec hg)
    rw [hlen] at hperm
    have hmlen : (fillMap 0 g.pressure []).length = triangles.length := by
      have := hperm.length_eq
      rw [mapTriangles_length, List.length_range] at this
      exact this
    have hsolve : solve vertices triangles
        = extractLoop g.receivers triangles.length (initialState g) := by
      simp [solve, hb, generateExtractionSequence, hg, hlen, initialState]
    obtain ⟨E, hE⟩ := extractLoop_spec g.receivers triangles.length _ [] hmi (le_of_eq hmlen)
    refine ⟨b, g, E, rfl, hg, hlen, hsolve, hmi, hmlen, ?_, hperm⟩
    rw [hsolve]
    exact hE

theorem indexOf_map_succ (t : Nat) :
    ∀ l : List Nat, (l.map (· + 1)).indexOf (t + 1) = l.indexOf t
  | [] => rfl
  | a :: l => by
    by_cases h : a = t
    · subst h
      simp [List.indexOf_cons_self]
    · have h1 : a + 1 ≠ t + 1 := fun heq => h (Nat.succ.inj heq)
      rw [List.map_cons, List.indexOf_cons_ne _ h1, List.indexOf_cons_ne _ h,
        indexOf_map_succ t l]

theorem mem_map_succ {t : Nat} {l : List Nat} : t + 1 ∈ l.map (· + 1) ↔ t ∈ l := by
  simp

theorem acyclic_of_rank {rel : Nat → Nat → Prop} (rank : Nat → Nat)
    (h : ∀ s r, rel s r → rank s < rank r) : ∀ t, ¬ Relation.TransGen rel t t := by
  have key : ∀ a b, Relation.TransGen rel a b → rank a < rank b := by
    intro a b hab
    induction hab with
    | single h1 => exact h _ _ h1
    | tail _ h2 ih => exact lt_trans ih (h _ _ h2)
  intro t ht
  exact lt_irrefl _ (key t t ht)

theorem acyclic_receivers_of_pressesOn {b : Build} {g : PressureIndex}
    (hg : buildPressureIndex b = .ok g) (hac : ∀ t, ¬ Relation.TransGen (PressesOn b) t t) :
    Acyclic g.receivers := by
  intro t ht
  exact hac t (Relation.TransGen.mono (fun a c h => (pressesOn_iff hg a c).2 h) ht)

theorem list_eq_of_three {E : List Nat} {A B C : Nat} (hlen : E.length = 3)
    (hA : A ∈ E) (hB : B ∈ E) (hC : C ∈ E) (h1 : E.indexOf A < E.indexOf B)
    (h2 : E.indexOf B < E.indexOf C) : E = [A, B, C] := by
  have hCi : E.indexOf C < E.length := List.indexOf_lt_length.2 hC
  have hBi : E.indexOf B < E.length := List.indexOf_lt_length.2 hB
  have hAi : E.indexOf A < E.length := List.indexOf_lt_length.2 hA
  have eA := List.getElem_indexOf hAi
  have eB := List.getElem_indexOf hBi
  have eC := List.getElem_indexOf hCi
  match E, hlen with
  | [e0, e1, e2], _ =>
    simp only [List.length_cons, List.length_nil] at hCi
    have iA : List.indexOf A [e0, e1, e2] = 0 := by omega
    have iB : List.indexOf B [e0, e1, e2] = 1 := by omega
    have iC : List.indexOf C [e0, e1, e2] = 2 := by omega
    simp only [iA, iB, iC] at eA eB eC
    simp only [List.getElem_cons_zero, List.getElem_cons_succ] at eA eB eC
    rw [eA, eB, eC]

/-! ## Facts about the example inputs -/

theorem mirror_build :
    readAndInitTriangles mirrorVertices mirrorTriangles
      = .ok (buildOf mirrorVertices mirrorTriangles) := by rfl

theorem mirror_index :
    buildPressureIndex (buildOf mirrorVertices mirrorTriangles)
      = .ok { pressure := [0, 1]
              receivers := [(1, invalidIndex), (invalidIndex, invalidIndex)] } := by rfl

theorem mirror_presses (s r : Nat) :
    PressesOn (buildOf mirrorVertices mirrorTriangles) s r ↔ s = 0 ∧ r = 1 := by
  rw [pressesOn_iff mirror_index]
  unfold Presses receiversOf
  match s with
  | 0 => simp [validEntries, invalidIndex]
  | 1 => simp [validEntries, invalidIndex]
  | n + 2 => simp [validEntries, invalidIndex]

theorem mirror_acyclic :
    ∀ t, ¬ Relation.TransGen (PressesOn (buildOf mirrorVertices mirrorTriangles)) t t :=
  acyclic_of_rank (fun t => t) (fun s r h => by
    obtain ⟨h1, h2⟩ := (mirror_presses s r).1 h
    subst h1; subst h2
    exact Nat.zero_lt_one)

theorem chain_build :
    readAndInitTriangles chainVertices chainTriangles
      = .ok (buildOf chainVertices chainTriangles) := by rfl

theorem chain_index :
    buildPressureIndex (buildOf chainVertices chainTriangles)
      = .ok { pressure := [1, 1, 0]
              receivers := [(invalidIndex, invalidIndex), (0, invalidIndex),
                            (1, invalidIndex)] } := by rfl

theorem chain_presses (s r : Nat) :
    PressesOn (buildOf chainVertices chainTriangles) s r
      ↔ (s = 2 ∧ r = 1) ∨ (s = 1 ∧ r = 0) := by
  rw [pressesOn_iff chain_index]
  unfold Presses receiversOf
  match s with
  | 0 => simp [validEntries, invalidIndex]
  | 1 => simp [validEntries, invalidIndex]
  | 2 => simp [validEntries, invalidIndex]
  | n + 3 => simp [validEntries, invalidIndex]

theorem cycle_build :
    readAndInitTriangles cycleVertices cycleTriangles
      = .ok (buildOf cycleVertices cycleTriangles) := by rfl

theorem cycle_index :
    buildPressureIndex (buildOf cycleVertices cycleTriangles)
      = .ok { pressure := [0, 1, 1]
              receivers := [(invalidIndex, invalidIndex), (2, invalidIndex),
                            (1, invalidIndex)] } := by rfl

theorem cycle_has_cycle :
    ∃ t, Relation.TransGen (PressesOn (buildOf cycleVertices cycleTriangles)) t t := by
  have h12 : PressesOn (buildOf cycleVertices cycleTriangles) 1 2 :=
    (pressesOn_iff cycle_index 1 2).2 (by simp [Presses, receiversOf, validEntries, invalidIndex])
  have h21 : PressesOn (buildOf cycleVertices cycleTriangles) 2 1 :=
    (pressesOn_iff cycle_index 2 1).2 (by simp [Presses, receiversOf, validEntries, invalidIndex])
  exact ⟨1, Relation.TransGen.tail (Relation.TransGen.single h12) h21⟩

/-! ## Completeness and order of the extraction sequence -/

theorem iterateSteps_inv {receivers : List (Nat × Nat)} :
    ∀ (k : Nat) (m : PressureMap) (out : List Nat) (st : ExtractState),
      MapInv receivers m [] → iterateSteps receivers k { map := m, output := out } = some st →
      MapInv receivers st.map []
  | 0, m, out, st, h, hk => by
    simp only [iterateSteps, Option.some.injEq] at hk
    subst hk
    exact h
  | k + 1, m, out, st, h, hk => by
    unfold iterateSteps at hk
    cases hs : extractStep receivers { map := m, output := out } with
    | done => simp [hs] at hk
    | halt s o => simp [hs] at hk
    | next st1 =>
      simp only [hs] at hk
      obtain ⟨t, rest, hm, _⟩ := extractStep_next hs
      simp only at hm
      subst hm
      obtain ⟨m1, hstep, hinv, _, _⟩ := extractStep_zero out h
      rw [hs] at hstep
      simp only [StepResult.next.injEq] at hstep
      subst hstep
      exact iterateSteps_inv k m1 _ st hinv hk

theorem presses_lt_length {receivers : List (Nat × Nat)} {s r : Nat}
    (h : Presses receivers s r) : s < receivers.length := by
  by_contra hnot
  unfold Presses at h
  rw [receiversOf_out_of_range (by omega)] at h
  simp at h

/-- A run that finishes orders the triangles along the pressure relation, so the
relation has no cycle. -/
theorem acyclic_of_finished {receivers : List (Nat × Nat)} {m : PressureMap} {run : Run}
    {emitted : List Nat} (hall : ∀ s, s < receivers.length → s ∈ mapTriangles m)
    (hinv : MapInv receivers m []) (hspec : LoopSpec receivers m [] run emitted)
    (hfin : run.status = .finished) : Acyclic receivers := by
  refine acyclic_of_rank (fun t => emitted.indexOf t) ?_
  intro s r hsr
  have hs : s ∈ mapTriangles m := hall s (presses_lt_length hsr)
  have hr : r ∈ emitted := (hspec.complete hfin).mem_iff.2 (hinv.closed s hs r hsr)
  exact (hspec.order s hs r hsr hr).2

theorem solve_output_eq {receivers : List (Nat × Nat)} {m : PressureMap} {run : Run}
    {emitted : List Nat} (hspec : LoopSpec receivers m [] run emitted) :
    run.output = emitted.map (· + 1) := by
  simpa using hspec.output_eq

/-- Whenever `solve` runs to completion, the sequence it has written has length `M` and
contains every triangle index `1..M` exactly once (it is a permutation of the 0-based
positions plus 1); and `solve` does run to completion on every input that the adjacency
builder accepts and for which the relation `PressesOn`, read from the rib lists the
builder wrote, is acyclic. -/
theorem solve_emits_each_triangle_once (vertices : List Vertex)
    (triangles : List (Nat × Nat × Nat)) :
    ((solve vertices triangles).status = .finished →
        (solve vertices triangles).output.length = triangles.length
        ∧ (solve vertices triangles).output.Perm ((List.range triangles.length).map (· + 1))
        ∧ ∀ i, 1 ≤ i → i ≤ triangles.length → (solve vertices triangles).output.count i = 1)
    ∧ (∀ b, readAndInitTriangles vertices triangles = .ok b →
        (∀ t, ¬ Relation.TransGen (PressesOn b) t t) →
        (solve vertices triangles).status = .finished) := by
  rcases solve_cases vertices triangles with
    ⟨hb, _, hs⟩ | ⟨b, g, E, hb, hg, hlen, hsolve, hmi, hmlen, hE, hperm⟩
  · rw [hs]
    refine ⟨fun h => ?_, fun b hb1 _ => ?_⟩
    · cases h
    · rw [hb] at hb1
      cases hb1
  · constructor
    · intro hfin
      have hp : E.Perm (List.range triangles.length) := (hE.complete hfin).trans hperm
      have hperm1 : (solve vertices triangles).output.Perm
          ((List.range triangles.length).map (· + 1)) := by
        rw [solve_output_eq hE]
        exact hp.map _
      refine ⟨by rw [hperm1.length_eq]; simp, hperm1, ?_⟩
      intro i h1 h2
      rw [hperm1.count_eq]
      apply List.count_eq_one_of_mem
      · exact (List.nodup_range _).map (fun a c h => Nat.succ.inj h)
      · exact List.mem_map.2 ⟨i - 1, List.mem_range.2 (by omega), by omega⟩
    · intro b1 hb1 hac
      rw [hb] at hb1
      obtain rfl : b = b1 := Except.ok.inj hb1
      exact hE.acyclic (acyclic_receivers_of_pressesOn hg hac)

/-- The mirror example runs to completion and writes 1 and 2 once each. -/
theorem solve_emits_each_triangle_once_witness :
    (solve mirrorVertices mirrorTriangles).status = .finished
    ∧ (solve mirrorVertices mirrorTriangles).output.length = 2
    ∧ (solve mirrorVertices mirrorTriangles).output.Perm [1, 2]
    ∧ (solve mirrorVertices mirrorTriangles).output.count 2 = 1 :=
  have h := solve_emits_each_triangle_once mirrorVertices mirrorTriangles
  have hfin := h.2 _ mirror_build mirror_acyclic
  ⟨hfin, (h.1 hfin).1, (h.1 hfin).2.1, (h.1 hfin).2.2 2 (by decide) (by decide)⟩

/-- The order of the output against the rib lists the builder wrote. On every input on
which `solve` completes, whenever triangle `R` is the other owner of a rib in the rib
list of triangle `T` (`PressesOn b T R`), both are written and `T` comes strictly before
`R`. In particular, when the only pairs of `PressesOn` are `A` on `B` and `B` on `C`, the
run completes and writes `A` before `B` before `C`; with three triangles the output is
exactly `A B C`. -/
theorem solve_respects_pressure (vertices : List Vertex) (triangles : List (Nat × Nat × Nat))
    (b : Build) (hb : readAndInitTriangles vertices triangles = .ok b) :
    (∀ T R, (solve vertices triangles).status = .finished → PressesOn b T R →
        T + 1 ∈ (solve vertices triangles).output ∧ R + 1 ∈ (solve vertices triangles).output
        ∧ (solve vertices triangles).output.indexOf (T + 1)
            < (solve vertices triangles).output.indexOf (R + 1))
    ∧ (∀ A B C, A ≠ B → B ≠ C → A ≠ C →
        (∀ T R, PressesOn b T R ↔ (T = A ∧ R = B) ∨ (T = B ∧ R = C)) →
        (solve vertices triangles).status = .finished
        ∧ (solve vertices triangles).output.indexOf (A + 1)
            < (solve vertices triangles).output.indexOf (B + 1)
        ∧ (solve vertices triangles).output.indexOf (B + 1)
            < (solve vertices triangles).output.indexOf (C + 1)
        ∧ (triangles.length = 3 →
            (solve vertices triangles).output = [A + 1, B + 1, C + 1])) := by
  rcases solve_cases vertices triangles with
    ⟨hb0, _, _⟩ | ⟨b1, g, E, hb1, hg, hlen, hsolve, hmi, hmlen, hE, hperm⟩
  · rw [hb] at hb0
    cases hb0
  · rw [hb] at hb1
    obtain rfl : b = b1 := Except.ok.inj hb1
    have hall : ∀ s, s < g.receivers.length → s ∈ mapTriangles (initialState g).map := by
      intro s hs
      rw [(buildPressureIndex_spec hg).receivers_length, hlen] at hs
      exact hperm.mem_iff.2 (List.mem_range.2 hs)
    have hord : ∀ T R, (solve vertices triangles).status = .finished → PressesOn b T R →
        T ∈ E ∧ R ∈ E ∧ E.indexOf T < E.indexOf R := by
      intro T R hfin hTR
      have hpr : Presses g.receivers T R := (pressesOn_iff hg T R).1 hTR
      have hT : T ∈ mapTriangles (initialState g).map := hall T (presses_lt_length hpr)
      have hR : R ∈ E := (hE.complete hfin).mem_iff.2 (hmi.closed T hT R hpr)
      obtain ⟨h1, h2⟩ := hE.order T hT R hpr hR
      exact ⟨h1, hR, h2⟩
    constructor
    · intro T R hfin hTR
      obtain ⟨h1, h2, h3⟩ := hord T R hfin hTR
      rw [solve_output_eq hE, indexOf_map_succ, indexOf_map_succ]
      exact ⟨mem_map_succ.2 h1, mem_map_succ.2 h2, h3⟩
    · intro A B C hAB hBC hAC hrel
      have hac : ∀ t, ¬ Relation.TransGen (PressesOn b) t t := by
        refine acyclic_of_rank (fun t => if t = A then 0 else if t = B then 1 else 2) ?_
        intro s r hsr
        rcases (hrel s r).1 hsr with ⟨h1, h2⟩ | ⟨h1, h2⟩
        · subst h1; subst h2
          simp [Ne.symm hAB]
        · subst h1; subst h2
          simp [Ne.symm hAB, Ne.symm hBC, Ne.symm hAC]
      have hfin : (solve vertices triangles).status = .finished :=
        hE.acyclic (acyclic_receivers_of_pressesOn hg hac)
      obtain ⟨hA, hB, hAB1⟩ := hord A B hfin ((hrel A B).2 (Or.inl ⟨rfl, rfl⟩))
      obtain ⟨_, hC, hBC1⟩ := hord B C hfin ((hrel B C).2 (Or.inr ⟨rfl, rfl⟩))
      refine ⟨hfin, ?_, ?_, ?_⟩
      · rw [solve_output_eq hE, indexOf_map_succ, indexOf_map_succ]
        exact hAB1
      · rw [solve_output_eq hE, indexOf_map_succ, indexOf_map_succ]
        exact hBC1
      · intro hM
        have hElen : E.length = 3 := by
          have := ((hE.complete hfin).trans hperm).length_eq
          rw [List.length_range] at this
          omega
        rw [solve_output_eq hE, list_eq_of_three hElen hA hB hC hAB1 hBC1]
        rfl

/-- In the chain example triangle 3 presses on 2 and 2 on 1, and the output is 3 2 1. -/
theorem solve_respects_pressure_witness :
    (3 ∈ (solve chainVertices chainTriangles).output
      ∧ 2 ∈ (solve chainVertices chainTriangles).output
      ∧ (solve chainVertices chainTriangles).output.indexOf 3
          < (solve chainVertices chainTriangles).output.indexOf 2)
    ∧ (solve chainVertices chainTriangles).status = .finished
    ∧ (solve chainVertices chainTriangles).output = [3, 2, 1] :=
  have h := solve_respects_pressure chainVertices chainTriangles _ chain_build
  have hc := h.2 2 1 0 (by decide) (by decide) (by decide) chain_presses
  ⟨h.1 2 1 (by decide) ((chain_presses 2 1).2 (Or.inl ⟨rfl, rfl⟩)), hc.1, hc.2.2.2 rfl⟩

/-! ## Aborted runs -/

theorem cycle_of_pressesOn {b : Build} {g : PressureIndex} (hg : buildPressureIndex b = .ok g)
    (hcyc : ∃ t, Relation.TransGen (PressesOn b) t t) : ¬ Acyclic g.receivers := by
  intro hac
  obtain ⟨t, ht⟩ := hcyc
  exact hac t (Relation.TransGen.mono (fun a c h => (pressesOn_iff hg a c).1 h) ht)

/-- On every input that the adjacency builder accepts and for which the relation
`PressesOn`, read from the rib lists the builder wrote, contains a cycle, `solve` ends on
the failed assertion: after `k` complete evaluations of the loop body it meets a map
whose front key, the least key left, is not 0, and stops there without writing more. And
in every run a triangle is written only by a step that found it in front of the map with
key 0. -/
theorem solve_aborts_on_cycle (vertices : List Vertex) (triangles : List (Nat × Nat × Nat))
    (b : Build) (hb : readAndInitTriangles vertices triangles = .ok b)
    (hcyc : ∃ t, Relation.TransGen (PressesOn b) t t) :
    (solve vertices triangles).status = .assertionFailed
    ∧ (∃ g k st e rest, buildPressureIndex b = .ok g
        ∧ iterateSteps g.receivers k (initialState g) = some st
        ∧ st.map = e :: rest ∧ e.1 ≠ 0 ∧ (∀ e1 ∈ st.map, e.1 ≤ e1.1)
        ∧ extractStep g.receivers st = .halt .assertionFailed st.output
        ∧ (solve vertices triangles).output = st.output)
    ∧ (∀ (receivers : List (Nat × Nat)) (st st1 : ExtractState),
        extractStep receivers st = .next st1 →
        ∃ t rest, st.map = (0, t) :: rest ∧ st1.output = st.output ++ [t + 1]) := by
  rcases solve_cases vertices triangles with
    ⟨hb0, _, _⟩ | ⟨b1, g, E, hb1, hg, hlen, hsolve, hmi, hmlen, hE, hperm⟩
  · rw [hb] at hb0
    cases hb0
  · rw [hb] at hb1
    obtain rfl : b = b1 := Except.ok.inj hb1
    have hall : ∀ s, s < g.receivers.length → s ∈ mapTriangles (initialState g).map := by
      intro s hs
      rw [(buildPressureIndex_spec hg).receivers_length, hlen] at hs
      exact hperm.mem_iff.2 (List.mem_range.2 hs)
    have hstatus : (solve vertices triangles).status = .assertionFailed := by
      rcases hE.status with h | h
      · exact absurd (acyclic_of_finished hall hmi hE h) (cycle_of_pressesOn hg hcyc)
      · exact h
    refine ⟨hstatus, ?_, fun receivers st st1 h => extractStep_next h⟩
    have hrun := hstatus
    rw [hsolve] at hrun
    obtain ⟨k, st, e, rest, h1, h2, h3, h4⟩ := extractLoop_assertionFailed _ _ hrun
    have hinv : MapInv g.receivers st.map [] :=
      iterateSteps_inv k (initialState g).map (initialState g).output st hmi h1
    refine ⟨g, k, st, e, rest, hg, h1, h2, h3, ?_, ?_, by rw [hsolve]; exact h4⟩
    · intro e1 he1
      have hs := hinv.sorted
      rw [h2] at hs he1
      rcases List.mem_cons.1 he1 with h5 | h5
      · rw [h5]
      · exact (List.pairwise_cons.1 hs).1 e1 h5
    · obtain ⟨m, out⟩ := st
      simp only at h2
      subst h2
      exact extractStep_nonzero g.receivers e.2 rest out h3

/-- The cycle example ends on the failed assertion. -/
theorem solve_aborts_on_cycle_witness :
    (solve cycleVertices cycleTriangles).status = .assertionFailed :=
  (solve_aborts_on_cycle cycleVertices cycleTriangles _ cycle_build cycle_has_cycle).1

/-- C4, counterexample: on the cycle example the run ends on the failed assertion after
the index 1 of the free triangle has already been passed to the output stream. -/
theorem solve_writes_before_abort :
    (solve cycleVertices cycleTriangles).status = .assertionFailed
    ∧ (solve cycleVertices cycleTriangles).output = [1]
    ∧ ¬ ((solve cycleVertices cycleTriangles).status = .finished
          ∨ (solve cycleVertices cycleTriangles).output = []) := by
  decide

/-- For every input `solve` either completes, and then has passed every triangle index
`1..M` to the output stream exactly once, or it stops (on the failed assertion, or on an
access outside a container in the adjacency build) having passed fewer than `M` indices
to the stream, all different and all in `1..M`. In both cases every index passed to the
stream stands behind the index of every triangle that presses on that triangle according
to the rib lists the builder wrote (`PressesOn`). -/
theorem solve_output_parts (vertices : List Vertex)
    (triangles : List (Nat × Nat × Nat)) :
    (((solve vertices triangles).status = .finished
        ∧ (solve vertices triangles).output.Perm ((List.range triangles.length).map (· + 1)))
      ∨ (((solve vertices triangles).status = .assertionFailed
            ∨ (solve vertices triangles).status = .outOfBounds)
          ∧ (solve vertices triangles).output.length < triangles.length
          ∧ (solve vertices triangles).output.Nodup
          ∧ ∀ i ∈ (solve vertices triangles).output, 1 ≤ i ∧ i ≤ triangles.length))
    ∧ (∀ b T R, readAndInitTriangles vertices triangles = .ok b → PressesOn b T R →
        R + 1 ∈ (solve vertices triangles).output →
        T + 1 ∈ (solve vertices triangles).output
        ∧ (solve vertices triangles).output.indexOf (T + 1)
            < (solve vertices triangles).output.indexOf (R + 1)) := by
  rcases solve_cases vertices triangles with
    ⟨hb, hne, hs⟩ | ⟨b, g, E, hb, hg, hlen, hsolve, hmi, hmlen, hE, hperm⟩
  · constructor
    · right
      rw [hs]
      refine ⟨Or.inr rfl, ?_, List.nodup_nil, by simp⟩
      exact List.length_pos.2 hne
    · intro b T R hb1
      rw [hb] at hb1
      cases hb1
  · have hout := solve_output_eq hE
    constructor
    · by_cases hfin : (solve vertices triangles).status = .finished
      · left
        refine ⟨hfin, ?_⟩
        rw [hout]
        exact ((hE.complete hfin).trans hperm).map _
      · right
        refine ⟨Or.inl (hE.status.resolve_left hfin), ?_, ?_, ?_⟩
        · rw [hout, List.length_map, ← hmlen]
          exact hE.short hfin
        · rw [hout]
          exact hE.nodup.map (fun a c h => Nat.succ.inj h)
        · intro i hi
          rw [hout] at hi
          obtain ⟨t, ht, rfl⟩ := List.mem_map.1 hi
          have := List.mem_range.1 (hperm.mem_iff.1 (hE.subset t ht))
          omega
    · intro b1 T R hb1 hTR hR
      rw [hb] at hb1
      obtain rfl : b = b1 := Except.ok.inj hb1
      have hpr : Presses g.receivers T R := (pressesOn_iff hg T R).1 hTR
      have hT : T ∈ mapTriangles (initialState g).map := by
        have := presses_lt_length hpr
        rw [(buildPressureIndex_spec hg).receivers_length, hlen] at this
        exact hperm.mem_iff.2 (List.mem_range.2 this)
      rw [hout] at hR ⊢
      obtain ⟨h1, h2⟩ := hE.order T hT R hpr (mem_map_succ.1 hR)
      rw [indexOf_map_succ, indexOf_map_succ]
      exact ⟨mem_map_succ.2 h1, h2⟩

/-- C4 as amended (complete, or a proper part). For every input `solve` either completes,
and then has passed every triangle index `1..M` to the output stream exactly once, or it
stops (on the failed assertion, or on an access outside a container in the adjacency
build) having passed fewer than `M` indices to the stream, all different and all in
`1..M`. In both cases every index passed to the stream stands behind the index of every
triangle that presses on that triangle according to the rib lists the builder wrote
(`PressesOn`). And the sequence passed to the stream before a failed assertion can be
non-empty: there is an input on which it is. -/
theorem solve_complete_or_proper_part (vertices : List Vertex)
    (triangles : List (Nat × Nat × Nat)) :
    (((solve vertices triangles).status = .finished
        ∧ (solve vertices triangles).output.Perm ((List.range triangles.length).map (· + 1)))
      ∨ (((solve vertices triangles).status = .assertionFailed
            ∨ (solve vertices triangles).status = .outOfBounds)
          ∧ (solve vertices triangles).output.length < triangles.length
          ∧ (solve vertices triangles).output.Nodup
          ∧ ∀ i ∈ (solve vertices triangles).output, 1 ≤ i ∧ i ≤ triangles.length))
    ∧ (∀ b T R, readAndInitTriangles vertices triangles = .ok b → PressesOn b T R →
        R + 1 ∈ (solve vertices triangles).output →
        T + 1 ∈ (solve vertices triangles).output
        ∧ (solve vertices triangles).output.indexOf (T + 1)
            < (solve vertices triangles).output.indexOf (R + 1))
    ∧ (∃ (vs : List Vertex) (ts : List (Nat × Nat × Nat)),
        (solve vs ts).status = .assertionFailed ∧ (solve vs ts).output ≠ []) :=
  ⟨(solve_output_parts vertices triangles).1, (solve_output_parts vertices triangles).2,
    cycleVertices, cycleTriangles, by decide, by decide⟩

/-- C4 as amended, witness: the cycle example stops on the assertion with fewer than three
indices passed to the stream. -/
theorem solve_complete_or_proper_part_witness :
    ((solve cycleVertices cycleTriangles).status = .assertionFailed
        ∨ (solve cycleVertices cycleTriangles).status = .outOfBounds)
      ∧ (solve cycleVertices cycleTriangles).output.length < 3
      ∧ (solve cycleVertices cycleTriangles).output.Nodup
      ∧ ∀ i ∈ (solve cycleVertices cycleTriangles).output, 1 ≤ i ∧ i ≤ 3 :=
  (solve_complete_or_proper_part cycleVertices cycleTriangles).1.resolve_left
    (fun h => absurd h.1 (by decide))

/-- C5 (no failure on acyclic input). When the pressure relation computed from the
triangles is acyclic, the pressure index is built, and every one of the `M` evaluations
of the loop body finds the key 0 in front of the map, no key below it, and every
receiver of the extracted triangle still in the map, and goes on; so the assertion never
fails, no erased node is looked up, and the run completes. -/
theorem extraction_never_fails_when_acyclic (vertices : List Vertex)
    (triangles : List (Nat × Nat × Nat)) (b : Build)
    (hb : readAndInitTriangles vertices triangles = .ok b)
    (hac : ∀ t, ¬ Relation.TransGen (PressesOn b) t t) :
    ∃ g, buildPressureIndex b = .ok g
      ∧ (∀ k, k < triangles.length →
          ∃ st t rest st1, iterateSteps g.receivers k (initialState g) = some st
            ∧ st.map = (0, t) :: rest
            ∧ (∀ e ∈ st.map, 0 ≤ e.1)
            ∧ (∀ r ∈ receiversOf g.receivers t, r ∈ mapTriangles rest)
            ∧ extractStep g.receivers st = .next st1)
      ∧ (solve vertices triangles).status = .finished := by
  rcases solve_cases vertices triangles with
    ⟨hb0, _, _⟩ | ⟨b1, g, E, hb1, hg, hlen, hsolve, hmi, hmlen, hE, hperm⟩
  · rw [hb] at hb0
    cases hb0
  · rw [hb] at hb1
    obtain rfl : b = b1 := Except.ok.inj hb1
    have hacg : Acyclic g.receivers := acyclic_receivers_of_pressesOn hg hac
    refine ⟨g, hg, ?_, hE.acyclic hacg⟩
    intro k hk
    exact iterateSteps_of_acyclic hacg k (initialState g).map (initialState g).output hmi
      (by rw [hmlen]; exact hk)

/-- C5, witness: the mirror example is acyclic and its run completes. -/
theorem extraction_never_fails_when_acyclic_witness :
    (solve mirrorVertices mirrorTriangles).status = .finished :=
  match extraction_never_fails_when_acyclic mirrorVertices mirrorTriangles _ mirror_build
      mirror_acyclic with
  | ⟨_, _, _, h⟩ => h

/-! ## Ribs and the sides that name them -/

theorem pushRib_ribs {s s1 : TriangleState} {ri : Nat} (h : pushRib s ri = .ok s1) :
    s1.ribs = s.ribs ∧ s1.verticesToRibs = s.verticesToRibs := by
  unfold pushRib at h
  split at h
  · cases h; exact ⟨rfl, rfl⟩
  · split at h
    · cases h; exact ⟨rfl, rfl⟩
    · cases h

theorem classifyRib_ribs {vertices : List Vertex} {vertexIndices : Nat × Nat × Nat}
    {combinationNum : Nat} {vp : Nat × Nat} {rib : Rib} {ri : Nat} {s s1 : TriangleState}
    (h : classifyRib vertices vertexIndices combinationNum vp rib ri s = .ok s1) :
    s1.ribs = s.ribs ∧ s1.verticesToRibs = s.verticesToRibs := by
  unfold classifyRib at h
  split at h
  · split at h
    · exact pushRib_ribs h
    · cases h; exact ⟨rfl, rfl⟩
  · cases h

theorem findOrCreateRib_cases {vertices : List Vertex} {s : TriangleState} {vp : Nat × Nat}
    {ribs1 : List Rib} {map1 : List ((Nat × Nat) × Nat)} {ri : Nat}
    (h : findOrCreateRib vertices s vp = .ok (ribs1, map1, ri)) :
    (s.verticesToRibs.lookup vp = some ri ∧ ribs1 = s.ribs ∧ map1 = s.verticesToRibs)
    ∨ (∃ l r, vertices[vp.1]? = some l ∧ vertices[vp.2]? = some r
        ∧ ribs1 = s.ribs ++ [Rib.new l r]
        ∧ map1 = s.verticesToRibs ++ [(vp, s.ribs.length)] ∧ ri = s.ribs.length) := by
  unfold findOrCreateRib at h
  cases hl : s.verticesToRibs.lookup vp with
  | some ribIndex =>
    simp only [hl, Except.ok.injEq, Prod.mk.injEq] at h
    obtain ⟨h1, h2, h3⟩ := h
    subst h1; subst h2; subst h3
    exact Or.inl ⟨rfl, rfl, rfl⟩
  | none =>
    simp only [hl] at h
    cases hv1 : vertices[vp.1]? with
    | none => simp [hv1] at h
    | some l =>
      cases hv2 : vertices[vp.2]? with
      | none => simp [hv1, hv2] at h
      | some r =>
        simp only [hv1, hv2, Except.ok.injEq, Prod.mk.injEq] at h
        obtain ⟨h1, h2, h3⟩ := h
        subst h1; subst h2; subst h3
        exact Or.inr ⟨l, r, rfl, rfl, rfl, rfl, rfl⟩

/-- What one pass over a combination does to `m_ribs` and the map, whatever the
orientation test says. -/
theorem processCombination_ribs {vertices : List Vertex} {k : Nat}
    {vertexIndices : Nat × Nat × Nat} {combinationNum : Nat} {c : Nat × Nat}
    {s s1 : TriangleState}
    (h : processCombination vertices k vertexIndices combinationNum c s = .ok s1) :
    ∃ vp ribs1 map1 ri rib0,
      sortVertices vertices (vertexAt vertexIndices c.1) (vertexAt vertexIndices c.2) = .ok vp
      ∧ findOrCreateRib vertices s vp = .ok (ribs1, map1, ri)
      ∧ ribs1[ri]? = some rib0
      ∧ s1.ribs = ribs1.set ri (rib0.setOwner k) ∧ s1.verticesToRibs = map1 := by
  unfold processCombination at h
  cases hsv : sortVertices vertices (vertexAt vertexIndices c.1) (vertexAt vertexIndices c.2) with
  | error e => simp [hsv] at h
  | ok vp =>
    simp only [hsv] at h
    cases hf : findOrCreateRib vertices s vp with
    | error e => simp [hf] at h
    | ok res =>
      obtain ⟨ribs1, map1, ri⟩ := res
      simp only [hf] at h
      cases hget : ribs1[ri]? with
      | none => simp [hget] at h
      | some rib0 =>
        simp only [hget] at h
        refine ⟨vp, ribs1, map1, ri, rib0, rfl, hf, hget, ?_⟩
        by_cases hdx : (rib0.setOwner k).deltaX = 0
        · simp only [hdx, if_true, Except.ok.injEq] at h
          subst h
          exact ⟨rfl, rfl⟩
        · simp only [hdx, if_false] at h
          exact classifyRib_ribs h

theorem canonicalKey_of_sort {vertices : List Vertex} {a b : Nat} {vp : Nat × Nat}
    (h : sortVertices vertices a b = .ok vp) : canonicalKey vertices (a, b) = vp := by
  simp [canonicalKey, h]

theorem canonicalKey_cases (vertices : List Vertex) (side : Nat × Nat) :
    canonicalKey vertices side = side ∨ canonicalKey vertices side = (side.2, side.1) := by
  unfold canonicalKey sortVertices
  split
  · rename_i vp h
    split at h
    · simp only [Except.ok.injEq] at h
      split at h
      · exact Or.inr h.symm
      · exact Or.inl h.symm
    · cases h
  · exact Or.inl rfl

theorem mem_map_snd_unique {map : List ((Nat × Nat) × Nat)} {n : Nat}
    (hidx : map.map Prod.snd = List.range n) {key key1 : Nat × Nat} {i : Nat}
    (h1 : (key, i) ∈ map) (h2 : (key1, i) ∈ map) : key = key1 := by
  have hnd : (map.map Prod.snd).Nodup := by rw [hidx]; exact List.nodup_range n
  have := List.inj_on_of_nodup_map hnd h1 h2 rfl
  exact (Prod.mk.inj this).1

theorem mem_map_snd_lt {map : List ((Nat × Nat) × Nat)} {n : Nat}
    (hidx : map.map Prod.snd = List.range n) {key : Nat × Nat} {i : Nat}
    (h1 : (key, i) ∈ map) : i < n := by
  have : i ∈ map.map Prod.snd := List.mem_map.2 ⟨(key, i), h1, rfl⟩
  rw [hidx] at this
  exact List.mem_range.1 this

theorem keyInv_step {vertices : List Vertex} {k : Nat} {vertexIndices : Nat × Nat × Nat}
    {combinationNum : Nat} {c : Nat × Nat} {s s1 : TriangleState} {seen : List (Nat × Nat)}
    (hinv : KeyInv vertices seen s.ribs s.verticesToRibs)
    (h : processCombination vertices k vertexIndices combinationNum c s = .ok s1) :
    KeyInv vertices
      (seen ++ [canonicalKey vertices (vertexAt vertexIndices c.1, vertexAt vertexIndices c.2)])
      s1.ribs s1.verticesToRibs := by
  obtain ⟨vp, ribs1, map1, ri, rib0, hsv, hf, hget, hribs, hmap⟩ := processCombination_ribs h
  rw [canonicalKey_of_sort hsv, hribs, hmap]
  have hri : ri < ribs1.length := (List.getElem?_eq_some.1 hget).1
  -- the state before `setOwner`, with the key `vp` already counted
  have hmid : map1.map Prod.snd = List.range ribs1.length
      ∧ (vp, ri) ∈ map1
      ∧ (∀ (i : Nat) (rib : Rib), ribs1[i]? = some rib →
          rib.ownerTriangles.1 = invalidIndex → rib.ownerTriangles.2 = invalidIndex)
      ∧ (∀ (i : Nat) (rib : Rib) (key : Nat × Nat), ribs1[i]? = some rib → (key, i) ∈ map1 →
          rib.ownerTriangles.1 ≠ invalidIndex → 1 ≤ seen.count key)
      ∧ (∀ (i : Nat) (rib : Rib) (key : Nat × Nat), ribs1[i]? = some rib → (key, i) ∈ map1 →
          rib.ownerTriangles.2 ≠ invalidIndex → 2 ≤ seen.count key)
      ∧ (∀ (i : Nat) (rib : Rib) (key : Nat × Nat), ribs1[i]? = some rib → (key, i) ∈ map1 →
          ∃ l r : Vertex, vertices[key.1]? = some l ∧ vertices[key.2]? = some r
            ∧ rib.deltaX = wrapInt (r.x - l.x)) := by
    rcases findOrCreateRib_cases hf with ⟨hl, h1, h2⟩ | ⟨l, r, hv1, hv2, h1, h2, h3⟩
    · subst h1; subst h2
      exact ⟨hinv.indices, lookup_mem hl, hinv.free, hinv.first, hinv.second, hinv.delta⟩
    · subst h1; subst h2; subst h3
      have hold : ∀ (i : Nat) (rib : Rib) (key : Nat × Nat),
          (s.ribs ++ [Rib.new l r])[i]? = some rib →
          (key, i) ∈ s.verticesToRibs ++ [(vp, s.ribs.length)] →
          (s.ribs[i]? = some rib ∧ (key, i) ∈ s.verticesToRibs)
          ∨ (i = s.ribs.length ∧ rib = Rib.new l r ∧ key = vp) := by
        intro i rib key hrib hkey
        rcases List.mem_append.1 hkey with hk | hk
        · left
          have hlt := mem_map_snd_lt hinv.indices hk
          rw [List.getElem?_append_left hlt] at hrib
          exact ⟨hrib, hk⟩
        · right
          simp only [List.mem_singleton, Prod.mk.injEq] at hk
          obtain ⟨hk1, hk2⟩ := hk
          subst hk2
          rw [List.getElem?_append_right (le_refl _)] at hrib
          simp only [Nat.sub_self, List.getElem?_cons_zero, Option.some.injEq] at hrib
          exact ⟨rfl, hrib.symm, hk1⟩
      refine ⟨?_, by simp, ?_, ?_, ?_, ?_⟩
      · simp [List.map_append, hinv.indices, List.range_succ]
      · intro i rib hrib h0
        by_cases hlt : i < s.ribs.length
        · rw [List.getElem?_append_left hlt] at hrib
          exact hinv.free i rib hrib h0
        · have hlen := (List.getElem?_eq_some.1 hrib).1
          simp only [List.length_append, List.length_singleton] at hlen
          have hi : i = s.ribs.length := by omega
          subst hi
          rw [List.getElem?_append_right (le_refl _)] at hrib
          simp only [Nat.sub_self, List.getElem?_cons_zero, Option.some.injEq] at hrib
          rw [← hrib]
          rfl
      · intro i rib key hrib hkey hne
        rcases hold i rib key hrib hkey with ⟨h1, h2⟩ | ⟨_, h2, _⟩
        · exact hinv.first i rib key h1 h2 hne
        · rw [h2] at hne
          exact absurd rfl hne
      · intro i rib key hrib hkey hne
        rcases hold i rib key hrib hkey with ⟨h1, h2⟩ | ⟨_, h2, _⟩
        · exact hinv.second i rib key h1 h2 hne
        · rw [h2] at hne
          exact absurd rfl hne
      · intro i rib key hrib hkey
        rcases hold i rib key hrib hkey with ⟨h1, h2⟩ | ⟨_, h2, h3⟩
        · exact hinv.delta i rib key h1 h2
        · subst h2; subst h3
          exact ⟨l, r, hv1, hv2, rfl⟩
  obtain ⟨hidx, hvp, hfree, hfirst, hsecond, hdelta⟩ := hmid
  have hcount : ∀ key, seen.count key ≤ (seen ++ [vp]).count key := by
    intro key
    rw [List.count_append]
    exact Nat.le_add_right _ _
  have hcountvp : (seen ++ [vp]).count vp = seen.count vp + 1 := by
    rw [List.count_append]
    simp
  have hat : ∀ (i : Nat) (rib : Rib), (ribs1.set ri (rib0.setOwner k))[i]? = some rib →
      (i ≠ ri ∧ ribs1[i]? = some rib) ∨ (i = ri ∧ rib = rib0.setOwner k) := by
    intro i rib hrib
    by_cases hi : ri = i
    · subst hi
      rw [List.getElem?_set_self hri] at hrib
      exact Or.inr ⟨rfl, (Option.some.inj hrib).symm⟩
    · rw [List.getElem?_set_ne hi] at hrib
      exact Or.inl ⟨Ne.symm hi, hrib⟩
  refine ⟨by simpa using hidx, ?_, ?_, ?_, ?_⟩
  · intro i rib hrib h0
    rcases hat i rib hrib with ⟨_, h1⟩ | ⟨_, h1⟩
    · exact hfree i rib h1 h0
    · subst h1
      by_cases hf0 : rib0.ownerTriangles.1 = invalidIndex
      · rw [setOwner_free _ _ hf0]
        exact hfree ri rib0 hget hf0
      · rw [setOwner_first _ _ hf0] at h0
        exact absurd h0 hf0
  · intro i rib key hrib hkey hne
    rcases hat i rib hrib with ⟨_, h1⟩ | ⟨h0, h1⟩
    · exact le_trans (hfirst i rib key h1 hkey hne) (hcount key)
    · subst h0
      obtain rfl := mem_map_snd_unique hidx hkey hvp
      rw [hcountvp]
      exact Nat.le_add_left _ _
  · intro i rib key hrib hkey hne
    rcases hat i rib hrib with ⟨_, h1⟩ | ⟨h0, h1⟩
    · exact le_trans (hsecond i rib key h1 hkey hne) (hcount key)
    · subst h0
      obtain rfl := mem_map_snd_unique hidx hkey hvp
      rw [hcountvp]
      subst h1
      by_cases hf0 : rib0.ownerTriangles.1 = invalidIndex
      · rw [setOwner_free _ _ hf0] at hne
        exact absurd (hfree i rib0 hget hf0) hne
      · have := hfirst i rib0 key hget hkey hf0
        omega
  · intro i rib key hrib hkey
    rcases hat i rib hrib with ⟨_, h1⟩ | ⟨h0, h1⟩
    · exact hdelta i rib key h1 hkey
    · subst h0; subst h1
      rw [setOwner_deltaX]
      exact hdelta i rib0 key hget hkey

theorem keyInv_combinations {vertices : List Vertex} {k : Nat}
    {vertexIndices : Nat × Nat × Nat} :
    ∀ (cs : List (Nat × Nat)) (n : Nat) (s s1 : TriangleState) (seen : List (Nat × Nat)),
      KeyInv vertices seen s.ribs s.verticesToRibs →
      processCombinations vertices k vertexIndices n cs s = .ok s1 →
      KeyInv vertices
        (seen ++ cs.map (fun c =>
          canonicalKey vertices (vertexAt vertexIndices c.1, vertexAt vertexIndices c.2)))
        s1.ribs s1.verticesToRibs
  | [], _, s, s1, seen, hinv, h => by
    simp only [processCombinations, Except.ok.injEq] at h
    subst h
    simpa using hinv
  | c :: cs, n, s, s1, seen, hinv, h => by
    obtain ⟨s2, h1, h2⟩ := processCombinations_cons_ok h
    have := keyInv_combinations cs (n + 1) s2 s1 _ (keyInv_step hinv h1) h2
    simpa [List.append_assoc] using this


theorem sides_of_indices (a b c : Nat) :
    vertexCombinations.map (fun x => (vertexAt (a, b, c) x.1, vertexAt (a, b, c) x.2))
      = [(b, c), (a, c), (a, b)] := by
  simp [vertexCombinations, vertexAt]

theorem sidesOf_eq (input : Nat × Nat × Nat) :
    vertexCombinations.map (fun c =>
      (vertexAt (decIndex input.1, decIndex input.2.1, decIndex input.2.2) c.1,
       vertexAt (decIndex input.1, decIndex input.2.1, decIndex input.2.2) c.2))
      = sidesOf input := by
  rw [sides_of_indices]
  rfl

theorem keyInv_triangle {vertices : List Vertex} {k : Nat} {input : Nat × Nat × Nat}
    {b b1 : Build} {seen : List (Nat × Nat)}
    (hinv : KeyInv vertices seen b.ribs b.verticesToRibs)
    (h : processTriangle vertices k input b = .ok b1) :
    KeyInv vertices (seen ++ (sidesOf input).map (canonicalKey vertices))
      b1.ribs b1.verticesToRibs := by
  rw [processTriangle] at h
  cases hp : processCombinations vertices k
      (decIndex input.1, decIndex input.2.1, decIndex input.2.2) 0 vertexCombinations
      (TriangleState.mk b.ribs b.verticesToRibs Triangle.new 0) with
  | error e => simp only [hp] at h; cases h
  | ok s =>
    simp only [hp, Except.ok.injEq] at h
    subst h
    have := keyInv_combinations vertexCombinations 0 _ s seen hinv hp
    rw [← sidesOf_eq, List.map_map]
    exact this

theorem keyInv_triangles {vertices : List Vertex} :
    ∀ (ts : List (Nat × Nat × Nat)) (k : Nat) (b b1 : Build) (seen : List (Nat × Nat)),
      KeyInv vertices seen b.ribs b.verticesToRibs →
      readTrianglesFrom vertices k ts b = .ok b1 →
      KeyInv vertices (seen ++ (ts.flatMap sidesOf).map (canonicalKey vertices))
        b1.ribs b1.verticesToRibs
  | [], _, b, b1, seen, hinv, h => by
    simp only [readTrianglesFrom, Except.ok.injEq] at h
    subst h
    simpa using hinv
  | t :: ts, k, b, b1, seen, hinv, h => by
    unfold readTrianglesFrom at h
    cases hp : processTriangle vertices k t b with
    | error e => simp [hp] at h
    | ok b2 =>
      simp only [hp] at h
      have := keyInv_triangles ts (k + 1) b2 b1 _ (keyInv_triangle hinv hp) h
      simpa [List.flatMap_cons, List.map_append, List.append_assoc] using this

theorem readAndInitTriangles_keys {vertices : List Vertex}
    {triangles : List (Nat × Nat × Nat)} {b : Build}
    (h : readAndInitTriangles vertices triangles = .ok b) :
    KeyInv vertices ((triangles.flatMap sidesOf).map (canonicalKey vertices))
      b.ribs b.verticesToRibs := by
  have h0 : KeyInv vertices [] (Build.mk [] [] []).ribs (Build.mk [] [] []).verticesToRibs :=
    ⟨rfl, by simp, by simp, by simp, by simp⟩
  have := keyInv_triangles triangles 0 _ b [] h0 h
  simpa using this

theorem edgeOf_canonicalKey (vertices : List Vertex) (side : Nat × Nat) :
    edgeOf (canonicalKey vertices side) = edgeOf side := by
  rcases canonicalKey_cases vertices side with h | h
  · rw [h]
  · rw [h]
    simp [edgeOf, Nat.min_comm, Nat.max_comm]

theorem wrapInt_zero : wrapInt 0 = 0 := by decide

theorem count_le_one_of_nodup (key : Nat × Nat) :
    ∀ {l : List (Nat × Nat)}, l.Nodup → l.count key ≤ 1
  | [], _ => by simp
  | a :: l, h => by
    obtain ⟨hal, hl⟩ := List.nodup_cons.1 h
    by_cases hak : a = key
    · subst hak
      rw [List.count_cons_self, List.count_eq_zero.2 hal]
    · rw [List.count_cons_of_ne (Ne.symm hak)]
      exact count_le_one_of_nodup key hl

/-- A rib with both owner slots taken belongs to an edge that the two triangles have in
common; when each triangle has three different edges and every common edge joins two
vertices of equal x, such a rib is vertical. -/
theorem shared_rib_vertical {vertices : List Vertex} {t1 t2 : Nat × Nat × Nat} {b : Build}
    (hb : readAndInitTriangles vertices [t1, t2] = .ok b)
    (hnd1 : ((sidesOf t1).map edgeOf).Nodup) (hnd2 : ((sidesOf t2).map edgeOf).Nodup)
    (hshared : ∀ s1 ∈ sidesOf t1, ∀ s2 ∈ sidesOf t2, edgeOf s1 = edgeOf s2 →
      (vertices[s1.1]?).map Vertex.x = (vertices[s1.2]?).map Vertex.x) :
    ∀ rib ∈ b.ribs, rib.ownerTriangles.1 ≠ invalidIndex →
      rib.ownerTriangles.2 ≠ invalidIndex → rib.deltaX = 0 := by
  have hkeys := readAndInitTriangles_keys hb
  intro rib hrib _ h2
  obtain ⟨i, hi⟩ := List.mem_iff_getElem?.1 hrib
  have hlt : i < b.ribs.length := (List.getElem?_eq_some.1 hi).1
  have himem : i ∈ b.verticesToRibs.map Prod.snd := by
    rw [hkeys.indices]; exact List.mem_range.2 hlt
  obtain ⟨e, he, hei⟩ := List.mem_map.1 himem
  obtain ⟨key, j⟩ := e
  simp only at hei
  subst hei
  have hcount := hkeys.second j rib key hi he h2
  obtain ⟨l, r, hl, hr, hdx⟩ := hkeys.delta j rib key hi he
  have hseen : ([t1, t2].flatMap sidesOf).map (canonicalKey vertices)
      = (sidesOf t1).map (canonicalKey vertices) ++ (sidesOf t2).map (canonicalKey vertices) := by
    simp [List.flatMap_cons]
  rw [hseen, List.count_append] at hcount
  have hn1 : ((sidesOf t1).map (canonicalKey vertices)).Nodup := by
    apply List.Nodup.of_map edgeOf
    rw [List.map_map]
    have : (edgeOf ∘ canonicalKey vertices) = edgeOf := funext (edgeOf_canonicalKey vertices)
    rw [this]
    exact hnd1
  have hn2 : ((sidesOf t2).map (canonicalKey vertices)).Nodup := by
    apply List.Nodup.of_map edgeOf
    rw [List.map_map]
    have : (edgeOf ∘ canonicalKey vertices) = edgeOf := funext (edgeOf_canonicalKey vertices)
    rw [this]
    exact hnd2
  have hc1 := count_le_one_of_nodup key hn1
  have hc2 := count_le_one_of_nodup key hn2
  have hm1 : key ∈ (sidesOf t1).map (canonicalKey vertices) :=
    List.one_le_count_iff.1 (by omega)
  have hm2 : key ∈ (sidesOf t2).map (canonicalKey vertices) :=
    List.one_le_count_iff.1 (by omega)
  obtain ⟨s1, hs1, hk1⟩ := List.mem_map.1 hm1
  obtain ⟨s2, hs2, hk2⟩ := List.mem_map.1 hm2
  have hedge : edgeOf s1 = edgeOf s2 := by
    rw [← edgeOf_canonicalKey vertices s1, ← edgeOf_canonicalKey vertices s2, hk1, hk2]
  have hx : l.x = r.x := by
    rcases canonicalKey_cases vertices s1 with h | h
    · rw [hk1] at h
      subst h
      have := hshared key hs1 s2 hs2 hedge
      rw [hl, hr] at this
      exact Option.some.inj this
    · rw [hk1] at h
      rw [h] at hl hr
      simp only at hl hr
      have := hshared s1 hs1 s2 hs2 hedge
      rw [hl, hr] at this
      exact (Option.some.inj this).symm
  rw [hdx, hx, sub_self, wrapInt_zero]

/-! ## The adjacency builder on malformed and on special inputs -/

/-- C6 (edge deduplication) on the vertical example. Its two triangles have five
distinct sides, but `readAndInitTriangles` stores six ribs: the common edge joins two
vertices of equal x, `sortVertices` leaves such a pair in the order given, and the second
triangle lists it the other way round. With the edge listed the same way in both
triangles five ribs are stored. -/
theorem vertical_edge_is_stored_twice :
    readAndInitTriangles verticalVertices verticalTriangles
        = .ok (buildOf verticalVertices verticalTriangles)
    ∧ (buildOf verticalVertices verticalTriangles).ribs.length = 6
    ∧ (distinctSides verticalTriangles).length = 5
    ∧ readAndInitTriangles verticalVertices verticalTrianglesAligned
        = .ok (buildOf verticalVertices verticalTrianglesAligned)
    ∧ (buildOf verticalVertices verticalTrianglesAligned).ribs.length = 5
    ∧ (distinctSides verticalTrianglesAligned).length = 5 := by
  refine ⟨rfl, ?_, ?_, rfl, ?_, ?_⟩ <;> decide

/-- C7, counterexample: the third triangle of the fan example names a rib that has two
owners. Nothing fails: the build succeeds, the rib ends with the owners 0 and 2 (the owner
1 is overwritten), and the run completes with the output 2 3 1. -/
theorem third_owner_is_not_fatal :
    readAndInitTriangles fanVertices fanTriangles = .ok (buildOf fanVertices fanTriangles)
    ∧ (buildOf fanVertices fanTriangles).ribs[2]?
        = some { deltaX := 2, deltaY := 0, ownerTriangles := (0, 2) }
    ∧ solve fanVertices fanTriangles = { status := .finished, output := [2, 3, 1] } := by
  refine ⟨rfl, ?_, ?_⟩ <;> decide

/-- C7 as amended (a third owner overwrites the second). `setOwner` on a rib whose two
owner slots are taken keeps the first owner and stores the new triangle in the second
slot, in place of the owner held there, and leaves the direction of the rib as it is;
the adjacency build contains no assertion, so it never ends on a failed one. -/
theorem third_owner_overwrites_second (rib : Rib) (t : Nat)
    (h1 : rib.ownerTriangles.1 ≠ invalidIndex) (_h2 : rib.ownerTriangles.2 ≠ invalidIndex) :
    rib.setOwner t
        = { deltaX := rib.deltaX, deltaY := rib.deltaY,
            ownerTriangles := (rib.ownerTriangles.1, t) }
    ∧ ∀ (vertices : List Vertex) (triangles : List (Nat × Nat × Nat)) (e : Status),
        readAndInitTriangles vertices triangles = .error e → e = .outOfBounds := by
  refine ⟨by simp [Rib.setOwner, h1], fun vertices triangles e h => ?_⟩
  exact (readTrianglesFrom_error _ _ _ h).1

/-- C7 as amended, witness: a rib owned by triangles 0 and 1 is owned by 0 and 2 after
`setOwner 2`. -/
theorem third_owner_overwrites_second_witness :
    Rib.setOwner { deltaX := 2, deltaY := 0, ownerTriangles := (0, 1) } 2
      = { deltaX := 2, deltaY := 0, ownerTriangles := (0, 2) } :=
  (third_owner_overwrites_second { deltaX := 2, deltaY := 0, ownerTriangles := (0, 1) } 2
    (by decide) (by decide)).1

/-- C8, counterexample: a triangle with the vertex index 0 (and one with the index 5 over
four vertices) makes the build read the vertex list outside its bounds; what ends the
build is this unchecked access, not a reported error. -/
theorem malformed_index_is_not_reported :
    decIndex 0 = invalidIndex
    ∧ sortVertices mirrorVertices (decIndex 2) (decIndex 0) = .error .outOfBounds
    ∧ readAndInitTriangles mirrorVertices [(1, 2, 0)] = .error .outOfBounds
    ∧ readAndInitTriangles mirrorVertices [(1, 2, 0)] ≠ .error .assertionFailed
    ∧ readAndInitTriangles mirrorVertices [(1, 2, 5)] = .error .outOfBounds := by
  refine ⟨by decide, rfl, rfl, ?_, rfl⟩
  intro h
  cases h

/-- C8 as amended (a malformed index is read unchecked). For every input whose vertex
count and vertex indices fit a `size_t` and in which some triangle has a vertex index
outside `[1, N]` (0 included), the adjacency build applies no range check: it indexes the
vertex list with that index minus one (0 wrapping to `size_t(-1)`), an access outside the
vector, so no triangle or rib result is defined and nothing is written; no error is
reported by the code itself. -/
theorem malformed_index_is_read_unchecked (vertices : List Vertex)
    (triangles : List (Nat × Nat × Nat))
    (hN : vertices.length < 18446744073709551616)
    (hT : ∀ t ∈ triangles, t.1 < 18446744073709551616 ∧ t.2.1 < 18446744073709551616
      ∧ t.2.2 < 18446744073709551616)
    (hbad : ∃ t ∈ triangles, ¬ (1 ≤ t.1 ∧ t.1 ≤ vertices.length)
      ∨ ¬ (1 ≤ t.2.1 ∧ t.2.1 ≤ vertices.length) ∨ ¬ (1 ≤ t.2.2 ∧ t.2.2 ≤ vertices.length)) :
    readAndInitTriangles vertices triangles = .error .outOfBounds
    ∧ solve vertices triangles = { status := .outOfBounds, output := [] } := by
  have hbuild : readAndInitTriangles vertices triangles = .error .outOfBounds := by
    cases h : readAndInitTriangles vertices triangles with
    | error e =>
      rw [(readTrianglesFrom_error _ _ _ h).1]
    | ok b =>
      exfalso
      obtain ⟨t, ht, hbad1⟩ := hbad
      obtain ⟨r1, r2, r3⟩ := readTrianglesFrom_inRange _ _ _ _ h t ht
      obtain ⟨b1, b2, b3⟩ := hT t ht
      have e1 := (decIndex_lt_iff b1 hN).1 r1
      have e2 := (decIndex_lt_iff b2 hN).1 r2
      have e3 := (decIndex_lt_iff b3 hN).1 r3
      rcases hbad1 with h1 | h1 | h1
      · exact h1 e1
      · exact h1 e2
      · exact h1 e3
  exact ⟨hbuild, by simp [solve, hbuild]⟩

/-- C8 as amended, witness: the index 5 over the four vertices of the mirror example. -/
theorem malformed_index_is_read_unchecked_witness :
    readAndInitTriangles mirrorVertices [(1, 2, 5)] = .error .outOfBounds
    ∧ solve mirrorVertices [(1, 2, 5)] = { status := .outOfBounds, output := [] } :=
  malformed_index_is_read_unchecked mirrorVertices [(1, 2, 5)] (by decide) (by decide)
    ⟨(1, 2, 5), by simp, Or.inr (Or.inr (by decide))⟩

/-- C9 (two triangles on one edge) on the wide example. Triangle 2 has its third vertex
above the common edge (0,0)-(65536,0) and triangle 1 below it (exact cross products
2^31 and -2^31), all coordinates within [-1000000, 1000000]. On `int` the product
65536 * 32768 wraps to -2^31, `isRibCCWise` answers false for the upper triangle, both
pressure counts are 0 and the lower triangle 1 is written first. -/
theorem wide_example_emits_lower_triangle_first :
    crossExact { x := 0, y := 0 } { x := 65536, y := 0 } { x := 1, y := 32768 } = 2147483648
    ∧ crossExact { x := 0, y := 0 } { x := 65536, y := 0 } { x := 1, y := -32768 }
        = -2147483648
    ∧ isRibCCWise (Rib.new { x := 0, y := 0 } { x := 65536, y := 0 })
        (Rib.new { x := 0, y := 0 } { x := 1, y := 32768 }) = false
    ∧ readAndInitTriangles wideVertices wideTriangles
        = .ok (buildOf wideVertices wideTriangles)
    ∧ buildPressureIndex (buildOf wideVertices wideTriangles)
        = .ok { pressure := [0, 0]
                receivers := [(invalidIndex, invalidIndex), (invalidIndex, invalidIndex)] }
    ∧ solve wideVertices wideTriangles = { status := .finished, output := [1, 2] } := by
  refine ⟨by decide, by decide, by decide, rfl, rfl, by decide⟩

/-- The mirror example, with small coordinates: the upper triangle gets the pressure count
0, the lower one 1, and the output is 1 2, or 2 1 when the two triangles are numbered the
other way round. -/
theorem mirror_example_output :
    buildPressureIndex (buildOf mirrorVertices mirrorTriangles)
      = .ok { pressure := [0, 1]
              receivers := [(1, invalidIndex), (invalidIndex, invalidIndex)] }
    ∧ solve mirrorVertices mirrorTriangles = { status := .finished, output := [1, 2] }
    ∧ solve mirrorVertices mirrorTriangles.reverse = { status := .finished, output := [2, 1] } := by
  refine ⟨rfl, by decide, by decide⟩

theorem mem_validEntries {a : Nat × Nat} {ri : Nat} (h : ri ∈ validEntries a) :
    (ri = a.1 ∨ ri = a.2) ∧ ri ≠ invalidIndex := by
  unfold validEntries at h
  by_cases h1 : a.1 = invalidIndex
  · simp [h1] at h
  · by_cases h2 : a.2 = invalidIndex
    · simp only [h1, h2, if_true, if_false, List.mem_singleton] at h
      exact ⟨Or.inl h, by rw [h]; exact h1⟩
    · simp only [h1, h2, if_false, List.mem_cons, List.mem_singleton, List.not_mem_nil,
        or_false] at h
      rcases h with h | h
      · exact ⟨Or.inl h, by rw [h]; exact h1⟩
      · exact ⟨Or.inr h, by rw [h]; exact h2⟩

/-- When every rib with two owners is vertical, no triangle presses on another. -/
theorem pressedBy_nil_of_shared_vertical {hi : Nat} {ribs : List Rib} {T : Nat}
    {triangle : Triangle} (hhi : hi ≤ invalidIndex) (hT : T < hi)
    (hgood : SlotsGood hi ribs T triangle.ribs)
    (hvert : ∀ rib ∈ ribs, rib.ownerTriangles.1 ≠ invalidIndex →
      rib.ownerTriangles.2 ≠ invalidIndex → rib.deltaX = 0) :
    pressedBy ribs T triangle = [] := by
  rw [List.eq_nil_iff_forall_not_mem]
  intro R hR
  obtain ⟨ri, rib, hri, hrib, ho, hne⟩ := mem_pressedBy.1 hR
  obtain ⟨hslot, hvalid⟩ := mem_validEntries hri
  obtain ⟨rib1, hrib1, hdx, hown⟩ := hgood ri hslot hvalid
  rw [hrib] at hrib1
  obtain rfl : rib = rib1 := Option.some.inj hrib1
  have hmem : rib ∈ ribs := List.getElem?_mem hrib
  have hTi : T ≠ invalidIndex := by omega
  rcases hown hhi with h1 | ⟨h1, h2⟩
  · have h2 : rib.ownerTriangles.2 = invalidIndex := by
      by_contra hne2
      exact hdx (hvert rib hmem (by rw [h1]; exact hTi) hne2)
    apply hne
    rw [← ho]
    simp [Rib.getOtherOwner, h1, h2]
  · exact hdx (hvert rib hmem h1 h2)

/-- For two triangles, when every rib with both owner slots taken is vertical, both
pressure counts are 0, both receiver lists are empty and the output is 1 2. -/
theorem no_pressure_of_shared_vertical {vertices : List Vertex}
    {triangles : List (Nat × Nat × Nat)} {b : Build}
    (hb : readAndInitTriangles vertices triangles = .ok b) (hM : triangles.length = 2)
    (hvert : ∀ rib ∈ b.ribs, rib.ownerTriangles.1 ≠ invalidIndex →
      rib.ownerTriangles.2 ≠ invalidIndex → rib.deltaX = 0) :
    ∃ g, buildPressureIndex b = .ok g ∧ g.pressure = [0, 0]
      ∧ receiversOf g.receivers 0 = [] ∧ receiversOf g.receivers 1 = []
      ∧ solve vertices triangles = { status := .finished, output := [1, 2] } := by
  have hinv := readAndInitTriangles_inv hb
  rcases solve_cases vertices triangles with
    ⟨hb0, _, _⟩ | ⟨b1, g, E, hb1, hg, hlen, hsolve, hmi, hmlen, hE, hperm⟩
  · rw [hb] at hb0
    cases hb0
  · rw [hb] at hb1
    obtain rfl : b = b1 := Except.ok.inj hb1
    have hidx := buildPressureIndex_spec hg
    have hb2 : b.triangles.length = 2 := by omega
    have hnil : ∀ s, s < 2 → receiversOf g.receivers s = [] := by
      intro s hs
      have hs1 : s < b.triangles.length := by omega
      rw [hidx.pressed s _ hs1 (List.getElem?_eq_getElem hs1)]
      refine @pressedBy_nil_of_shared_vertical triangles.length b.ribs s _
        (by rw [hM]; decide) (by omega) ?_ hvert
      exact hinv.slots s _ (List.getElem?_eq_getElem hs1)
    have hp : ∀ t, t < 2 → g.pressure[t]? = some 0 := by
      intro t ht
      rw [hidx.count t (by omega), pressureLoad_eq_zero]
      · rfl
      · intro s hs
        rw [hnil s (by rw [hb2] at hs; exact List.mem_range.1 hs)]
        simp
    obtain ⟨p0, p1, hpe⟩ := List.length_eq_two.1 (hidx.pressure_length.trans hb2)
    obtain ⟨r0, r1, hre⟩ := List.length_eq_two.1 (hidx.receivers_length.trans hb2)
    have hp0 := hp 0 (by decide)
    have hp1 := hp 1 (by decide)
    have hr0 := hnil 0 (by decide)
    have hr1 := hnil 1 (by decide)
    rw [hpe] at hp0 hp1
    rw [hre] at hr0 hr1
    simp only [List.getElem?_cons_zero, List.getElem?_cons_succ, Option.some.injEq] at hp0 hp1
    subst hp0; subst hp1
    simp only [receiversOf, List.getD_cons_zero, List.getD_cons_succ] at hr0 hr1
    refine ⟨g, hg, hpe, hnil 0 (by decide), hnil 1 (by decide), ?_⟩
    rw [hsolve, hM]
    simp [initialState, hpe, hre, fillMap, emplace, extractLoop, extractStep,
      relaxReceivers_eq, hr0, hr1, relaxList]

/-- C10 (vertical ribs carry no pressure). A rib with `deltaX = 0` is never in the rib list
of a triangle, whatever the third vertex: every valid entry of every rib list names a rib
with `deltaX ≠ 0`. Hence for any two triangles (each with three different edges) whose
common edges all join two vertices of equal x, both pressure counts are 0, both receiver
lists are empty, and the output is 1 2; the same holds whenever every rib with both owner
slots taken has `deltaX = 0`. -/
theorem vertical_rib_carries_no_pressure (vertices : List Vertex)
    (triangles : List (Nat × Nat × Nat)) (b : Build)
    (hb : readAndInitTriangles vertices triangles = .ok b) :
    (∀ (T : Nat) (triangle : Triangle) (ri : Nat), b.triangles[T]? = some triangle →
        ri ∈ validEntries triangle.ribs → ∃ rib : Rib, b.ribs[ri]? = some rib ∧ rib.deltaX ≠ 0)
    ∧ (∀ t1 t2, triangles = [t1, t2] →
        ((sidesOf t1).map edgeOf).Nodup → ((sidesOf t2).map edgeOf).Nodup →
        (∀ s1 ∈ sidesOf t1, ∀ s2 ∈ sidesOf t2, edgeOf s1 = edgeOf s2 →
          (vertices[s1.1]?).map Vertex.x = (vertices[s1.2]?).map Vertex.x) →
        ∃ g, buildPressureIndex b = .ok g ∧ g.pressure = [0, 0]
          ∧ receiversOf g.receivers 0 = [] ∧ receiversOf g.receivers 1 = []
          ∧ solve vertices triangles = { status := .finished, output := [1, 2] })
    ∧ (triangles.length = 2 →
        (∀ rib ∈ b.ribs, rib.ownerTriangles.1 ≠ invalidIndex →
          rib.ownerTriangles.2 ≠ invalidIndex → rib.deltaX = 0) →
        ∃ g, buildPressureIndex b = .ok g ∧ g.pressure = [0, 0]
          ∧ receiversOf g.receivers 0 = [] ∧ receiversOf g.receivers 1 = []
          ∧ solve vertices triangles = { status := .finished, output := [1, 2] }) := by
  have hinv := readAndInitTriangles_inv hb
  refine ⟨?_, ?_, fun hM hvert => no_pressure_of_shared_vertical hb hM hvert⟩
  · intro T triangle ri hT hri
    obtain ⟨hslot, hvalid⟩ := mem_validEntries hri
    obtain ⟨rib, hrib, hdx, _⟩ := hinv.slots T triangle hT ri hslot hvalid
    exact ⟨rib, hrib, hdx⟩
  · intro t1 t2 htri hnd1 hnd2 hshared
    subst htri
    exact no_pressure_of_shared_vertical hb rfl (shared_rib_vertical hb hnd1 hnd2 hshared)

/-- C10, witness: the two triangles of the vertical example have only the vertical edge
(0,0)-(0,2) in common; no rib list holds its rib and the output is 1 2. -/
theorem vertical_rib_carries_no_pressure_witness :
    (∃ rib : Rib, (buildOf verticalVertices verticalTrianglesAligned).ribs[1]? = some rib
        ∧ rib.deltaX ≠ 0)
    ∧ ∃ g, buildPressureIndex (buildOf verticalVertices verticalTrianglesAligned) = .ok g
        ∧ g.pressure = [0, 0]
        ∧ receiversOf g.receivers 0 = [] ∧ receiversOf g.receivers 1 = []
        ∧ solve verticalVertices verticalTrianglesAligned
            = { status := .finished, output := [1, 2] } :=
  have h := vertical_rib_carries_no_pressure verticalVertices verticalTrianglesAligned _ rfl
  ⟨h.1 0 { ribs := (1, invalidIndex) } 1 (by decide) (by decide),
   h.2.1 (1, 2, 3) (1, 2, 4) rfl (by decide) (by decide) (by decide)⟩


/-! ## The other-owner lookup -/

/-- With no owner set on a fresh rib but `t`, the lookup from `t` finds no other owner. -/
theorem getOtherOwner_single (l r : Vertex) (t : Nat) :
    ((Rib.new l r).setOwner t).getOtherOwner t = invalidIndex := by
  simp [Rib.new, Rib.setOwner, Rib.getOtherOwner]

/-- With owners `t1` then `t2` set on a fresh rib, each is the other owner of the other. -/
theorem getOtherOwner_pair (l r : Vertex) (t1 t2 : Nat) :
    (((Rib.new l r).setOwner t1).setOwner t2).getOtherOwner t1 = t2
    ∧ (((Rib.new l r).setOwner t1).setOwner t2).getOtherOwner t2 = t1 := by
  by_cases h1 : t1 = invalidIndex
  · subst h1
    by_cases h2 : t2 = invalidIndex
    · subst h2; simp [Rib.new, Rib.setOwner, Rib.getOtherOwner]
    · have h3 : ¬ invalidIndex = t2 := fun h => h2 h.symm
      simp [Rib.new, Rib.setOwner, Rib.getOtherOwner, h2, h3]
  · by_cases h2 : t1 = t2
    · subst h2; simp [Rib.new, Rib.setOwner, Rib.getOtherOwner, h1]
    · simp [Rib.new, Rib.setOwner, Rib.getOtherOwner, h1, h2]

/-- For two different triangles: after `setOwner t1` and `setOwner t2` on a fresh rib
the lookup from either owner returns an owner different from it. -/
theorem getOtherOwner_differs (l r : Vertex) (t1 t2 : Nat) (h : t1 ≠ t2) :
    (((Rib.new l r).setOwner t1).setOwner t2).getOtherOwner t1 ≠ t1
    ∧ (((Rib.new l r).setOwner t1).setOwner t2).getOtherOwner t2 ≠ t2 := by
  obtain ⟨h1, h2⟩ := getOtherOwner_pair l r t1 t2
  rw [h1, h2]
  exact ⟨fun e => h e.symm, h⟩

/-- C20, counterexample: the rib state reached by two `setOwner` calls of the same
triangle 0 has owners (0, 0), and `getOtherOwner 0` returns 0 on it: an owner that is
neither `invalidIndex` nor different from the triangle asked for. The builder reaches
this state for the triangle with vertex indices 1 1 2. -/
theorem getOtherOwner_returns_the_asking_owner :
    (ribAfter [0, 0]).ownerTriangles = (0, 0)
    ∧ (ribAfter [0, 0]).getOtherOwner 0 = 0
    ∧ (0 : Nat) ≠ invalidIndex
    ∧ (buildOf [{ x := 0, y := 0 }, { x := 1, y := 0 }, { x := 0, y := 1 }] [(1, 1, 2)]).ribs[0]?
        = some (ribAfter [0, 0]) := by
  refine ⟨rfl, rfl, by decide, by decide⟩

/-! ## The orientation test on `int` arithmetic -/

/-- C12: for the vertices l = (0,0), r = (65536,0), p = (1,32768) and q = (1,-32769), all
inside the coordinate range of the task, the exact cross product of the rib l-r with
l-p is 2^31 > 0 while `isRibCCWise` returns false, and the exact cross product with l-q
is negative while `isRibCCWise` returns true. -/
theorem isRibCCWise_overflow_changes_sign :
    coordinateOk { x := 0, y := 0 } = true ∧ coordinateOk { x := 65536, y := 0 } = true
    ∧ coordinateOk { x := 1, y := 32768 } = true ∧ coordinateOk { x := 1, y := -32769 } = true
    ∧ crossOfRibs (Rib.new { x := 0, y := 0 } { x := 65536, y := 0 })
        (Rib.new { x := 0, y := 0 } { x := 1, y := 32768 }) = 2147483648
    ∧ isRibCCWise (Rib.new { x := 0, y := 0 } { x := 65536, y := 0 })
        (Rib.new { x := 0, y := 0 } { x := 1, y := 32768 }) = false
    ∧ crossOfRibs (Rib.new { x := 0, y := 0 } { x := 65536, y := 0 })
        (Rib.new { x := 0, y := 0 } { x := 1, y := -32769 }) = -2147549184
    ∧ isRibCCWise (Rib.new { x := 0, y := 0 } { x := 65536, y := 0 })
        (Rib.new { x := 0, y := 0 } { x := 1, y := -32769 }) = true := by
  refine ⟨by decide, by decide, by decide, by decide, by decide, by decide, by decide,
    by decide⟩

/-- The value `wrapInt` leaves an `int` value unchanged. -/
theorem wrapInt_of_fits {z : Int} (h1 : -2147483648 ≤ z) (h2 : z < 2147483648) :
    wrapInt z = z := by
  unfold wrapInt
  omega

/-- Where the two products and their difference fit an `int` (deltas of absolute value
at most 32767), `isRibCCWise` tests the sign of the exact cross product. -/
theorem isRibCCWise_exact_of_small (a b : Rib)
    (h1 : |a.deltaX| ≤ 32767) (h2 : |a.deltaY| ≤ 32767)
    (h3 : |b.deltaX| ≤ 32767) (h4 : |b.deltaY| ≤ 32767) :
    isRibCCWise a b = decide (0 < crossOfRibs a b) := by
  have hp : |a.deltaX * b.deltaY| ≤ 32767 * 32767 := by
    rw [abs_mul]; exact mul_le_mul h1 h4 (abs_nonneg _) (by norm_num)
  have hq : |a.deltaY * b.deltaX| ≤ 32767 * 32767 := by
    rw [abs_mul]; exact mul_le_mul h2 h3 (abs_nonneg _) (by norm_num)
  rw [abs_le] at hp hq
  have e1 : wrapInt (a.deltaX * b.deltaY) = a.deltaX * b.deltaY :=
    wrapInt_of_fits (by omega) (by omega)
  have e2 : wrapInt (a.deltaY * b.deltaX) = a.deltaY * b.deltaX :=
    wrapInt_of_fits (by omega) (by omega)
  unfold isRibCCWise crossOfRibs
  rw [e1, e2, wrapInt_of_fits (by omega) (by omega)]

/-! ## The bound on the pressure counts -/

/-- C18: the pressed example is a mesh in which every edge has at most two owners whose
third vertices lie strictly on opposite sides of it, with all coordinates in the range
of the task, and the builder and the pressure pass give its first triangle the initial
pressure count 3: the neighbour below the long edge is counted as pressing on it. -/
theorem pressure_count_three_in_mesh :
    meshOk pressedVertices pressedTriangles = true
    ∧ pressedVertices.all coordinateOk = true
    ∧ readAndInitTriangles pressedVertices pressedTriangles
        = .ok (buildOf pressedVertices pressedTriangles)
    ∧ buildPressureIndex (buildOf pressedVertices pressedTriangles)
        = .ok { pressure := [3, 1, 0, 0],
                receivers := [(1, invalidIndex), (0, invalidIndex), (0, invalidIndex),
                              (0, invalidIndex)] }
    ∧ (fillMap 0 [3, 1, 0, 0] []).map Prod.fst = [0, 0, 1, 3]
    ∧ solve pressedVertices pressedTriangles = { status := .assertionFailed, output := [3, 4] } := by
  refine ⟨by decide, by decide, rfl, rfl, rfl, by decide⟩

/-! ## The pressure counts against the receiver lists -/

theorem sum_map_indicator (x : Nat) :
    ∀ L : List Nat, (L.map (fun t => if x = t then 1 else 0)).sum = L.count x
  | [] => rfl
  | a :: L => by
    rw [List.map_cons, List.sum_cons, sum_map_indicator x L, List.count_cons]
    by_cases h : x = a
    · subst h; simp; omega
    · have h1 : ¬ a = x := fun e => h e.symm
      simp [h, h1]

theorem sum_count_range (M : Nat) :
    ∀ l : List Nat, (∀ x ∈ l, x < M) →
      ((List.range M).map (fun t => l.count t)).sum = l.length
  | [], _ => by simp
  | x :: l, h => by
    have hf : (fun t => (x :: l).count t)
        = fun t => l.count t + (if x = t then 1 else 0) := by
      funext t
      rw [List.count_cons]
      by_cases hx : x = t
      · subst hx; simp
      · simp [hx]
    rw [hf, List.sum_map_add, sum_count_range M l (fun y hy => h y (List.mem_cons_of_mem _ hy)),
      sum_map_indicator,
      List.count_eq_one_of_mem (List.nodup_range M) (List.mem_range.2 (h x (List.mem_cons_self _ _)))]
    simp

theorem sum_pressureLoad (receivers : List (Nat × Nat)) (M : Nat)
    (hb : ∀ s r, r ∈ receiversOf receivers s → r < M) :
    ∀ owners : List Nat,
      ((List.range M).map (fun t => pressureLoad receivers owners t)).sum
        = (owners.map (fun s => (receiversOf receivers s).length)).sum
  | [] => by simp [pressureLoad]
  | s :: owners => by
    have hf : (fun t => pressureLoad receivers (s :: owners) t)
        = fun t => (receiversOf receivers s).count t + pressureLoad receivers owners t := by
      funext t
      exact pressureLoad_cons receivers s owners t
    rw [hf, List.sum_map_add, sum_pressureLoad receivers M hb owners,
      sum_count_range M _ (fun r hr => hb s r hr)]
    simp

theorem count_filterMap_eq {f : Nat → Option Nat} (t : Nat) :
    ∀ l : List Nat, (l.filterMap f).count t = (l.filter (fun x => decide (f x = some t))).length
  | [] => rfl
  | a :: l => by
    cases hfa : f a with
    | none =>
      rw [List.filterMap_cons_none hfa, count_filterMap_eq t l, List.filter_cons]
      simp [hfa]
    | some v =>
      rw [List.filterMap_cons_some hfa, List.count_cons, count_filterMap_eq t l, List.filter_cons]
      by_cases hv : v = t
      · subst hv; simp [hfa]
      · simp [hfa, hv]

theorem sum_map_cast (f : Nat → Nat) :
    ∀ L : List Nat, (L.map (fun t => ((f t : Nat) : Int))).sum = (((L.map f).sum : Nat) : Int)
  | [] => rfl
  | a :: L => by
    simp only [List.map_cons, List.sum_cons, Nat.cast_add, sum_map_cast f L]

theorem pressureLoad_eq_pairs {b : Build} {g : PressureIndex}
    (hinv : IndexInv b.ribs b.triangles b.triangles.length g) (t : Nat) :
    ∀ owners : List Nat, (∀ s ∈ owners, s < b.triangles.length) →
      pressureLoad g.receivers owners t = (owners.map (fun s => pairsOnto b s t)).sum
  | [], _ => rfl
  | s :: owners, h => by
    have hs : s < b.triangles.length := h s (List.mem_cons_self _ _)
    have hget : b.triangles[s]? = some (b.triangles.getD s Triangle.new) := by
      rw [List.getD_eq_getElem?_getD, List.getElem?_eq_getElem hs]; rfl
    rw [pressureLoad_cons, List.map_cons, List.sum_cons,
      pressureLoad_eq_pairs hinv t owners (fun x hx => h x (List.mem_cons_of_mem _ hx)),
      hinv.pressed s _ hs hget]
    unfold pressedBy pairsOnto
    rw [count_filterMap_eq]

/-- C14 (pressure count exactness): once the graph-building pass has run, the pressure
count of every triangle `t` is the number of pairs (`s`, `e`) with `e` in the
counter-clockwise rib list of `s` and `t` the other owner of `e` seen from `s`; the
receiver array of every triangle `s` holds exactly the other owners of its
counter-clockwise ribs, in order; and the pressure counts add up to the number of
receiver entries. -/
theorem pressure_counts_are_exact {b : Build} {g : PressureIndex}
    (h : buildPressureIndex b = .ok g) :
    (∀ t, t < b.triangles.length →
      g.pressure[t]?
        = some ((((List.range b.triangles.length).map (fun s => pairsOnto b s t)).sum : Nat) : Int))
    ∧ (∀ s triangle, b.triangles[s]? = some triangle →
        receiversOf g.receivers s = pressedBy b.ribs s triangle)
    ∧ g.pressure.length = b.triangles.length
    ∧ g.pressure.sum
        = ((((List.range b.triangles.length).map
            (fun s => (receiversOf g.receivers s).length)).sum : Nat) : Int) := by
  have hinv := buildPressureIndex_spec h
  refine ⟨?_, ?_, hinv.pressure_length, ?_⟩
  · intro t ht
    rw [hinv.count t ht,
      pressureLoad_eq_pairs hinv t (List.range b.triangles.length)
        (fun s hs => List.mem_range.1 hs)]
  · intro s triangle hs
    have hlt : s < b.triangles.length := by
      rcases List.getElem?_eq_some.1 hs with ⟨hlt, _⟩
      exact hlt
    exact hinv.pressed s triangle hlt hs
  · have hp : g.pressure = (List.range b.triangles.length).map
        (fun t => ((pressureLoad g.receivers (List.range b.triangles.length) t : Nat) : Int)) := by
      apply List.ext_getElem?
      intro t
      by_cases ht : t < b.triangles.length
      · rw [hinv.count t ht, List.getElem?_map, List.getElem?_range ht]
        rfl
      · rw [List.getElem?_eq_none (by rw [hinv.pressure_length]; omega),
          List.getElem?_eq_none (by rw [List.length_map, List.length_range]; omega)]
    rw [hp, ← sum_pressureLoad g.receivers b.triangles.length hinv.bound]
    exact sum_map_cast _ _

/-- C14, witness: in the chain example the pressure counts 1, 1, 0 match the rib lists and
add up to the two receiver entries. -/
theorem pressure_counts_are_exact_witness :
    buildPressureIndex (buildOf chainVertices chainTriangles)
        = .ok { pressure := [1, 1, 0], receivers := [(invalidIndex, invalidIndex),
                (0, invalidIndex), (1, invalidIndex)] }
    ∧ ([1, 1, 0] : List Int)[0]?
        = some ((((List.range (buildOf chainVertices chainTriangles).triangles.length).map
            (fun s => pairsOnto (buildOf chainVertices chainTriangles) s 0)).sum : Nat) : Int)
    ∧ ([1, 1, 0] : List Int).sum
        = ((((List.range (buildOf chainVertices chainTriangles).triangles.length).map
            (fun s => (receiversOf [(invalidIndex, invalidIndex), (0, invalidIndex),
              (1, invalidIndex)] s).length)).sum : Nat) : Int) :=
  ⟨chain_index, (pressure_counts_are_exact chain_index).1 0 (by decide),
    (pressure_counts_are_exact chain_index).2.2.2⟩

/-! ## The state at the start of every iteration of the extraction loop -/

theorem extractNode_of_mem :
    ∀ {m : PressureMap} {e : Int × Nat}, (mapTriangles m).Nodup → e ∈ m →
      extractNode e.2 m = some (e.1, m.erase e)
  | [], _, _, h => by simp at h
  | a :: rest, e, hnd, h => by
    have hnd1 : a.2 ∉ mapTriangles rest ∧ (mapTriangles rest).Nodup := by
      simpa [mapTriangles] using hnd
    by_cases ha : a.2 = e.2
    · have hea : e = a := by
        rcases List.mem_cons.1 h with h1 | h1
        · exact h1
        · exfalso
          apply hnd1.1
          rw [ha]
          exact List.mem_map_of_mem Prod.snd h1
      subst hea
      simp [extractNode]
    · have hne : a ≠ e := fun h1 => ha (by rw [h1])
      have hin : e ∈ rest := by
        rcases List.mem_cons.1 h with h1 | h1
        · exact absurd h1.symm hne
        · exact h1
      have ih := extractNode_of_mem hnd1.2 hin
      have hb : (a == e) = false := by simpa using hne
      rw [List.erase_cons, hb]
      simp [extractNode, ha, ih]

theorem iterateSteps_spec {receivers : List (Nat × Nat)} :
    ∀ (k : Nat) (m : PressureMap) (out : List Nat) (st : ExtractState),
      MapInv receivers m [] → iterateSteps receivers k { map := m, output := out } = some st →
      ∃ emitted : List Nat, st.output = out ++ emitted.map (· + 1) ∧ emitted.length = k
        ∧ (emitted ++ mapTriangles st.map).Perm (mapTriangles m)
        ∧ MapInv receivers st.map [] ∧ st.map.length + k = m.length
  | 0, m, out, st, h, hk => by
    simp only [iterateSteps, Option.some.injEq] at hk
    subst hk
    exact ⟨[], by simp, rfl, by simp, h, rfl⟩
  | k + 1, m, out, st, h, hk => by
    unfold iterateSteps at hk
    cases hs : extractStep receivers { map := m, output := out } with
    | done => simp [hs] at hk
    | halt s o => simp [hs] at hk
    | next st1 =>
      simp only [hs] at hk
      obtain ⟨t, rest, hm, _⟩ := extractStep_next hs
      simp only at hm
      subst hm
      obtain ⟨m1, hstep, hinv, hperm, _⟩ := extractStep_zero out h
      rw [hs] at hstep
      simp only [StepResult.next.injEq] at hstep
      subst hstep
      obtain ⟨emitted, h1, h2, h3, h4, h5⟩ := iterateSteps_spec k m1 _ st hinv hk
      refine ⟨t :: emitted, ?_, by simp [h2], ?_, h4, ?_⟩
      · rw [h1]; simp
      · have : (t :: (emitted ++ mapTriangles st.map)).Perm (t :: mapTriangles rest) :=
          List.Perm.cons t (h3.trans hperm)
        simpa [mapTriangles] using this
      · have hl : m1.length = rest.length := by
          rw [← mapTriangles_length m1, ← mapTriangles_length rest]
          exact hperm.length_eq
        simp only [List.length_cons]
        omega

/-- C19 (extraction loop invariant): at the start of iteration `k` of the extraction
loop (after `k` complete iterations, state `st`), the triangles written so far together
with the triangles in the map are exactly the triangles 0..M-1, each once; the node
found through the stored position of a triangle in the map is its own entry; the key of
every entry is the number of receiver entries naming its triangle held by triangles in
the map; and the map holds M - k entries. -/
theorem extraction_loop_invariant {b : Build} {g : PressureIndex} {k : Nat}
    {st : ExtractState} (hg : buildPressureIndex b = .ok g)
    (hk : iterateSteps g.receivers k (initialState g) = some st) :
    ∃ emitted : List Nat, st.output = emitted.map (· + 1) ∧ emitted.length = k
      ∧ (emitted ++ mapTriangles st.map).Perm (List.range b.triangles.length)
      ∧ (emitted ++ mapTriangles st.map).Nodup
      ∧ (∀ e ∈ st.map, extractNode e.2 st.map = some (e.1, st.map.erase e))
      ∧ (∀ e ∈ st.map, e.1 = (pressureLoad g.receivers (mapTriangles st.map) e.2 : Int))
      ∧ st.map.Pairwise (fun a c => a.1 ≤ c.1)
      ∧ st.map.length + k = b.triangles.length := by
  obtain ⟨hinit, hperm⟩ := mapInv_init (buildPressureIndex_spec hg)
  obtain ⟨emitted, h1, h2, h3, h4, h5⟩ := iterateSteps_spec k _ [] st hinit hk
  have hall : (emitted ++ mapTriangles st.map).Perm (List.range b.triangles.length) :=
    h3.trans hperm
  have hnd : (emitted ++ mapTriangles st.map).Nodup :=
    hall.nodup_iff.2 (List.nodup_range _)
  have hlen : (fillMap 0 g.pressure []).length = b.triangles.length := by
    rw [← mapTriangles_length, hperm.length_eq, List.length_range]
  refine ⟨emitted, by simpa using h1, h2, hall, hnd, ?_, ?_, h4.sorted, ?_⟩
  · intro e he
    exact extractNode_of_mem (List.Nodup.of_append_right hnd) he
  · intro e he
    have := h4.key e he
    simpa using this
  · rw [← hlen]; exact h5

/-- C19, witness: the chain example after two iterations, with 3 and 2 written and
triangle 1 left in the map with key 0. -/
theorem extraction_loop_invariant_witness :
    buildPressureIndex (buildOf chainVertices chainTriangles)
        = .ok { pressure := [1, 1, 0], receivers := [(invalidIndex, invalidIndex),
                (0, invalidIndex), (1, invalidIndex)] }
    ∧ iterateSteps [(invalidIndex, invalidIndex), (0, invalidIndex), (1, invalidIndex)] 2
        (initialState { pressure := [1, 1, 0], receivers := [(invalidIndex, invalidIndex),
                (0, invalidIndex), (1, invalidIndex)] })
        = some { map := [(0, 0)], output := [3, 2] }
    ∧ ∃ emitted : List Nat, [3, 2] = emitted.map (· + 1) ∧ emitted.length = 2
      ∧ (emitted ++ mapTriangles [(0, 0)]).Perm
          (List.range (buildOf chainVertices chainTriangles).triangles.length)
      ∧ (emitted ++ mapTriangles [(0, 0)]).Nodup
      ∧ (∀ e ∈ ([(0, 0)] : PressureMap),
          extractNode e.2 [(0, 0)] = some (e.1, List.erase [(0, 0)] e))
      ∧ (∀ e ∈ ([(0, 0)] : PressureMap),
          e.1 = (pressureLoad [(invalidIndex, invalidIndex), (0, invalidIndex),
            (1, invalidIndex)] (mapTriangles [(0, 0)]) e.2 : Int))
      ∧ List.Pairwise (fun a c => a.1 ≤ c.1) ([(0, 0)] : PressureMap)
      ∧ ([(0, 0)] : PressureMap).length + 2
          = (buildOf chainVertices chainTriangles).triangles.length :=
  ⟨chain_index, by decide,
    @extraction_loop_invariant (buildOf chainVertices chainTriangles)
      { pressure := [1, 1, 0], receivers := [(invalidIndex, invalidIndex),
                (0, invalidIndex), (1, invalidIndex)] } 2 { map := [(0, 0)], output := [3, 2] }
      chain_index (by decide)⟩

/-! ## The initial order of the map -/

theorem emplace_indexOrdered (k : Int) (ti : Nat) :
    ∀ m : PressureMap, IndexOrdered m → (∀ e ∈ m, e.2 < ti) → IndexOrdered (emplace k ti m)
  | [], _, _ => by simp [emplace, IndexOrdered]
  | e :: rest, hm, hlt => by
    have hm1 : (∀ x ∈ rest, e.1 < x.1 ∨ (e.1 = x.1 ∧ e.2 < x.2)) ∧ IndexOrdered rest := by
      simpa [IndexOrdered] using hm
    unfold emplace
    by_cases hk : k < e.1
    · simp only [hk, if_true]
      refine List.Pairwise.cons ?_ hm
      intro x hx
      left
      rcases List.mem_cons.1 hx with h1 | h1
      · rw [h1]; exact hk
      · rcases hm1.1 x h1 with h2 | h2
        · exact lt_trans hk h2
        · rw [← h2.1]; exact hk
    · simp only [hk, if_false]
      refine List.Pairwise.cons ?_
        (emplace_indexOrdered k ti rest hm1.2 (fun x hx => hlt x (List.mem_cons_of_mem _ hx)))
      intro x hx
      rcases List.mem_cons.1 ((emplace_perm k ti rest).subset hx) with h1 | h1
      · rw [h1]
        have := hlt e (List.mem_cons_self _ _)
        by_cases h3 : e.1 = k
        · exact Or.inr ⟨h3, this⟩
        · left
          simp only at *
          omega
      · exact hm1.1 x h1

theorem fillMap_indexOrdered :
    ∀ (ps : List Int) (ti : Nat) (m : PressureMap), IndexOrdered m → (∀ e ∈ m, e.2 < ti) →
      IndexOrdered (fillMap ti ps m)
  | [], _, _, hm, _ => hm
  | p :: ps, ti, m, hm, hlt => by
    unfold fillMap
    refine fillMap_indexOrdered ps (ti + 1) _ (emplace_indexOrdered p ti m hm hlt) ?_
    intro x hx
    rcases List.mem_cons.1 ((emplace_perm p ti m).subset hx) with h1 | h1
    · rw [h1]; exact Nat.lt_succ_self _
    · exact Nat.lt_succ_of_lt (hlt x h1)

theorem emplace_zero (t : Nat) :
    ∀ m : PressureMap, (∀ e ∈ m, e.1 = 0) → emplace 0 t m = m ++ [(0, t)]
  | [], _ => rfl
  | e :: rest, h => by
    have he : e.1 = 0 := h e (List.mem_cons_self _ _)
    unfold emplace
    rw [he, if_neg (lt_irrefl _), emplace_zero t rest (fun x hx => h x (List.mem_cons_of_mem _ hx))]
    rfl

theorem fillMap_zero :
    ∀ (ps : List Int) (ti : Nat) (m : PressureMap), (∀ p ∈ ps, p = 0) → (∀ e ∈ m, e.1 = 0) →
      fillMap ti ps m = m ++ (List.range' ti ps.length).map (fun t => ((0 : Int), t))
  | [], _, m, _, _ => by simp [fillMap]
  | p :: ps, ti, m, hp, hm => by
    have hp0 : p = 0 := hp p (List.mem_cons_self _ _)
    subst hp0
    unfold fillMap
    rw [emplace_zero ti m hm,
      fillMap_zero ps (ti + 1) _ (fun q hq => hp q (List.mem_cons_of_mem _ hq))]
    · simp [List.range'_succ]
    · intro e he
      rcases List.mem_append.1 he with h1 | h1
      · exact hm e h1
      · simp only [List.mem_singleton] at h1
        rw [h1]

theorem extractLoop_no_receivers {receivers : List (Nat × Nat)}
    (hnone : ∀ s, receiversOf receivers s = []) :
    ∀ (n i : Nat) (out : List Nat) (fuel : Nat), n ≤ fuel → i + n ≤ receivers.length →
      extractLoop receivers fuel
          { map := (List.range' i n).map (fun t => ((0 : Int), t)), output := out }
        = { status := .finished, output := out ++ (List.range' i n).map (· + 1) }
  | 0, i, out, fuel, _, _ => by
    cases fuel with
    | zero => simp [extractLoop]
    | succ f => simp [extractLoop, extractStep]
  | n + 1, i, out, fuel, hf, hi => by
    cases fuel with
    | zero => omega
    | succ f =>
      have hlt : i < receivers.length := by omega
      have hr : receivers[i]? = some receivers[i] := List.getElem?_eq_getElem hlt
      have hv : validEntries receivers[i] = [] := by
        rw [← receiversOf_eq_of_getElem hr]; exact hnone i
      have hstep : extractStep receivers
          { map := (List.range' i (n + 1)).map (fun t => ((0 : Int), t)), output := out }
          = .next { map := (List.range' (i + 1) n).map (fun t => ((0 : Int), t)),
                    output := out ++ [i + 1] } := by
        simp [extractStep, List.range'_succ, hr, relaxReceivers_eq, hv, relaxList]
      unfold extractLoop
      rw [hstep]
      simp only
      rw [extractLoop_no_receivers hnone n (i + 1) _ f (by omega) (by omega)]
      simp [List.range'_succ]

theorem no_receivers_of_zero_pressure {ribs : List Rib} {all : List Triangle}
    {g : PressureIndex} (hinv : IndexInv ribs all all.length g)
    (hz : ∀ p ∈ g.pressure, p = 0) : ∀ s, receiversOf g.receivers s = [] := by
  intro s
  apply List.eq_nil_iff_forall_not_mem.2
  intro r hr
  have hrlt : r < all.length := hinv.bound s r hr
  have hs : s < all.length := by
    by_contra hge
    rw [receiversOf_out_of_range (by rw [hinv.receivers_length]; omega)] at hr
    simp at hr
  have hcount := hinv.count r hrlt
  have hp0 : ((pressureLoad g.receivers (List.range all.length) r : Nat) : Int) = 0 :=
    hz _ (List.getElem?_mem hcount)
  have hle := count_le_pressureLoad g.receivers (List.mem_range.2 hs) r
  have hpos : 1 ≤ (receiversOf g.receivers s).count r := List.one_le_count_iff.2 hr
  omega

/-- With all pressure counts 0 the triangles are written in the order of their indices. -/
theorem solve_of_zero_pressure {vertices : List Vertex}
    {triangles : List (Nat × Nat × Nat)} {b : Build} {g : PressureIndex}
    (hb : readAndInitTriangles vertices triangles = .ok b)
    (hg : buildPressureIndex b = .ok g) (hz : ∀ p ∈ g.pressure, p = 0) :
    solve vertices triangles
      = { status := .finished, output := List.range' 1 triangles.length } := by
  have hinv := buildPressureIndex_spec hg
  have hlen : b.triangles.length = triangles.length := (readAndInitTriangles_inv hb).length
  have hsolve : solve vertices triangles
      = extractLoop g.receivers b.triangles.length
          { map := fillMap 0 g.pressure [], output := [] } := by
    simp [solve, hb, generateExtractionSequence, hg]
  rw [hsolve, fillMap_zero g.pressure 0 [] hz (by simp), hinv.pressure_length]
  have := extractLoop_no_receivers (no_receivers_of_zero_pressure hinv hz) b.triangles.length 0 []
    b.triangles.length (le_refl _) (by rw [hinv.receivers_length]; omega)
  simp only [List.nil_append] at this ⊢
  rw [this, hlen]
  congr 1
  have hf : (fun x : Nat => x + 1) = fun x => 1 + x := by funext x; omega
  rw [hf, List.map_add_range']

/-- C16 (initial tie-break by ascending index): the map the extraction loop starts from
is ordered by key and, among equal keys, by ascending triangle index; and for an input
whose pressure counts are all 0 the sequence written is exactly 1, 2, ..., M. -/
theorem initial_order_is_by_index {vertices : List Vertex}
    {triangles : List (Nat × Nat × Nat)} {b : Build} {g : PressureIndex}
    (hb : readAndInitTriangles vertices triangles = .ok b)
    (hg : buildPressureIndex b = .ok g) :
    IndexOrdered (initialState g).map
    ∧ ((∀ p ∈ g.pressure, p = 0) →
        solve vertices triangles
          = { status := .finished, output := List.range' 1 triangles.length }) :=
  ⟨fillMap_indexOrdered g.pressure 0 [] List.Pairwise.nil (by simp),
    solve_of_zero_pressure hb hg⟩

/-- C16, witness: the vertical example has the pressure counts 0, 0 and the output 1 2. -/
theorem initial_order_is_by_index_witness :
    readAndInitTriangles verticalVertices verticalTriangles
        = .ok (buildOf verticalVertices verticalTriangles)
    ∧ buildPressureIndex (buildOf verticalVertices verticalTriangles)
        = .ok { pressure := [0, 0],
                receivers := [(invalidIndex, invalidIndex), (invalidIndex, invalidIndex)] }
    ∧ (∀ p ∈ ([0, 0] : List Int), p = 0)
    ∧ solve verticalVertices verticalTriangles = { status := .finished, output := [1, 2] } :=
  ⟨rfl, rfl, by decide,
    (@initial_order_is_by_index verticalVertices verticalTriangles
      (buildOf verticalVertices verticalTriangles)
      { pressure := [0, 0],
        receivers := [(invalidIndex, invalidIndex), (invalidIndex, invalidIndex)] }
      rfl rfl).2 (by decide)⟩

/-! ## Reinsertion at the front -/

theorem mapInv_after_erase {receivers : List (Nat × Nat)} {T : Nat} {rest : PressureMap}
    (h : MapInv receivers ((0, T) :: rest) []) :
    MapInv receivers rest (receiversOf receivers T) := by
  have hnp := not_pressed_of_key_zero h
  have hnd : (T :: mapTriangles rest).Nodup := h.nodup
  have hsorted : KeySorted rest := (List.pairwise_cons.1 h.sorted).2
  have hin : ∀ s ∈ T :: mapTriangles rest, ∀ r ∈ receiversOf receivers s,
      r ∈ mapTriangles rest := by
    intro s hs r hr
    rcases List.mem_cons.1 (h.closed s hs r hr) with h1 | h1
    · subst h1; exact absurd hr (hnp s hs)
    · exact h1
  refine ⟨(List.nodup_cons.1 hnd).2, hsorted,
    fun t ht => h.inRange t (List.mem_cons_of_mem _ ht),
    fun s hs r hr => hin s (List.mem_cons_of_mem _ hs) r hr,
    fun r hr => hin T (List.mem_cons_self _ _) r hr, ?_⟩
  intro e he
  have hk := h.key e (List.mem_cons_of_mem _ he)
  have hc : pressureLoad receivers (mapTriangles ((0, T) :: rest)) e.2
      = (receiversOf receivers T).count e.2 + pressureLoad receivers (mapTriangles rest) e.2 :=
    pressureLoad_cons receivers T (mapTriangles rest) e.2
  rw [hc] at hk
  simp only [List.count_nil, Nat.cast_zero, add_zero, Nat.cast_add] at hk
  omega

theorem relaxList_prefix_inv {receivers : List (Nat × Nat)} :
    ∀ (done pending : List Nat) {m : PressureMap}, MapInv receivers m (done ++ pending) →
      ∃ m1, relaxList done m = some m1 ∧ MapInv receivers m1 pending
  | [], _, m, h => ⟨m, rfl, h⟩
  | r :: rs, pending, m, h => by
    obtain ⟨m1, h1, hi, _⟩ := decreaseKey_inv h
    obtain ⟨m2, h2, hi2⟩ := relaxList_prefix_inv rs pending hi
    exact ⟨m2, by simp [relaxList, h1, h2], hi2⟩

theorem insertAtBegin_front (r : Nat) :
    ∀ m : PressureMap, (∀ e ∈ m, 0 ≤ e.1) → insertAtBegin 0 r m = (0, r) :: m
  | [], _ => rfl
  | e :: rest, h => by
    unfold insertAtBegin
    rw [if_pos (h e (List.mem_cons_self _ _))]

theorem insertAtBegin_behind {k : Int} (hk : 0 < k) (r h : Nat) (tl : PressureMap) :
    insertAtBegin k r ((0, h) :: tl) = (0, h) :: insertAtBegin k r tl := by
  rw [insertAtBegin, if_neg (by simp only; omega)]

theorem mapInv_pending_key {receivers : List (Nat × Nat)} {m : PressureMap} {r : Nat}
    {pending : List Nat} (h : MapInv receivers m (r :: pending)) :
    (∀ e ∈ m, 0 ≤ e.1) ∧ (∀ e ∈ m, e.2 = r → 1 ≤ e.1) := by
  constructor
  · intro e he
    have := h.key e he
    omega
  · intro e he her
    have := h.key e he
    rw [her, List.count_cons_self] at this
    push_cast at this
    omega

theorem decreaseKey_eq {r : Nat} {m m1 : PressureMap} {key : Int}
    (h : extractNode r m = some (key, m1)) :
    decreaseKey r m = some (insertAtBegin (key - 1) r m1) := by
  simp [decreaseKey, h]

theorem extractNode_mem {t : Nat} :
    ∀ {m : PressureMap} {k : Int} {m1 : PressureMap}, extractNode t m = some (k, m1) →
      (k, t) ∈ m ∧ ∀ e ∈ m1, e ∈ m := by
  intro m k m1 h
  obtain ⟨hp, hs⟩ := extractNode_perm h
  exact ⟨hp.mem_iff.2 (List.mem_cons_self _ _), fun e he => hs.subset he⟩

theorem decrement_to_zero_front {receivers : List (Nat × Nat)} {m m1 : PressureMap}
    {r : Nat} {pending : List Nat} {key : Int} (h : MapInv receivers m (r :: pending))
    (hx : extractNode r m = some (key, m1)) (hz : key - 1 = 0) :
    decreaseKey r m = some ((0, r) :: m1) := by
  rw [decreaseKey_eq hx, hz,
    insertAtBegin_front r m1 (fun e he => (mapInv_pending_key h).1 e ((extractNode_mem hx).2 e he))]

theorem relaxList_head_kept {receivers : List (Nat × Nat)} {hd : Nat} :
    ∀ (pending : List Nat) (tl : PressureMap), MapInv receivers ((0, hd) :: tl) pending →
      lastReachingZero pending ((0, hd) :: tl) = none →
      ∃ tl1, relaxList pending ((0, hd) :: tl) = some ((0, hd) :: tl1)
  | [], tl, _, _ => ⟨tl, rfl⟩
  | r :: rs, tl, h, hl => by
    have hkeys := mapInv_pending_key h
    have hne : hd ≠ r := by
      intro e
      have := hkeys.2 (0, hd) (List.mem_cons_self _ _) e
      simp only at this
      omega
    have hr : r ∈ mapTriangles tl := by
      rcases List.mem_cons.1 (h.pendingIn r (List.mem_cons_self _ _)) with h1 | h1
      · exact absurd h1.symm hne
      · exact h1
    obtain ⟨k, tl1, hx⟩ := extractNode_some hr
    have hx1 : extractNode r ((0, hd) :: tl) = some (k, (0, hd) :: tl1) := by
      simp [extractNode, hne, hx]
    have hk1 : 1 ≤ k := hkeys.2 (k, r) (extractNode_mem hx1).1 rfl
    obtain ⟨m1, hd1, hinv1, _⟩ := decreaseKey_inv h
    rw [decreaseKey_eq hx1] at hd1
    have hm1 : m1 = insertAtBegin (k - 1) r ((0, hd) :: tl1) := (Option.some.inj hd1).symm
    subst hm1
    unfold lastReachingZero at hl
    rw [hx1] at hl
    simp only at hl
    cases hrec : lastReachingZero rs (insertAtBegin (k - 1) r ((0, hd) :: tl1)) with
    | some x => simp [hrec] at hl
    | none =>
      simp only [hrec] at hl
      have hk2 : ¬ k - 1 = 0 := by
        intro hz
        simp [hz] at hl
      have hpos : 0 < k - 1 := by omega
      rw [insertAtBegin_behind hpos] at hinv1 hrec
      obtain ⟨tl2, h2⟩ := relaxList_head_kept rs _ hinv1 hrec
      refine ⟨tl2, ?_⟩
      rw [relaxList, decreaseKey_eq hx1, insertAtBegin_behind hpos]
      exact h2

theorem relaxList_head_last {receivers : List (Nat × Nat)} :
    ∀ (pending : List Nat) (m : PressureMap) (x : Nat), MapInv receivers m pending →
      lastReachingZero pending m = some x →
      ∃ tl, relaxList pending m = some ((0, x) :: tl)
  | [], _, _, _, hl => by simp [lastReachingZero] at hl
  | r :: rs, m, x, h, hl => by
    have hr : r ∈ mapTriangles m := h.pendingIn r (List.mem_cons_self _ _)
    obtain ⟨k, m1, hx⟩ := extractNode_some hr
    obtain ⟨m2, hd1, hinv1, _⟩ := decreaseKey_inv h
    rw [decreaseKey_eq hx] at hd1
    have hm2 : m2 = insertAtBegin (k - 1) r m1 := (Option.some.inj hd1).symm
    subst hm2
    unfold lastReachingZero at hl
    rw [hx] at hl
    simp only at hl
    cases hrec : lastReachingZero rs (insertAtBegin (k - 1) r m1) with
    | some y =>
      simp only [hrec, Option.some.injEq] at hl
      subst hl
      obtain ⟨tl, h2⟩ := relaxList_head_last rs _ y hinv1 hrec
      exact ⟨tl, by rw [relaxList, decreaseKey_eq hx]; exact h2⟩
    | none =>
      simp only [hrec] at hl
      by_cases hz : k - 1 = 0
      · simp only [hz, if_true, Option.some.injEq] at hl
        subst hl
        have hfront := decrement_to_zero_front h hx hz
        rw [decreaseKey_eq hx] at hfront
        have hm : insertAtBegin (k - 1) r m1 = (0, r) :: m1 := Option.some.inj hfront
        rw [hm] at hinv1 hrec
        obtain ⟨tl, h2⟩ := relaxList_head_kept rs m1 hinv1 hrec
        refine ⟨tl, ?_⟩
        rw [relaxList, decreaseKey_eq hx, hm]
        exact h2
      · simp [hz] at hl

/-- C17 (reinsertion at the front): in an iteration of the extraction loop that extracts
triangle `T`, a receiver whose key is decremented to 0 is inserted as the first entry of
the map, in front of entries that all have a key of at least 0; and if some receiver of
`T` reaches 0, the map of the next iteration starts with the last receiver in the
receiver list of `T` that reached 0, and that triangle is written right after `T`. -/
theorem receiver_reaching_zero_goes_first {b : Build} {g : PressureIndex} {k : Nat}
    {st : ExtractState} {T : Nat} {rest : PressureMap}
    (hg : buildPressureIndex b = .ok g)
    (hk : iterateSteps g.receivers k (initialState g) = some st)
    (hmap : st.map = (0, T) :: rest) :
    (∀ (done pending : List Nat) (r : Nat) (m m1 : PressureMap) (key : Int),
        receiversOf g.receivers T = done ++ r :: pending → relaxList done rest = some m →
        extractNode r m = some (key, m1) → key - 1 = 0 →
        decreaseKey r m = some ((0, r) :: m1) ∧ ∀ e ∈ m1, 0 ≤ e.1)
    ∧ (∀ x, lastReachingZero (receiversOf g.receivers T) rest = some x →
        ∃ m1 m2,
          extractStep g.receivers st
            = .next { map := (0, x) :: m1, output := st.output ++ [T + 1] }
          ∧ extractStep g.receivers { map := (0, x) :: m1, output := st.output ++ [T + 1] }
            = .next { map := m2, output := st.output ++ [T + 1] ++ [x + 1] }) := by
  obtain ⟨hinit, _⟩ := mapInv_init (buildPressureIndex_spec hg)
  have hinv : MapInv g.receivers ((0, T) :: rest) [] := by
    rw [← hmap]
    exact iterateSteps_inv k _ [] st hinit hk
  have hpend := mapInv_after_erase hinv
  constructor
  · intro done pending r m m1 key hsplit hdone hx hz
    rw [hsplit] at hpend
    obtain ⟨m0, h0, hinv0⟩ := relaxList_prefix_inv done (r :: pending) hpend
    rw [hdone] at h0
    obtain rfl : m = m0 := Option.some.inj h0
    exact ⟨decrement_to_zero_front hinv0 hx hz,
      fun e he => (mapInv_pending_key hinv0).1 e ((extractNode_mem hx).2 e he)⟩
  · intro x hx
    obtain ⟨tl, htl⟩ := relaxList_head_last _ rest x hpend hx
    obtain ⟨m1, h1, hi1, _⟩ := relaxList_inv _ hpend
    rw [htl] at h1
    obtain rfl : (0, x) :: tl = m1 := Option.some.inj h1
    have hT : T < g.receivers.length := hinv.inRange T (List.mem_cons_self _ _)
    have hget : g.receivers[T]? = some g.receivers[T] := List.getElem?_eq_getElem hT
    have hrecv := receiversOf_eq_of_getElem hget
    rw [hrecv] at htl
    obtain ⟨m2, h2, _⟩ := extractStep_zero (st.output ++ [T + 1]) hi1
    refine ⟨tl, m2, ?_, h2⟩
    have hst : st = { map := (0, T) :: rest, output := st.output } := by
      cases st
      simp only at hmap
      rw [hmap]
    rw [hst]
    simp [extractStep, hget, relaxReceivers_eq, htl]

/-- C17, witness: in the chain example the first iteration extracts triangle 3, its
receiver 2 reaches 0, goes to the front and is written next. -/
theorem receiver_reaching_zero_goes_first_witness :
    buildPressureIndex (buildOf chainVertices chainTriangles)
        = .ok { pressure := [1, 1, 0], receivers := [(invalidIndex, invalidIndex),
                (0, invalidIndex), (1, invalidIndex)] }
    ∧ iterateSteps [(invalidIndex, invalidIndex), (0, invalidIndex), (1, invalidIndex)] 0
        (initialState { pressure := [1, 1, 0], receivers := [(invalidIndex, invalidIndex),
                (0, invalidIndex), (1, invalidIndex)] })
        = some { map := [(0, 2), (1, 0), (1, 1)], output := [] }
    ∧ lastReachingZero (receiversOf [(invalidIndex, invalidIndex), (0, invalidIndex),
        (1, invalidIndex)] 2) [(1, 0), (1, 1)] = some 1
    ∧ ∃ m1 m2,
        extractStep [(invalidIndex, invalidIndex), (0, invalidIndex), (1, invalidIndex)]
            { map := [(0, 2), (1, 0), (1, 1)], output := [] }
          = .next { map := (0, 1) :: m1, output := [] ++ [2 + 1] }
        ∧ extractStep [(invalidIndex, invalidIndex), (0, invalidIndex), (1, invalidIndex)]
            { map := (0, 1) :: m1, output := [] ++ [2 + 1] }
          = .next { map := m2, output := [] ++ [2 + 1] ++ [1 + 1] } :=
  ⟨chain_index, by decide, by decide,
    (@receiver_reaching_zero_goes_first (buildOf chainVertices chainTriangles)
      { pressure := [1, 1, 0], receivers := [(invalidIndex, invalidIndex),
                (0, invalidIndex), (1, invalidIndex)] } 0
      { map := [(0, 2), (1, 0), (1, 1)], output := [] } 2 [(1, 0), (1, 1)]
      chain_index (by decide) rfl).2 1 (by decide)⟩

/-! ## The geometry of the ribs -/

theorem setOwner_deltaY (rib : Rib) (t : Nat) : (rib.setOwner t).deltaY = rib.deltaY := by
  unfold Rib.setOwner
  split <;> rfl

theorem sortVertices_sorted {vertices : List Vertex} {a b : Nat} {vp : Nat × Nat}
    (h : sortVertices vertices a b = .ok vp) :
    ∃ l r : Vertex, vertices[vp.1]? = some l ∧ vertices[vp.2]? = some r ∧ l.x ≤ r.x := by
  unfold sortVertices at h
  cases h1 : vertices[a]? with
  | none => simp [h1] at h
  | some v1 =>
    cases h2 : vertices[b]? with
    | none => simp [h1, h2] at h
    | some v2 =>
      simp only [h1, h2, Except.ok.injEq] at h
      by_cases hx : v2.x < v1.x
      · rw [if_pos hx] at h
        subst h
        exact ⟨v2, v1, h2, h1, le_of_lt hx⟩
      · rw [if_neg hx] at h
        subst h
        exact ⟨v1, v2, h1, h2, not_lt.1 hx⟩

theorem ribGeom_step {vertices : List Vertex} {k : Nat} {vertexIndices : Nat × Nat × Nat}
    {combinationNum : Nat} {c : Nat × Nat} {s s1 : TriangleState}
    (hidx : s.verticesToRibs.map Prod.snd = List.range s.ribs.length)
    (hinv : RibGeom vertices s.ribs s.verticesToRibs)
    (h : processCombination vertices k vertexIndices combinationNum c s = .ok s1) :
    RibGeom vertices s1.ribs s1.verticesToRibs := by
  obtain ⟨vp, ribs1, map1, ri, rib0, hsv, hf, hget, hribs, hmap⟩ := processCombination_ribs h
  rw [hribs, hmap]
  have hri : ri < ribs1.length := (List.getElem?_eq_some.1 hget).1
  have hmid : RibGeom vertices ribs1 map1 := by
    rcases findOrCreateRib_cases hf with ⟨_, h1, h2⟩ | ⟨l, r, hv1, hv2, h1, h2, h3⟩
    · subst h1; subst h2
      exact hinv
    · subst h1; subst h2; subst h3
      intro i rib key hrib hkey
      rcases List.mem_append.1 hkey with hk | hk
      · have hlt := mem_map_snd_lt hidx hk
        rw [List.getElem?_append_left hlt] at hrib
        exact hinv i rib key hrib hk
      · simp only [List.mem_singleton, Prod.mk.injEq] at hk
        obtain ⟨hk1, hk2⟩ := hk
        subst hk2
        rw [List.getElem?_append_right (le_refl _)] at hrib
        simp only [Nat.sub_self, List.getElem?_cons_zero, Option.some.injEq] at hrib
        subst hrib
        subst hk1
        obtain ⟨l1, r1, e1, e2, hle⟩ := sortVertices_sorted hsv
        rw [hv1] at e1
        rw [hv2] at e2
        obtain rfl := Option.some.inj e1
        obtain rfl := Option.some.inj e2
        exact ⟨l, r, hv1, hv2, hle, rfl, rfl⟩
  intro i rib key hrib hkey
  by_cases hi : ri = i
  · subst hi
    rw [List.getElem?_set_self hri] at hrib
    obtain rfl := Option.some.inj hrib
    rw [setOwner_deltaX, setOwner_deltaY]
    exact hmid ri rib0 key hget hkey
  · rw [List.getElem?_set_ne hi] at hrib
    exact hmid i rib key hrib hkey

theorem keyInv_indices_step {vertices : List Vertex} {k : Nat}
    {vertexIndices : Nat × Nat × Nat} {combinationNum : Nat} {c : Nat × Nat}
    {s s1 : TriangleState}
    (hidx : s.verticesToRibs.map Prod.snd = List.range s.ribs.length)
    (h : processCombination vertices k vertexIndices combinationNum c s = .ok s1) :
    s1.verticesToRibs.map Prod.snd = List.range s1.ribs.length
    ∧ (∀ e ∈ s.verticesToRibs, e ∈ s1.verticesToRibs) := by
  obtain ⟨vp, ribs1, map1, ri, rib0, hsv, hf, hget, hribs, hmap⟩ := processCombination_ribs h
  rw [hribs, hmap, List.length_set]
  rcases findOrCreateRib_cases hf with ⟨_, h1, h2⟩ | ⟨l, r, hv1, hv2, h1, h2, h3⟩
  · subst h1; subst h2
    exact ⟨hidx, fun e he => he⟩
  · subst h1; subst h2; subst h3
    refine ⟨by simp [List.map_append, hidx, List.range_succ], fun e he => ?_⟩
    exact List.mem_append_left _ he

/-! ## The number of ribs written for one triangle -/

theorem isRibCCWise_congr {a b : Rib} (c : Rib) (hx : a.deltaX = b.deltaX)
    (hy : a.deltaY = b.deltaY) : isRibCCWise a c = isRibCCWise b c := by
  unfold isRibCCWise
  rw [hx, hy]

theorem findOrCreateRib_run {vertices : List Vertex} {s : TriangleState} {vp : Nat × Nat}
    {l r : Vertex}
    (hidx : s.verticesToRibs.map Prod.snd = List.range s.ribs.length)
    (hgeom : RibGeom vertices s.ribs s.verticesToRibs)
    (hl : vertices[vp.1]? = some l) (hr : vertices[vp.2]? = some r) :
    ∃ ribs1 map1 ri rib0, findOrCreateRib vertices s vp = .ok (ribs1, map1, ri)
      ∧ ribs1[ri]? = some rib0 ∧ (vp, ri) ∈ map1
      ∧ rib0.deltaX = wrapInt (r.x - l.x) ∧ rib0.deltaY = wrapInt (r.y - l.y) := by
  cases hlook : s.verticesToRibs.lookup vp with
  | some ri =>
    have hmem := lookup_mem hlook
    have hlt := mem_map_snd_lt hidx hmem
    obtain ⟨l1, r1, e1, e2, _, hdx, hdy⟩ :=
      hgeom ri s.ribs[ri] vp (List.getElem?_eq_getElem hlt) hmem
    rw [hl] at e1
    rw [hr] at e2
    obtain rfl := Option.some.inj e1
    obtain rfl := Option.some.inj e2
    exact ⟨s.ribs, s.verticesToRibs, ri, s.ribs[ri], by simp [findOrCreateRib, hlook],
      List.getElem?_eq_getElem hlt, hmem, hdx, hdy⟩
  | none =>
    refine ⟨s.ribs ++ [Rib.new l r], s.verticesToRibs ++ [(vp, s.ribs.length)], s.ribs.length,
      Rib.new l r, by simp [findOrCreateRib, hlook, hl, hr], ?_, by simp, rfl, rfl⟩
    rw [List.getElem?_append_right (le_refl _)]
    simp

theorem pushRib_run {s : TriangleState} (ri : Nat) (h : s.ribPos < 2) :
    ∃ s1, pushRib s ri = .ok s1 ∧ s1.ribPos = s.ribPos + 1 ∧ s1.ribs = s.ribs
      ∧ s1.verticesToRibs = s.verticesToRibs
      ∧ (s1.currentTriangle.ribs = (ri, s.currentTriangle.ribs.2)
          ∨ s1.currentTriangle.ribs = (s.currentTriangle.ribs.1, ri)) := by
  unfold pushRib
  by_cases h0 : s.ribPos = 0
  · rw [if_pos h0]
    exact ⟨_, rfl, by simp [h0], rfl, rfl, Or.inl rfl⟩
  · have h1 : s.ribPos = 1 := by omega
    rw [if_neg h0, if_pos h1]
    exact ⟨_, rfl, by simp [h1], rfl, rfl, Or.inr rfl⟩

theorem processCombination_run {vertices : List Vertex} {k : Nat}
    {vertexIndices : Nat × Nat × Nat} {combinationNum : Nat} {c : Nat × Nat}
    {s : TriangleState}
    (hidx : s.verticesToRibs.map Prod.snd = List.range s.ribs.length)
    (hgeom : RibGeom vertices s.ribs s.verticesToRibs)
    (h1 : vertexAt vertexIndices c.1 < vertices.length)
    (h2 : vertexAt vertexIndices c.2 < vertices.length)
    (h3 : vertexAt vertexIndices combinationNum < vertices.length)
    (hroom : ccwSide vertices
        (canonicalKey vertices (vertexAt vertexIndices c.1, vertexAt vertexIndices c.2))
        (vertexAt vertexIndices combinationNum) = true → s.ribPos < 2) :
    ∃ s1 ri, processCombination vertices k vertexIndices combinationNum c s = .ok s1
      ∧ (canonicalKey vertices (vertexAt vertexIndices c.1, vertexAt vertexIndices c.2), ri)
          ∈ s1.verticesToRibs
      ∧ (ccwSide vertices
            (canonicalKey vertices (vertexAt vertexIndices c.1, vertexAt vertexIndices c.2))
            (vertexAt vertexIndices combinationNum) = false →
          s1.ribPos = s.ribPos ∧ s1.currentTriangle = s.currentTriangle)
      ∧ (ccwSide vertices
            (canonicalKey vertices (vertexAt vertexIndices c.1, vertexAt vertexIndices c.2))
            (vertexAt vertexIndices combinationNum) = true →
          s1.ribPos = s.ribPos + 1
          ∧ (s1.currentTriangle.ribs = (ri, s.currentTriangle.ribs.2)
              ∨ s1.currentTriangle.ribs = (s.currentTriangle.ribs.1, ri))) := by
  cases hsv : sortVertices vertices (vertexAt vertexIndices c.1) (vertexAt vertexIndices c.2) with
  | error e =>
    exfalso
    unfold sortVertices at hsv
    rw [List.getElem?_eq_getElem h1, List.getElem?_eq_getElem h2] at hsv
    simp at hsv
  | ok vp =>
    rw [canonicalKey_of_sort hsv] at hroom ⊢
    obtain ⟨l, r, hl, hr, _⟩ := sortVertices_sorted hsv
    have hp : vertices[vertexAt vertexIndices combinationNum]?
        = some vertices[vertexAt vertexIndices combinationNum] := List.getElem?_eq_getElem h3
    generalize vertices[vertexAt vertexIndices combinationNum] = p at hp
    obtain ⟨ribs1, map1, ri, rib0, hf, hget, hmem, hdx, hdy⟩ :=
      findOrCreateRib_run hidx hgeom hl hr
    have hflag : ccwSide vertices vp (vertexAt vertexIndices combinationNum)
        = (decide ((rib0.setOwner k).deltaX ≠ 0)
            && isRibCCWise (rib0.setOwner k) (Rib.new l p)) := by
      unfold ccwSide
      rw [hl, hr, hp]
      simp only
      unfold ccwVertices
      have e := isRibCCWise_congr (a := rib0.setOwner k) (b := Rib.new l r) (Rib.new l p)
        (by rw [setOwner_deltaX, hdx]; rfl) (by rw [setOwner_deltaY, hdy]; rfl)
      rw [e, setOwner_deltaX, hdx]
      rfl
    rw [hflag] at hroom ⊢
    unfold processCombination
    simp only [hsv, hf, hget]
    by_cases hz : (rib0.setOwner k).deltaX = 0
    · refine ⟨{ s with ribs := ribs1.set ri (rib0.setOwner k), verticesToRibs := map1 }, ri,
        by rw [if_pos hz], hmem, fun _ => ⟨rfl, rfl⟩, fun ht => ?_⟩
      simp [hz] at ht
    · rw [if_neg hz]
      unfold classifyRib
      simp only [hl, hp]
      by_cases hccw : isRibCCWise (rib0.setOwner k) (Rib.new l p) = true
      · rw [if_pos hccw]
        have hlt := hroom (by simp [hz, hccw])
        obtain ⟨s1, hs1, hpos, _, hm1, hslots⟩ :=
          @pushRib_run { s with ribs := ribs1.set ri (rib0.setOwner k), verticesToRibs := map1 }
            ri hlt
        refine ⟨s1, ri, hs1, by rw [hm1]; exact hmem, fun hfalse => ?_, fun _ => ⟨hpos, hslots⟩⟩
        simp [hz, hccw] at hfalse
      · rw [if_neg hccw]
        refine ⟨{ s with ribs := ribs1.set ri (rib0.setOwner k), verticesToRibs := map1 }, ri,
          rfl, hmem, fun _ => ⟨rfl, rfl⟩, fun ht => ?_⟩
        simp [hz, hccw] at ht

theorem ccwVertices_antisymm (l r p : Vertex) :
    ¬ (ccwVertices l r p = true ∧ ccwVertices l p r = true) := by
  unfold ccwVertices isRibCCWise Rib.new
  simp only [Bool.and_eq_true, decide_eq_true_eq]
  rintro ⟨⟨_, h1⟩, ⟨_, h2⟩⟩
  rw [mul_comm (wrapInt (r.x - l.x)) (wrapInt (p.y - l.y)),
    mul_comm (wrapInt (r.y - l.y)) (wrapInt (p.x - l.x))] at h1
  generalize wrapInt (wrapInt (p.y - l.y) * wrapInt (r.x - l.x)) = a at h1 h2
  generalize wrapInt (wrapInt (p.x - l.x) * wrapInt (r.y - l.y)) = b at h1 h2
  unfold wrapInt at h1 h2
  omega

theorem ccwVertices_degenerate (l r : Vertex) :
    ccwVertices l r l = false ∧ ccwVertices l r r = false := by
  unfold ccwVertices isRibCCWise Rib.new
  simp only [sub_self, wrapInt_zero, mul_zero]
  constructor
  · simp [wrapInt_zero]
  · rw [mul_comm (wrapInt (r.y - l.y)) (wrapInt (r.x - l.x))]
    simp [wrapInt_zero]

theorem ccwSide_canonical {vertices : List Vertex} {u v w : Nat} {vu vv vw : Vertex}
    (hu : vertices[u]? = some vu) (hv : vertices[v]? = some vv) (hw : vertices[w]? = some vw) :
    ccwSide vertices (canonicalKey vertices (u, v)) w
      = if vv.x < vu.x then ccwVertices vv vu vw else ccwVertices vu vv vw := by
  have hck : canonicalKey vertices (u, v) = if vv.x < vu.x then (v, u) else (u, v) := by
    simp [canonicalKey, sortVertices, hu, hv]
  rw [hck]
  by_cases hx : vv.x < vu.x
  · rw [if_pos hx, if_pos hx]
    unfold ccwSide
    simp only [hu, hv, hw]
  · rw [if_neg hx, if_neg hx]
    unfold ccwSide
    simp only [hu, hv, hw]

theorem at_most_two_ccw {vertices : List Vertex} {a b c : Nat} (ha : a < vertices.length)
    (hb : b < vertices.length) (hc : c < vertices.length) :
    ¬ (ccwSide vertices (canonicalKey vertices (b, c)) a = true
        ∧ ccwSide vertices (canonicalKey vertices (a, c)) b = true
        ∧ ccwSide vertices (canonicalKey vertices (a, b)) c = true) := by
  have hA : vertices[a]? = some vertices[a] := List.getElem?_eq_getElem ha
  have hB : vertices[b]? = some vertices[b] := List.getElem?_eq_getElem hb
  have hC : vertices[c]? = some vertices[c] := List.getElem?_eq_getElem hc
  generalize vertices[a] = va at hA
  generalize vertices[b] = vb at hB
  generalize vertices[c] = vc at hC
  rw [ccwSide_canonical hB hC hA, ccwSide_canonical hA hC hB, ccwSide_canonical hA hB hC]
  rintro ⟨f0, f1, f2⟩
  by_cases p : vc.x < vb.x <;> by_cases q : vc.x < va.x <;> by_cases r : vb.x < va.x
    <;> simp only [p, q, r, if_true, if_false] at f0 f1 f2
  · exact ccwVertices_antisymm _ _ _ ⟨f0, f1⟩
  · exact ccwVertices_antisymm _ _ _ ⟨f0, f1⟩
  · omega
  · exact ccwVertices_antisymm _ _ _ ⟨f1, f2⟩
  · exact ccwVertices_antisymm _ _ _ ⟨f0, f2⟩
  · omega
  · exact ccwVertices_antisymm _ _ _ ⟨f0, f2⟩
  · exact ccwVertices_antisymm _ _ _ ⟨f1, f2⟩

theorem combination_step {vertices : List Vertex} {k : Nat}
    {vertexIndices : Nat × Nat × Nat} {combinationNum : Nat} {c : Nat × Nat}
    {s : TriangleState}
    (hidx : s.verticesToRibs.map Prod.snd = List.range s.ribs.length)
    (hgeom : RibGeom vertices s.ribs s.verticesToRibs)
    (h1 : vertexAt vertexIndices c.1 < vertices.length)
    (h2 : vertexAt vertexIndices c.2 < vertices.length)
    (h3 : vertexAt vertexIndices combinationNum < vertices.length)
    (hroom : ccwSide vertices
        (canonicalKey vertices (vertexAt vertexIndices c.1, vertexAt vertexIndices c.2))
        (vertexAt vertexIndices combinationNum) = true → s.ribPos < 2) :
    ∃ s1, processCombination vertices k vertexIndices combinationNum c s = .ok s1
      ∧ s1.verticesToRibs.map Prod.snd = List.range s1.ribs.length
      ∧ RibGeom vertices s1.ribs s1.verticesToRibs
      ∧ (∀ e ∈ s.verticesToRibs, e ∈ s1.verticesToRibs)
      ∧ (ccwSide vertices
            (canonicalKey vertices (vertexAt vertexIndices c.1, vertexAt vertexIndices c.2))
            (vertexAt vertexIndices combinationNum) = false → s1.ribPos = s.ribPos)
      ∧ (ccwSide vertices
            (canonicalKey vertices (vertexAt vertexIndices c.1, vertexAt vertexIndices c.2))
            (vertexAt vertexIndices combinationNum) = true → s1.ribPos = s.ribPos + 1)
      ∧ (∀ ri, (ri = s1.currentTriangle.ribs.1 ∨ ri = s1.currentTriangle.ribs.2) →
          (ri = s.currentTriangle.ribs.1 ∨ ri = s.currentTriangle.ribs.2)
          ∨ (ccwSide vertices
              (canonicalKey vertices (vertexAt vertexIndices c.1, vertexAt vertexIndices c.2))
              (vertexAt vertexIndices combinationNum) = true
            ∧ (canonicalKey vertices (vertexAt vertexIndices c.1, vertexAt vertexIndices c.2), ri)
                ∈ s1.verticesToRibs)) := by
  obtain ⟨s1, ri, hok, hmem, hF, hT⟩ := processCombination_run (k := k) hidx hgeom h1 h2 h3 hroom
  obtain ⟨hidx1, hmono⟩ := keyInv_indices_step hidx hok
  refine ⟨s1, hok, hidx1, ribGeom_step hidx hgeom hok, hmono, fun hf => (hF hf).1,
    fun ht => (hT ht).1, ?_⟩
  intro x hx
  cases hflag : ccwSide vertices
      (canonicalKey vertices (vertexAt vertexIndices c.1, vertexAt vertexIndices c.2))
      (vertexAt vertexIndices combinationNum) with
  | false =>
    left
    rw [(hF hflag).2] at hx
    exact hx
  | true =>
    rcases (hT hflag).2 with hs | hs
    · rw [hs] at hx
      rcases hx with hx | hx
      · exact Or.inr ⟨rfl, by rw [hx]; exact hmem⟩
      · exact Or.inl (Or.inr hx)
    · rw [hs] at hx
      rcases hx with hx | hx
      · exact Or.inl (Or.inl hx)
      · exact Or.inr ⟨rfl, by rw [hx]; exact hmem⟩

/-- The loop over the three combinations of a triangle whose vertex indices are inside
the vertex list goes through: it never writes a third rib. Every rib it writes is the
rib of a side of the triangle that the orientation test accepted. -/
theorem processCombinations_run {vertices : List Vertex} {k a b c : Nat} {s : TriangleState}
    (hidx : s.verticesToRibs.map Prod.snd = List.range s.ribs.length)
    (hgeom : RibGeom vertices s.ribs s.verticesToRibs)
    (ha : a < vertices.length) (hb : b < vertices.length) (hc : c < vertices.length)
    (hpos : s.ribPos = 0) :
    ∃ s1, processCombinations vertices k (a, b, c) 0 vertexCombinations s = .ok s1
      ∧ s1.ribPos ≤ 2
      ∧ s1.verticesToRibs.map Prod.snd = List.range s1.ribs.length
      ∧ RibGeom vertices s1.ribs s1.verticesToRibs
      ∧ (∀ ri, (ri = s1.currentTriangle.ribs.1 ∨ ri = s1.currentTriangle.ribs.2) →
          (ri = s.currentTriangle.ribs.1 ∨ ri = s.currentTriangle.ribs.2)
          ∨ ∃ e ∈ [((b, c), a), ((a, c), b), ((a, b), c)],
              (canonicalKey vertices e.1, ri) ∈ s1.verticesToRibs
              ∧ ccwSide vertices (canonicalKey vertices e.1) e.2 = true) := by
  have st0 : ∃ s1, processCombination vertices k (a, b, c) 0 (1, 2) s = .ok s1
      ∧ s1.verticesToRibs.map Prod.snd = List.range s1.ribs.length
      ∧ RibGeom vertices s1.ribs s1.verticesToRibs
      ∧ (∀ e ∈ s.verticesToRibs, e ∈ s1.verticesToRibs)
      ∧ (ccwSide vertices (canonicalKey vertices (b, c)) a = false → s1.ribPos = s.ribPos)
      ∧ (ccwSide vertices (canonicalKey vertices (b, c)) a = true → s1.ribPos = s.ribPos + 1)
      ∧ (∀ ri, (ri = s1.currentTriangle.ribs.1 ∨ ri = s1.currentTriangle.ribs.2) →
          (ri = s.currentTriangle.ribs.1 ∨ ri = s.currentTriangle.ribs.2)
          ∨ (ccwSide vertices (canonicalKey vertices (b, c)) a = true
            ∧ (canonicalKey vertices (b, c), ri) ∈ s1.verticesToRibs)) :=
    @combination_step vertices k (a, b, c) 0 (1, 2) s hidx hgeom hb hc ha
      (fun _ => by rw [hpos]; exact Nat.zero_lt_two)
  obtain ⟨s1, ok1, hidx1, hgeom1, mono1, hF1, hT1, src1⟩ := st0
  have hp1 : s1.ribPos ≤ 1 := by
    cases hf : ccwSide vertices (canonicalKey vertices (b, c)) a with
    | false => rw [hF1 hf, hpos]; exact Nat.zero_le _
    | true => rw [hT1 hf, hpos]
  have st1 : ∃ s2, processCombination vertices k (a, b, c) 1 (0, 2) s1 = .ok s2
      ∧ s2.verticesToRibs.map Prod.snd = List.range s2.ribs.length
      ∧ RibGeom vertices s2.ribs s2.verticesToRibs
      ∧ (∀ e ∈ s1.verticesToRibs, e ∈ s2.verticesToRibs)
      ∧ (ccwSide vertices (canonicalKey vertices (a, c)) b = false → s2.ribPos = s1.ribPos)
      ∧ (ccwSide vertices (canonicalKey vertices (a, c)) b = true → s2.ribPos = s1.ribPos + 1)
      ∧ (∀ ri, (ri = s2.currentTriangle.ribs.1 ∨ ri = s2.currentTriangle.ribs.2) →
          (ri = s1.currentTriangle.ribs.1 ∨ ri = s1.currentTriangle.ribs.2)
          ∨ (ccwSide vertices (canonicalKey vertices (a, c)) b = true
            ∧ (canonicalKey vertices (a, c), ri) ∈ s2.verticesToRibs)) :=
    @combination_step vertices k (a, b, c) 1 (0, 2) s1 hidx1 hgeom1 ha hc hb
      (fun _ => Nat.lt_succ_of_le hp1)
  obtain ⟨s2, ok2, hidx2, hgeom2, mono2, hF2, hT2, src2⟩ := st1
  have hroom2 : ccwSide vertices (canonicalKey vertices (a, b)) c = true → s2.ribPos < 2 := by
    intro hf2
    cases hf0 : ccwSide vertices (canonicalKey vertices (b, c)) a with
    | false =>
      have e1 := hF1 hf0
      cases hf1 : ccwSide vertices (canonicalKey vertices (a, c)) b with
      | false => have e2 := hF2 hf1; omega
      | true => have e2 := hT2 hf1; omega
    | true =>
      have e1 := hT1 hf0
      cases hf1 : ccwSide vertices (canonicalKey vertices (a, c)) b with
      | false => have e2 := hF2 hf1; omega
      | true => exact absurd ⟨hf0, hf1, hf2⟩ (at_most_two_ccw ha hb hc)
  have st2 : ∃ s3, processCombination vertices k (a, b, c) 2 (0, 1) s2 = .ok s3
      ∧ s3.verticesToRibs.map Prod.snd = List.range s3.ribs.length
      ∧ RibGeom vertices s3.ribs s3.verticesToRibs
      ∧ (∀ e ∈ s2.verticesToRibs, e ∈ s3.verticesToRibs)
      ∧ (ccwSide vertices (canonicalKey vertices (a, b)) c = false → s3.ribPos = s2.ribPos)
      ∧ (ccwSide vertices (canonicalKey vertices (a, b)) c = true → s3.ribPos = s2.ribPos + 1)
      ∧ (∀ ri, (ri = s3.currentTriangle.ribs.1 ∨ ri = s3.currentTriangle.ribs.2) →
          (ri = s2.currentTriangle.ribs.1 ∨ ri = s2.currentTriangle.ribs.2)
          ∨ (ccwSide vertices (canonicalKey vertices (a, b)) c = true
            ∧ (canonicalKey vertices (a, b), ri) ∈ s3.verticesToRibs)) :=
    @combination_step vertices k (a, b, c) 2 (0, 1) s2 hidx2 hgeom2 ha hb hc hroom2
  obtain ⟨s3, ok3, hidx3, hgeom3, mono3, hF3, hT3, src3⟩ := st2
  have hp2 : s2.ribPos ≤ 2 := by
    cases hf1 : ccwSide vertices (canonicalKey vertices (a, c)) b with
    | false => have e2 := hF2 hf1; omega
    | true => have e2 := hT2 hf1; omega
  have hp3 : s3.ribPos ≤ 2 := by
    cases hf2 : ccwSide vertices (canonicalKey vertices (a, b)) c with
    | false => have e3 := hF3 hf2; omega
    | true => have e3 := hT3 hf2; have := hroom2 hf2; omega
  refine ⟨s3, ?_, hp3, hidx3, hgeom3, ?_⟩
  · simp only [vertexCombinations, processCombinations, ok1, ok2, ok3]
  · intro ri hri
    rcases src3 ri hri with h3 | ⟨hf, hm⟩
    · rcases src2 ri h3 with h2 | ⟨hf, hm⟩
      · rcases src1 ri h2 with h1 | ⟨hf, hm⟩
        · exact Or.inl h1
        · exact Or.inr ⟨((b, c), a), by simp, mono3 _ (mono2 _ hm), hf⟩
      · exact Or.inr ⟨((a, c), b), by simp, mono3 _ hm, hf⟩
    · exact Or.inr ⟨((a, b), c), by simp, hm, hf⟩

theorem processTriangle_run {vertices : List Vertex} {k : Nat} {input : Nat × Nat × Nat}
    {b : Build}
    (hidx : b.verticesToRibs.map Prod.snd = List.range b.ribs.length)
    (hgeom : RibGeom vertices b.ribs b.verticesToRibs)
    (hin : indicesInRange vertices input) :
    ∃ b1 triangle, processTriangle vertices k input b = .ok b1
      ∧ b1.triangles = b.triangles ++ [triangle]
      ∧ b1.verticesToRibs.map Prod.snd = List.range b1.ribs.length
      ∧ RibGeom vertices b1.ribs b1.verticesToRibs
      ∧ (∀ ri, (ri = triangle.ribs.1 ∨ ri = triangle.ribs.2) → ri ≠ invalidIndex →
          ∃ e ∈ sidesWithThird input, (canonicalKey vertices e.1, ri) ∈ b1.verticesToRibs
            ∧ ccwSide vertices (canonicalKey vertices e.1) e.2 = true) := by
  obtain ⟨s1, hok, _, hidx1, hgeom1, hsrc⟩ :=
    @processCombinations_run vertices k (decIndex input.1) (decIndex input.2.1)
      (decIndex input.2.2) (TriangleState.mk b.ribs b.verticesToRibs Triangle.new 0)
      hidx hgeom hin.1 hin.2.1 hin.2.2 rfl
  refine ⟨{ ribs := s1.ribs, triangles := b.triangles ++ [s1.currentTriangle],
            verticesToRibs := s1.verticesToRibs }, s1.currentTriangle, ?_, rfl, hidx1, hgeom1, ?_⟩
  · rw [processTriangle]
    simp only [hok]
  · intro ri hri hne
    rcases hsrc ri hri with h0 | h1
    · exfalso
      rcases h0 with h0 | h0 <;> exact hne h0
    · exact h1

theorem readTrianglesFrom_run {vertices : List Vertex} :
    ∀ (ts : List (Nat × Nat × Nat)) (k : Nat) (b : Build),
      b.verticesToRibs.map Prod.snd = List.range b.ribs.length →
      RibGeom vertices b.ribs b.verticesToRibs →
      (∀ t ∈ ts, indicesInRange vertices t) →
      ∃ b1, readTrianglesFrom vertices k ts b = .ok b1
        ∧ RibGeom vertices b1.ribs b1.verticesToRibs
  | [], _, b, _, hgeom, _ => ⟨b, rfl, hgeom⟩
  | t :: ts, k, b, hidx, hgeom, hin => by
    obtain ⟨b1, _, hok, _, hidx1, hgeom1, _⟩ :=
      @processTriangle_run vertices k t b hidx hgeom (hin t (List.mem_cons_self _ _))
    obtain ⟨b2, hok2, hgeom2⟩ := readTrianglesFrom_run ts (k + 1) b1 hidx1 hgeom1
      (fun x hx => hin x (List.mem_cons_of_mem _ hx))
    exact ⟨b2, by rw [readTrianglesFrom]; simp only [hok, hok2], hgeom2⟩

theorem readAndInitTriangles_run {vertices : List Vertex}
    {triangles : List (Nat × Nat × Nat)} (hin : ∀ t ∈ triangles, indicesInRange vertices t) :
    ∃ b, readAndInitTriangles vertices triangles = .ok b
      ∧ RibGeom vertices b.ribs b.verticesToRibs :=
  readTrianglesFrom_run triangles 0 (Build.mk [] [] []) rfl
    (fun i rib key h _ => by simp at h) hin

theorem crossExact_antisymm (l r p : Vertex) : crossExact l p r = - crossExact l r p := by
  unfold crossExact
  ring

theorem ccwVerticesExact_antisymm (l r p : Vertex) :
    ¬ (ccwVerticesExact l r p = true ∧ ccwVerticesExact l p r = true) := by
  unfold ccwVerticesExact
  simp only [Bool.and_eq_true, decide_eq_true_eq]
  rintro ⟨⟨_, h1⟩, ⟨_, h2⟩⟩
  rw [crossExact_antisymm] at h2
  omega

theorem ccwSideExact_canonical {vertices : List Vertex} {u v w : Nat} {vu vv vw : Vertex}
    (hu : vertices[u]? = some vu) (hv : vertices[v]? = some vv) (hw : vertices[w]? = some vw) :
    ccwSideExact vertices (canonicalKey vertices (u, v)) w
      = if vv.x < vu.x then ccwVerticesExact vv vu vw else ccwVerticesExact vu vv vw := by
  have hck : canonicalKey vertices (u, v) = if vv.x < vu.x then (v, u) else (u, v) := by
    simp [canonicalKey, sortVertices, hu, hv]
  rw [hck]
  by_cases hx : vv.x < vu.x
  · rw [if_pos hx, if_pos hx]
    unfold ccwSideExact
    simp only [hu, hv, hw]
  · rw [if_neg hx, if_neg hx]
    unfold ccwSideExact
    simp only [hu, hv, hw]

theorem at_most_two_ccw_exact {vertices : List Vertex} {a b c : Nat}
    (ha : a < vertices.length) (hb : b < vertices.length) (hc : c < vertices.length) :
    ¬ (ccwSideExact vertices (canonicalKey vertices (b, c)) a = true
        ∧ ccwSideExact vertices (canonicalKey vertices (a, c)) b = true
        ∧ ccwSideExact vertices (canonicalKey vertices (a, b)) c = true) := by
  have hA : vertices[a]? = some vertices[a] := List.getElem?_eq_getElem ha
  have hB : vertices[b]? = some vertices[b] := List.getElem?_eq_getElem hb
  have hC : vertices[c]? = some vertices[c] := List.getElem?_eq_getElem hc
  generalize vertices[a] = va at hA
  generalize vertices[b] = vb at hB
  generalize vertices[c] = vc at hC
  rw [ccwSideExact_canonical hB hC hA, ccwSideExact_canonical hA hC hB,
    ccwSideExact_canonical hA hB hC]
  rintro ⟨f0, f1, f2⟩
  by_cases p : vc.x < vb.x <;> by_cases q : vc.x < va.x <;> by_cases r : vb.x < va.x
    <;> simp only [p, q, r, if_true, if_false] at f0 f1 f2
  · exact ccwVerticesExact_antisymm _ _ _ ⟨f0, f1⟩
  · exact ccwVerticesExact_antisymm _ _ _ ⟨f0, f1⟩
  · omega
  · exact ccwVerticesExact_antisymm _ _ _ ⟨f1, f2⟩
  · exact ccwVerticesExact_antisymm _ _ _ ⟨f0, f2⟩
  · omega
  · exact ccwVerticesExact_antisymm _ _ _ ⟨f0, f2⟩
  · exact ccwVerticesExact_antisymm _ _ _ ⟨f1, f2⟩

theorem filter_three_le_two {α : Type} (f : α → Bool) (x y z : α)
    (h : ¬ (f x = true ∧ f y = true ∧ f z = true)) : ([x, y, z].filter f).length ≤ 2 := by
  cases hx : f x <;> cases hy : f y <;> cases hz : f z <;>
    simp [List.filter, hx, hy, hz] at h ⊢

/-- C13 (at most two counter-clockwise ribs): for an input whose vertex indices are
inside the vertex list, at most 2 of the 3 sides of every triangle pass the tests of the
loop body (on the `int` arithmetic of the code, and also with the cross product computed
exactly), and `readAndInitTriangles` runs through: no write into the two-slot rib array
is out of bounds. -/
theorem at_most_two_ribs_per_triangle (vertices : List Vertex)
    (triangles : List (Nat × Nat × Nat))
    (hin : ∀ t ∈ triangles, indicesInRange vertices t) :
    (∀ t ∈ triangles,
      ((sidesWithThird t).filter
        (fun e => ccwSide vertices (canonicalKey vertices e.1) e.2)).length ≤ 2)
    ∧ (∀ t ∈ triangles,
      ((sidesWithThird t).filter
        (fun e => ccwSideExact vertices (canonicalKey vertices e.1) e.2)).length ≤ 2)
    ∧ (∃ b, readAndInitTriangles vertices triangles = .ok b
        ∧ b.triangles.length = triangles.length
        ∧ ∀ triangle ∈ b.triangles, (validEntries triangle.ribs).length ≤ 2) := by
  refine ⟨fun t ht => ?_, fun t ht => ?_, ?_⟩
  · exact filter_three_le_two _ _ _ _ (at_most_two_ccw (hin t ht).1 (hin t ht).2.1 (hin t ht).2.2)
  · exact filter_three_le_two _ _ _ _
      (at_most_two_ccw_exact (hin t ht).1 (hin t ht).2.1 (hin t ht).2.2)
  · obtain ⟨b, hb, _⟩ := readAndInitTriangles_run hin
    refine ⟨b, hb, (readAndInitTriangles_inv hb).length, fun triangle _ => ?_⟩
    unfold validEntries
    split
    · simp
    · split <;> simp

/-- C13, witness: the chain example. -/
theorem at_most_two_ribs_per_triangle_witness :
    (∀ t ∈ chainTriangles, indicesInRange chainVertices t)
    ∧ (∀ t ∈ chainTriangles,
      ((sidesWithThird t).filter
        (fun e => ccwSide chainVertices (canonicalKey chainVertices e.1) e.2)).length ≤ 2)
    ∧ (∃ b, readAndInitTriangles chainVertices chainTriangles = .ok b
        ∧ b.triangles.length = chainTriangles.length
        ∧ ∀ triangle ∈ b.triangles, (validEntries triangle.ribs).length ≤ 2) :=
  ⟨by decide,
    (at_most_two_ribs_per_triangle chainVertices chainTriangles (by decide)).1,
    (at_most_two_ribs_per_triangle chainVertices chainTriangles (by decide)).2.2⟩

/-! ## Ribs point from left to right -/

theorem readAndInitTriangles_geom {vertices : List Vertex}
    {triangles : List (Nat × Nat × Nat)} {b : Build}
    (h : readAndInitTriangles vertices triangles = .ok b) :
    RibGeom vertices b.ribs b.verticesToRibs := by
  have hin : ∀ t ∈ triangles, indicesInRange vertices t :=
    readTrianglesFrom_inRange triangles 0 _ b h
  obtain ⟨b1, hb1, hgeom⟩ := readAndInitTriangles_run hin
  rw [h] at hb1
  obtain rfl := Except.ok.inj hb1
  exact hgeom

theorem rib_has_key {vertices : List Vertex} {triangles : List (Nat × Nat × Nat)} {b : Build}
    (h : readAndInitTriangles vertices triangles = .ok b) {i : Nat}
    (hi : i < b.ribs.length) : ∃ key, (key, i) ∈ b.verticesToRibs := by
  have hidx := (readAndInitTriangles_keys h).indices
  have hmem : i ∈ b.verticesToRibs.map Prod.snd := by
    rw [hidx]; exact List.mem_range.2 hi
  obtain ⟨e, he, hei⟩ := List.mem_map.1 hmem
  exact ⟨e.1, by rw [← hei]; exact he⟩

theorem deltaX_nonneg_of_fits {l r : Vertex} (hle : l.x ≤ r.x)
    (hfit : r.x - l.x < 2147483648) : 0 ≤ (Rib.new l r).deltaX := by
  have : (Rib.new l r).deltaX = wrapInt (r.x - l.x) := rfl
  rw [this, wrapInt_of_fits (by omega) hfit]
  omega

theorem coordinateOk_bounds {v : Vertex} (h : coordinateOk v = true) :
    -1000000 ≤ v.x ∧ v.x ≤ 1000000 := by
  unfold coordinateOk at h
  simp only [Bool.and_eq_true, decide_eq_true_eq] at h
  exact ⟨h.1.1.1, h.1.1.2⟩

/-- C15 (left-to-right canonical ribs): with the coordinates in the range of the task,
the pair returned by `sortVertices` never has a first vertex with a larger x than the
second, a rib constructed from it has `deltaX >= 0`, and every rib that
`readAndInitTriangles` stores has `deltaX >= 0`. -/
theorem canonical_ribs_point_right {vertices : List Vertex}
    (hcoord : ∀ v ∈ vertices, coordinateOk v = true) :
    (∀ vi1 vi2 vp, sortVertices vertices vi1 vi2 = .ok vp →
      ∃ l r, vertices[vp.1]? = some l ∧ vertices[vp.2]? = some r ∧ l.x ≤ r.x
        ∧ 0 ≤ (Rib.new l r).deltaX)
    ∧ (∀ triangles b, readAndInitTriangles vertices triangles = .ok b →
        ∀ rib ∈ b.ribs, 0 ≤ rib.deltaX) := by
  have hfit : ∀ (i j : Nat) (l r : Vertex), vertices[i]? = some l → vertices[j]? = some r →
      r.x - l.x < 2147483648 := by
    intro i j l r hl hr
    have h1 := coordinateOk_bounds (hcoord l (List.getElem?_mem hl))
    have h2 := coordinateOk_bounds (hcoord r (List.getElem?_mem hr))
    omega
  constructor
  · intro vi1 vi2 vp h
    obtain ⟨l, r, hl, hr, hle⟩ := sortVertices_sorted h
    exact ⟨l, r, hl, hr, hle, deltaX_nonneg_of_fits hle (hfit _ _ l r hl hr)⟩
  · intro triangles b hb rib hrib
    obtain ⟨i, hi, hget⟩ := List.getElem_of_mem hrib
    obtain ⟨key, hkey⟩ := rib_has_key hb hi
    have hsome : b.ribs[i]? = some rib := by rw [List.getElem?_eq_getElem hi, hget]
    obtain ⟨l, r, hl, hr, hle, hdx, _⟩ := readAndInitTriangles_geom hb i rib key hsome hkey
    have := deltaX_nonneg_of_fits hle (hfit _ _ l r hl hr)
    rw [hdx]
    exact this

/-- C15, witness: the mirror example, with the pair of vertices 2 and 1 put in the order
1, 2. -/
theorem canonical_ribs_point_right_witness :
    (∀ v ∈ mirrorVertices, coordinateOk v = true)
    ∧ sortVertices mirrorVertices 1 0 = .ok (0, 1)
    ∧ (∃ l r, mirrorVertices[(0, 1).1]? = some l ∧ mirrorVertices[(0, 1).2]? = some r
        ∧ l.x ≤ r.x ∧ 0 ≤ (Rib.new l r).deltaX)
    ∧ (∀ rib ∈ (buildOf mirrorVertices mirrorTriangles).ribs, 0 ≤ rib.deltaX) :=
  ⟨by decide, rfl,
    (@canonical_ribs_point_right mirrorVertices (by decide)).1 1 0 (0, 1) rfl,
    (@canonical_ribs_point_right mirrorVertices (by decide)).2 mirrorTriangles
      (buildOf mirrorVertices mirrorTriangles) mirror_build⟩

/-! ## A single triangle -/

theorem ccwSide_third_on_key {vertices : List Vertex} {key : Nat × Nat} {w : Nat}
    (hw : w = key.1 ∨ w = key.2) : ccwSide vertices key w = false := by
  unfold ccwSide
  cases h1 : vertices[key.1]? with
  | none => rfl
  | some l =>
    cases h2 : vertices[key.2]? with
    | none => rfl
    | some r =>
      rcases hw with rfl | rfl
      · simp only [h1]
        exact (ccwVertices_degenerate l r).1
      · simp only [h2]
        exact (ccwVertices_degenerate l r).2

theorem third_on_key {vertices : List Vertex} {s s1 : Nat × Nat} {w : Nat}
    (hk : canonicalKey vertices s1 = canonicalKey vertices s) (hw : w = s1.1 ∨ w = s1.2) :
    w = (canonicalKey vertices s).1 ∨ w = (canonicalKey vertices s).2 := by
  rw [← hk]
  rcases canonicalKey_cases vertices s1 with h | h
  · rw [h]; exact hw
  · rw [h]; exact hw.symm

theorem side_seen_twice_not_ccw (vertices : List Vertex) (a b c : Nat) (e : (Nat × Nat) × Nat)
    (he : e ∈ [((b, c), a), ((a, c), b), ((a, b), c)])
    (hcount : 2 ≤ ([(b, c), (a, c), (a, b)].map (canonicalKey vertices)).count
      (canonicalKey vertices e.1)) :
    ccwSide vertices (canonicalKey vertices e.1) e.2 = false := by
  apply ccwSide_third_on_key
  simp only [List.map_cons, List.map_nil] at hcount
  simp only [List.mem_cons, List.mem_singleton, List.not_mem_nil, or_false] at he
  rcases he with rfl | rfl | rfl
  · by_cases h1 : canonicalKey vertices (a, c) = canonicalKey vertices (b, c)
    · exact third_on_key h1 (Or.inl rfl)
    · by_cases h2 : canonicalKey vertices (a, b) = canonicalKey vertices (b, c)
      · exact third_on_key h2 (Or.inl rfl)
      · exfalso
        dsimp only at hcount
        rw [List.count_cons_self, List.count_cons_of_ne (Ne.symm h1),
          List.count_cons_of_ne (Ne.symm h2)] at hcount
        simp at hcount
  · by_cases h1 : canonicalKey vertices (b, c) = canonicalKey vertices (a, c)
    · exact third_on_key h1 (Or.inl rfl)
    · by_cases h2 : canonicalKey vertices (a, b) = canonicalKey vertices (a, c)
      · exact third_on_key h2 (Or.inr rfl)
      · exfalso
        dsimp only at hcount
        rw [List.count_cons_of_ne (Ne.symm h1), List.count_cons_self,
          List.count_cons_of_ne (Ne.symm h2)] at hcount
        simp at hcount
  · by_cases h1 : canonicalKey vertices (b, c) = canonicalKey vertices (a, b)
    · exact third_on_key h1 (Or.inr rfl)
    · by_cases h2 : canonicalKey vertices (a, c) = canonicalKey vertices (a, b)
      · exact third_on_key h2 (Or.inr rfl)
      · exfalso
        dsimp only at hcount
        rw [List.count_cons_of_ne (Ne.symm h1), List.count_cons_of_ne (Ne.symm h2),
          List.count_cons_self] at hcount
        simp at hcount

/-- C11 (isolated triangle): for an input with a single triangle whose three vertex
indices are inside the vertex list, whatever the coordinates, the builder and the
pressure pass run through, the pressure count of the triangle is 0, its receiver list is
empty and the sequence written is exactly 1. -/
theorem isolated_triangle_is_free {vertices : List Vertex} {t : Nat × Nat × Nat}
    (hin : indicesInRange vertices t) :
    ∃ b g, readAndInitTriangles vertices [t] = .ok b ∧ buildPressureIndex b = .ok g
      ∧ g.pressure = [0] ∧ receiversOf g.receivers 0 = []
      ∧ solve vertices [t] = { status := .finished, output := [1] } := by
  obtain ⟨b, triangle, hok, htri, _, _, hsound⟩ :=
    @processTriangle_run vertices 0 t (Build.mk [] [] []) rfl
      (fun i rib key h _ => by simp at h) hin
  have hb : readAndInitTriangles vertices [t] = .ok b := by
    rw [readAndInitTriangles, readTrianglesFrom]
    simp only [hok]
    rfl
  have hkeys := readAndInitTriangles_keys hb
  have hinv := readAndInitTriangles_inv hb
  obtain ⟨g, hg⟩ := buildPressureIndex_ok hb
  have hI := buildPressureIndex_spec hg
  have hlen : b.triangles.length = 1 := hinv.length
  have h0 : b.triangles[0]? = some triangle := by
    rw [htri]; rfl
  have hseen : ([t].flatMap sidesOf).map (canonicalKey vertices)
      = [(decIndex t.2.1, decIndex t.2.2), (decIndex t.1, decIndex t.2.2),
          (decIndex t.1, decIndex t.2.1)].map (canonicalKey vertices) := by
    simp [sidesOf]
  rw [hseen] at hkeys
  have hnil : pressedBy b.ribs 0 triangle = [] := by
    rw [List.eq_nil_iff_forall_not_mem]
    intro R hR
    obtain ⟨ri, rib, hri, hrib, ho, hne⟩ := mem_pressedBy.1 hR
    obtain ⟨hslot, hvalid⟩ := mem_validEntries hri
    obtain ⟨e, he, hmem, hccw⟩ := hsound ri hslot hvalid
    obtain ⟨rib1, hrib1, _, hown⟩ := hinv.slots 0 triangle h0 ri hslot hvalid
    rw [hrib] at hrib1
    obtain rfl : rib = rib1 := Option.some.inj hrib1
    have h2 : rib.ownerTriangles.2 = invalidIndex := by
      by_contra hne2
      have hc := hkeys.second ri rib (canonicalKey vertices e.1) hrib hmem hne2
      have hf := side_seen_twice_not_ccw vertices _ _ _ e he hc
      rw [hf] at hccw
      cases hccw
    rcases hown (by simp [invalidIndex]) with h1 | ⟨_, h3⟩
    · apply hne
      rw [← ho]
      simp [Rib.getOtherOwner, h1, h2]
    · exact h3 h2
  have hrecv : ∀ s, receiversOf g.receivers s = [] := by
    intro s
    by_cases hs : s = 0
    · subst hs
      rw [hI.pressed 0 triangle (by omega) h0, hnil]
    · exact receiversOf_out_of_range (by rw [hI.receivers_length]; omega)
  have hp0 : g.pressure[0]? = some 0 := by
    rw [hI.count 0 (by omega), pressureLoad_eq_zero]
    · rfl
    · intro s _
      rw [hrecv s]
      simp
  obtain ⟨p, hp⟩ := List.length_eq_one.1 (hI.pressure_length.trans hlen)
  rw [hp] at hp0
  simp only [List.getElem?_cons_zero, Option.some.injEq] at hp0
  subst hp0
  refine ⟨b, g, hb, hg, hp, hrecv 0, ?_⟩
  exact solve_of_zero_pressure hb hg (by rw [hp]; simp)

/-- C11, witness: the first triangle of the mirror example on its own. -/
theorem isolated_triangle_is_free_witness :
    indicesInRange mirrorVertices (1, 2, 3)
    ∧ ∃ b g, readAndInitTriangles mirrorVertices [(1, 2, 3)] = .ok b
      ∧ buildPressureIndex b = .ok g
      ∧ g.pressure = [0] ∧ receiversOf g.receivers 0 = []
      ∧ solve mirrorVertices [(1, 2, 3)] = { status := .finished, output := [1] } :=
  ⟨by decide, @isolated_triangle_is_free mirrorVertices (1, 2, 3) (by decide)⟩
/-! ## The pressure relation of the input against the relation the code computes -/

theorem mem_inputPressure {vertices : List Vertex} {triangles : List (Nat × Nat × Nat)}
    {s r : Nat} (h : inputPresses vertices triangles s r = true) :
    (s, r) ∈ inputPressure vertices triangles := by
  have hs : s < triangles.length := by
    by_contra hge
    simp [inputPresses, List.getElem?_eq_none (not_lt.1 hge)] at h
  have hr : r < triangles.length := by
    by_contra hge
    rw [inputPresses, List.getElem?_eq_none (not_lt.1 hge)] at h
    cases hts : triangles[s]? <;> simp [hts] at h
  unfold inputPressure
  rw [List.mem_flatMap]
  refine ⟨s, List.mem_range.2 hs, List.mem_map.2 ⟨r, ?_, rfl⟩⟩
  exact List.mem_filter.2 ⟨List.mem_range.2 hr, h⟩

/-- C1: the pressed example has in-range vertex indices and coordinates, every edge has at
most two owners on opposite sides, and the pressure relation of the input is acyclic:
triangle 1 presses on 2, triangles 3 and 4 press on 1. The run does not complete: it
stops on the failed assertion after writing 3 4, two of the four indices. -/
theorem acyclic_input_is_not_completed :
    (∀ t ∈ pressedTriangles, indicesInRange pressedVertices t)
    ∧ pressedVertices.all coordinateOk = true
    ∧ meshOk pressedVertices pressedTriangles = true
    ∧ inputPressure pressedVertices pressedTriangles = [(0, 1), (2, 0), (3, 0)]
    ∧ (∀ t, ¬ Relation.TransGen
        (fun s r => inputPresses pressedVertices pressedTriangles s r = true) t t)
    ∧ solve pressedVertices pressedTriangles = { status := .assertionFailed, output := [3, 4] }
    ∧ (solve pressedVertices pressedTriangles).output.length < pressedTriangles.length := by
  have hp : inputPressure pressedVertices pressedTriangles = [(0, 1), (2, 0), (3, 0)] := by
    decide
  refine ⟨by decide, by decide, by decide, hp, ?_, by decide, by decide⟩
  apply acyclic_of_rank (fun t => if t = 0 then 1 else if t = 1 then 2 else 0)
  intro s r hsr
  have hm := mem_inputPressure hsr
  rw [hp] at hm
  simp only [List.mem_cons, Prod.mk.injEq, List.mem_singleton, List.not_mem_nil,
    or_false] at hm
  rcases hm with ⟨rfl, rfl⟩ | ⟨rfl, rfl⟩ | ⟨rfl, rfl⟩ <;> decide

/-- C2: in the wide example, with in-range indices and coordinates and the two triangles
on opposite sides of their common edge, triangle 2 (above the edge) has the common edge
as a counter-clockwise-aligned edge whose other owner is triangle 1, so triangle 2
presses on triangle 1. The run completes and writes 1 2: triangle 1 comes strictly
before triangle 2. -/
theorem pressed_triangle_is_written_first :
    (∀ t ∈ wideTriangles, indicesInRange wideVertices t)
    ∧ wideVertices.all coordinateOk = true
    ∧ meshOk wideVertices wideTriangles = true
    ∧ ccwAlignedEdge wideVertices (0, 1) 2 = true
    ∧ inputPresses wideVertices wideTriangles 1 0 = true
    ∧ inputPressure wideVertices wideTriangles = [(1, 0)]
    ∧ solve wideVertices wideTriangles = { status := .finished, output := [1, 2] }
    ∧ (solve wideVertices wideTriangles).output.indexOf (0 + 1)
        < (solve wideVertices wideTriangles).output.indexOf (1 + 1) := by
  refine ⟨by decide, by decide, by decide, by decide, by decide, by decide, by decide,
    by decide⟩

/-- C3: in the stacked example, with in-range indices and coordinates, both triangles lie
above their common edge, so each presses on the other and the pressure relation of the
input contains a cycle. The pressure pass records only that triangle 2 presses on
triangle 1, no assertion fails, and the run completes with the output 2 1. -/
theorem cycle_in_input_is_not_detected :
    (∀ t ∈ stackedTriangles, indicesInRange stackedVertices t)
    ∧ stackedVertices.all coordinateOk = true
    ∧ inputPressure stackedVertices stackedTriangles = [(0, 1), (1, 0)]
    ∧ Relation.TransGen
        (fun s r => inputPresses stackedVertices stackedTriangles s r = true) 0 0
    ∧ buildPressureIndex (buildOf stackedVertices stackedTriangles)
        = .ok { pressure := [1, 0],
                receivers := [(invalidIndex, invalidIndex), (0, invalidIndex)] }
    ∧ solve stackedVertices stackedTriangles = { status := .finished, output := [2, 1] } := by
  refine ⟨by decide, by decide, by decide, ?_, rfl, by decide⟩
  have h01 : inputPresses stackedVertices stackedTriangles 0 1 = true := by decide
  have h10 : inputPresses stackedVertices stackedTriangles 1 0 = true := by decide
  exact Relation.TransGen.tail (Relation.TransGen.single h01) h10

/-! ## The calls of the other-owner lookup made by the pressure pass -/

theorem firstOwned_step {vertices : List Vertex} {k : Nat} {vertexIndices : Nat × Nat × Nat}
    {combinationNum : Nat} {c : Nat × Nat} {s s1 : TriangleState}
    {seen seen0 : List (Nat × Nat)} (hk : k ≠ invalidIndex)
    (hkey : KeyInv vertices seen0 s.ribs s.verticesToRibs)
    (hF : FirstOwned seen k s.ribs s.verticesToRibs)
    (hS : SelfOwned seen k s.ribs s.verticesToRibs)
    (h : processCombination vertices k vertexIndices combinationNum c s = .ok s1) :
    FirstOwned
        (seen ++ [canonicalKey vertices (vertexAt vertexIndices c.1, vertexAt vertexIndices c.2)])
        k s1.ribs s1.verticesToRibs
    ∧ SelfOwned
        (seen ++ [canonicalKey vertices (vertexAt vertexIndices c.1, vertexAt vertexIndices c.2)])
        k s1.ribs s1.verticesToRibs := by
  obtain ⟨vp, ribs1, map1, ri, rib0, hsv, hf, hget, hribs, hmap⟩ := processCombination_ribs h
  rw [canonicalKey_of_sort hsv, hribs, hmap]
  have hri : ri < ribs1.length := (List.getElem?_eq_some.1 hget).1
  have hmid : map1.map Prod.snd = List.range ribs1.length ∧ (vp, ri) ∈ map1
      ∧ FirstOwned seen k ribs1 map1 ∧ SelfOwned seen k ribs1 map1
      ∧ (rib0.ownerTriangles.1 = invalidIndex → rib0.ownerTriangles.2 = invalidIndex) := by
    rcases findOrCreateRib_cases hf with ⟨hl, h1, h2⟩ | ⟨l, r, hv1, hv2, h1, h2, h3⟩
    · subst h1; subst h2
      exact ⟨hkey.indices, lookup_mem hl, hF, hS, hkey.free ri rib0 hget⟩
    · subst h1; subst h2; subst h3
      have hold : ∀ (i : Nat) (rib : Rib) (key : Nat × Nat),
          (s.ribs ++ [Rib.new l r])[i]? = some rib →
          (key, i) ∈ s.verticesToRibs ++ [(vp, s.ribs.length)] →
          (s.ribs[i]? = some rib ∧ (key, i) ∈ s.verticesToRibs) ∨ rib = Rib.new l r := by
        intro i rib key hrib hkey1
        rcases List.mem_append.1 hkey1 with hk1 | hk1
        · left
          have hlt := mem_map_snd_lt hkey.indices hk1
          rw [List.getElem?_append_left hlt] at hrib
          exact ⟨hrib, hk1⟩
        · right
          simp only [List.mem_singleton, Prod.mk.injEq] at hk1
          obtain ⟨_, hk2⟩ := hk1
          subst hk2
          rw [List.getElem?_append_right (le_refl _)] at hrib
          simp only [Nat.sub_self, List.getElem?_cons_zero, Option.some.injEq] at hrib
          exact hrib.symm
      have hnew : rib0 = Rib.new l r := by
        rw [List.getElem?_append_right (le_refl _)] at hget
        simp only [Nat.sub_self, List.getElem?_cons_zero, Option.some.injEq] at hget
        exact hget.symm
      refine ⟨by simp [List.map_append, hkey.indices, List.range_succ], by simp, ?_, ?_, ?_⟩
      · intro i rib key hrib hkey1 ho
        rcases hold i rib key hrib hkey1 with ⟨h1, h2⟩ | h1
        · exact hF i rib key h1 h2 ho
        · rw [h1] at ho
          exact absurd ho.symm hk
      · intro i rib key hrib hkey1 ho _
        rcases hold i rib key hrib hkey1 with ⟨h1, h2⟩ | h1
        · exact hS i rib key h1 h2 ho (by assumption)
        · rw [h1] at ho
          exact absurd ho.symm hk
      · intro _
        rw [hnew]
        rfl
  obtain ⟨hidx, hvp, hF1, hS1, hfree⟩ := hmid
  have hcount : ∀ key, seen.count key ≤ (seen ++ [vp]).count key := by
    intro key
    rw [List.count_append]
    exact Nat.le_add_right _ _
  have hcountvp : (seen ++ [vp]).count vp = seen.count vp + 1 := by
    rw [List.count_append]
    simp
  have hat : ∀ (i : Nat) (rib : Rib), (ribs1.set ri (rib0.setOwner k))[i]? = some rib →
      (i ≠ ri ∧ ribs1[i]? = some rib) ∨ (i = ri ∧ rib = rib0.setOwner k) := by
    intro i rib hrib
    by_cases hi : ri = i
    · subst hi
      rw [List.getElem?_set_self hri] at hrib
      exact Or.inr ⟨rfl, (Option.some.inj hrib).symm⟩
    · rw [List.getElem?_set_ne hi] at hrib
      exact Or.inl ⟨Ne.symm hi, hrib⟩
  constructor
  · intro i rib key hrib hkey1 ho
    rcases hat i rib hrib with ⟨_, h1⟩ | ⟨h0, h1⟩
    · exact le_trans (hF1 i rib key h1 hkey1 ho) (hcount key)
    · subst h0
      obtain rfl := mem_map_snd_unique hidx hkey1 hvp
      rw [hcountvp]
      exact Nat.le_add_left _ _
  · intro i rib key hrib hkey1 ho1 ho2
    rcases hat i rib hrib with ⟨_, h1⟩ | ⟨h0, h1⟩
    · exact le_trans (hS1 i rib key h1 hkey1 ho1 ho2) (hcount key)
    · subst h0
      obtain rfl := mem_map_snd_unique hidx hkey1 hvp
      rw [hcountvp]
      subst h1
      by_cases hf0 : rib0.ownerTriangles.1 = invalidIndex
      · exfalso
        rw [setOwner_free _ _ hf0, hfree hf0] at ho2
        exact hk ho2.symm
      · rw [setOwner_first _ _ hf0] at ho1
        have := hF1 i rib0 key hget hkey1 ho1
        omega

theorem selfOwned_other_step {vertices : List Vertex} {k T : Nat}
    {vertexIndices : Nat × Nat × Nat} {combinationNum : Nat} {c : Nat × Nat}
    {s s1 : TriangleState} {sides seen0 : List (Nat × Nat)} (hT : T ≠ k)
    (hTi : T ≠ invalidIndex)
    (hkey : KeyInv vertices seen0 s.ribs s.verticesToRibs)
    (hS : SelfOwned sides T s.ribs s.verticesToRibs)
    (h : processCombination vertices k vertexIndices combinationNum c s = .ok s1) :
    SelfOwned sides T s1.ribs s1.verticesToRibs := by
  obtain ⟨vp, ribs1, map1, ri, rib0, hsv, hf, hget, hribs, hmap⟩ := processCombination_ribs h
  rw [hribs, hmap]
  have hri : ri < ribs1.length := (List.getElem?_eq_some.1 hget).1
  have hmid : SelfOwned sides T ribs1 map1
      ∧ (rib0.ownerTriangles.1 = invalidIndex → rib0.ownerTriangles.2 = invalidIndex) := by
    rcases findOrCreateRib_cases hf with ⟨hl, h1, h2⟩ | ⟨l, r, hv1, hv2, h1, h2, h3⟩
    · subst h1; subst h2
      exact ⟨hS, hkey.free ri rib0 hget⟩
    · subst h1; subst h2; subst h3
      have hnew : rib0 = Rib.new l r := by
        rw [List.getElem?_append_right (le_refl _)] at hget
        simp only [Nat.sub_self, List.getElem?_cons_zero, Option.some.injEq] at hget
        exact hget.symm
      refine ⟨?_, fun _ => by rw [hnew]; rfl⟩
      intro i rib key hrib hkey1 ho1 ho2
      rcases List.mem_append.1 hkey1 with hk1 | hk1
      · have hlt := mem_map_snd_lt hkey.indices hk1
        rw [List.getElem?_append_left hlt] at hrib
        exact hS i rib key hrib hk1 ho1 ho2
      · exfalso
        simp only [List.mem_singleton, Prod.mk.injEq] at hk1
        obtain ⟨_, hk2⟩ := hk1
        subst hk2
        rw [List.getElem?_append_right (le_refl _)] at hrib
        simp only [Nat.sub_self, List.getElem?_cons_zero, Option.some.injEq] at hrib
        rw [← hrib] at ho1
        exact hTi ho1.symm
  obtain ⟨hS1, hfree⟩ := hmid
  intro i rib key hrib hkey1 ho1 ho2
  by_cases hi : ri = i
  · exfalso
    subst hi
    rw [List.getElem?_set_self hri] at hrib
    obtain rfl := Option.some.inj hrib
    by_cases hf0 : rib0.ownerTriangles.1 = invalidIndex
    · rw [setOwner_free _ _ hf0] at ho1
      exact hT ho1.symm
    · rw [setOwner_first _ _ hf0] at ho2
      exact hT ho2.symm
  · rw [List.getElem?_set_ne hi] at hrib
    exact hS1 i rib key hrib hkey1 ho1 ho2

theorem selfOwned_combinations {vertices : List Vertex} {k : Nat}
    {vertexIndices : Nat × Nat × Nat} (hk : k ≠ invalidIndex) :
    ∀ (cs : List (Nat × Nat)) (n : Nat) (s s1 : TriangleState) (seen seen0 : List (Nat × Nat)),
      KeyInv vertices seen0 s.ribs s.verticesToRibs →
      FirstOwned seen k s.ribs s.verticesToRibs →
      SelfOwned seen k s.ribs s.verticesToRibs →
      processCombinations vertices k vertexIndices n cs s = .ok s1 →
      SelfOwned
        (seen ++ cs.map (fun c =>
          canonicalKey vertices (vertexAt vertexIndices c.1, vertexAt vertexIndices c.2)))
        k s1.ribs s1.verticesToRibs
  | [], _, s, s1, seen, _, _, _, hS, h => by
    simp only [processCombinations, Except.ok.injEq] at h
    subst h
    simpa using hS
  | c :: cs, n, s, s1, seen, seen0, hkey, hF, hS, h => by
    obtain ⟨s2, h1, h2⟩ := processCombinations_cons_ok h
    obtain ⟨hF2, hS2⟩ := firstOwned_step hk hkey hF hS h1
    have := selfOwned_combinations hk cs (n + 1) s2 s1 _ _ (keyInv_step hkey h1) hF2 hS2 h2
    simpa [List.append_assoc] using this

theorem selfOwned_other_combinations {vertices : List Vertex} {k T : Nat}
    {vertexIndices : Nat × Nat × Nat} {sides : List (Nat × Nat)} (hT : T ≠ k)
    (hTi : T ≠ invalidIndex) :
    ∀ (cs : List (Nat × Nat)) (n : Nat) (s s1 : TriangleState) (seen0 : List (Nat × Nat)),
      KeyInv vertices seen0 s.ribs s.verticesToRibs →
      SelfOwned sides T s.ribs s.verticesToRibs →
      processCombinations vertices k vertexIndices n cs s = .ok s1 →
      SelfOwned sides T s1.ribs s1.verticesToRibs
  | [], _, s, s1, _, _, hS, h => by
    simp only [processCombinations, Except.ok.injEq] at h
    subst h
    exact hS
  | c :: cs, n, s, s1, seen0, hkey, hS, h => by
    obtain ⟨s2, h1, h2⟩ := processCombinations_cons_ok h
    exact selfOwned_other_combinations hT hTi cs (n + 1) s2 s1 _ (keyInv_step hkey h1)
      (selfOwned_other_step hT hTi hkey hS h1) h2

theorem selfOwned_triangle {vertices : List Vertex} {hi k : Nat} {input : Nat × Nat × Nat}
    {b b1 : Build} {seen0 : List (Nat × Nat)} (hk : k < hi) (hhi : hi ≤ invalidIndex)
    (hinv : BuildInv hi k b) (hkey : KeyInv vertices seen0 b.ribs b.verticesToRibs)
    (h : processTriangle vertices k input b = .ok b1) :
    SelfOwned ((sidesOf input).map (canonicalKey vertices)) k b1.ribs b1.verticesToRibs
    ∧ (∀ (T : Nat) (sides : List (Nat × Nat)), T < k →
        SelfOwned sides T b.ribs b.verticesToRibs →
        SelfOwned sides T b1.ribs b1.verticesToRibs) := by
  have hki : k ≠ invalidIndex := by omega
  rw [processTriangle] at h
  cases hp : processCombinations vertices k
      (decIndex input.1, decIndex input.2.1, decIndex input.2.2) 0 vertexCombinations
      (TriangleState.mk b.ribs b.verticesToRibs Triangle.new 0) with
  | error e => simp only [hp] at h; cases h
  | ok s =>
    simp only [hp, Except.ok.injEq] at h
    subst h
    have hnone : ∀ (i : Nat) (rib : Rib), b.ribs[i]? = some rib → rib.ownerTriangles.1 ≠ k := by
      intro i rib hrib ho
      have hok := hinv.ribs.owners rib (List.getElem?_mem hrib)
      rcases hok.1 with h1 | h1
      · rw [ho] at h1; exact hki h1
      · rw [ho] at h1; exact lt_irrefl _ h1
    constructor
    · have := selfOwned_combinations hki vertexCombinations 0
        (TriangleState.mk b.ribs b.verticesToRibs Triangle.new 0) s [] seen0 hkey
        (fun i rib key hrib _ ho => absurd ho (hnone i rib hrib))
        (fun i rib key hrib _ ho _ => absurd ho (hnone i rib hrib)) hp
      rw [← sidesOf_eq, List.map_map]
      simpa using this
    · intro T sides hT hS
      exact selfOwned_other_combinations (by omega) (by omega) vertexCombinations 0
        (TriangleState.mk b.ribs b.verticesToRibs Triangle.new 0) s seen0 hkey hS hp

theorem selfOwned_triangles {vertices : List Vertex} {hi : Nat} (hhi : hi ≤ invalidIndex) :
    ∀ (ts : List (Nat × Nat × Nat)) (k : Nat) (b b1 : Build) (done : List (Nat × Nat × Nat))
      (seen0 : List (Nat × Nat)), k + ts.length ≤ hi → BuildInv hi k b →
      KeyInv vertices seen0 b.ribs b.verticesToRibs → done.length = k →
      (∀ (T : Nat) (t : Nat × Nat × Nat), done[T]? = some t →
        SelfOwned ((sidesOf t).map (canonicalKey vertices)) T b.ribs b.verticesToRibs) →
      readTrianglesFrom vertices k ts b = .ok b1 →
      ∀ (T : Nat) (t : Nat × Nat × Nat), (done ++ ts)[T]? = some t →
        SelfOwned ((sidesOf t).map (canonicalKey vertices)) T b1.ribs b1.verticesToRibs
  | [], _, b, b1, done, _, _, _, _, _, hS, h => by
    simp only [readTrianglesFrom, Except.ok.injEq] at h
    subst h
    simpa using hS
  | t :: ts, k, b, b1, done, seen0, hk, hinv, hkey, hlen, hS, h => by
    unfold readTrianglesFrom at h
    simp only [List.length_cons] at hk
    cases hp : processTriangle vertices k t b with
    | error e => simp [hp] at h
    | ok b2 =>
      simp only [hp] at h
      obtain ⟨hnew, hold⟩ := selfOwned_triangle (by omega) hhi hinv hkey hp
      have hS2 : ∀ (T : Nat) (t1 : Nat × Nat × Nat), (done ++ [t])[T]? = some t1 →
          SelfOwned ((sidesOf t1).map (canonicalKey vertices)) T b2.ribs b2.verticesToRibs := by
        intro T t1 ht1
        by_cases hT : T < done.length
        · rw [List.getElem?_append_left hT] at ht1
          exact hold T _ (by omega) (hS T t1 ht1)
        · have hlt := (List.getElem?_eq_some.1 ht1).1
          simp only [List.length_append, List.length_singleton] at hlt
          have hTk : T = done.length := by omega
          subst hTk
          rw [List.getElem?_append_right (le_refl _)] at ht1
          simp only [Nat.sub_self, List.getElem?_cons_zero, Option.some.injEq] at ht1
          subst ht1
          rw [hlen]
          exact hnew
      have := selfOwned_triangles hhi ts (k + 1) b2 b1 (done ++ [t]) _ (by omega)
        (processTriangle_inv (by omega) hinv hp) (keyInv_triangle hkey hp) (by simp [hlen]) hS2 h
      simpa [List.append_assoc] using this

theorem processCombinations_mono {vertices : List Vertex} {k : Nat}
    {vertexIndices : Nat × Nat × Nat} :
    ∀ (cs : List (Nat × Nat)) (n : Nat) (s s1 : TriangleState),
      s.verticesToRibs.map Prod.snd = List.range s.ribs.length →
      processCombinations vertices k vertexIndices n cs s = .ok s1 →
      ∀ e ∈ s.verticesToRibs, e ∈ s1.verticesToRibs
  | [], _, s, s1, _, h => by
    simp only [processCombinations, Except.ok.injEq] at h
    subst h
    exact fun e he => he
  | c :: cs, n, s, s1, hidx, h => by
    obtain ⟨s2, h1, h2⟩ := processCombinations_cons_ok h
    obtain ⟨hidx2, hmono⟩ := keyInv_indices_step hidx h1
    exact fun e he => processCombinations_mono cs (n + 1) s2 s1 hidx2 h2 e (hmono e he)

theorem processTriangle_mono {vertices : List Vertex} {k : Nat} {input : Nat × Nat × Nat}
    {b b1 : Build} (hidx : b.verticesToRibs.map Prod.snd = List.range b.ribs.length)
    (h : processTriangle vertices k input b = .ok b1) :
    ∀ e ∈ b.verticesToRibs, e ∈ b1.verticesToRibs := by
  rw [processTriangle] at h
  cases hp : processCombinations vertices k
      (decIndex input.1, decIndex input.2.1, decIndex input.2.2) 0 vertexCombinations
      (TriangleState.mk b.ribs b.verticesToRibs Triangle.new 0) with
  | error e => simp only [hp] at h; cases h
  | ok s =>
    simp only [hp, Except.ok.injEq] at h
    subst h
    exact processCombinations_mono vertexCombinations 0 _ s hidx hp

theorem listsSound_triangles {vertices : List Vertex} :
    ∀ (ts : List (Nat × Nat × Nat)) (k : Nat) (b b1 : Build) (done : List (Nat × Nat × Nat)),
      b.verticesToRibs.map Prod.snd = List.range b.ribs.length →
      RibGeom vertices b.ribs b.verticesToRibs →
      b.triangles.length = done.length → ListsSound vertices done b →
      readTrianglesFrom vertices k ts b = .ok b1 →
      ListsSound vertices (done ++ ts) b1
  | [], _, b, b1, done, _, _, _, hS, h => by
    simp only [readTrianglesFrom, Except.ok.injEq] at h
    subst h
    simpa using hS
  | t :: ts, k, b, b1, done, hidx, hgeom, hlen, hS, h => by
    unfold readTrianglesFrom at h
    cases hp : processTriangle vertices k t b with
    | error e => simp [hp] at h
    | ok b2 =>
      simp only [hp] at h
      obtain ⟨b3, triangle, hok, htri, hidx2, hgeom2, hsound⟩ :=
        @processTriangle_run vertices k t b hidx hgeom (processTriangle_inRange hp)
      rw [hp] at hok
      obtain rfl := Except.ok.inj hok
      have hmono := processTriangle_mono hidx hp
      have hS2 : ListsSound vertices (done ++ [t]) b2 := by
        intro T t1 tri1 ht1 htri1 ri hri hne
        rw [htri] at htri1
        by_cases hT : T < done.length
        · rw [List.getElem?_append_left hT] at ht1
          rw [List.getElem?_append_left (by omega)] at htri1
          obtain ⟨e, he, hmem, hccw⟩ := hS T t1 tri1 ht1 htri1 ri hri hne
          exact ⟨e, he, hmono _ hmem, hccw⟩
        · have hlt := (List.getElem?_eq_some.1 ht1).1
          simp only [List.length_append, List.length_singleton] at hlt
          have hTk : T = done.length := by omega
          subst hTk
          rw [List.getElem?_append_right (le_refl _)] at ht1
          rw [List.getElem?_append_right (by omega)] at htri1
          simp only [Nat.sub_self, List.getElem?_cons_zero, Option.some.injEq] at ht1
          simp only [hlen, Nat.sub_self, List.getElem?_cons_zero, Option.some.injEq] at htri1
          subst ht1
          subst htri1
          exact hsound ri hri hne
      have := listsSound_triangles ts (k + 1) b2 b1 (done ++ [t]) hidx2 hgeom2
        (by rw [htri]; simp [hlen]) hS2 h
      simpa [List.append_assoc] using this

/-- In every adjacency the builder produces, the lookup that the pressure pass makes for
a rib in the rib list of triangle `T` never returns `T` itself. -/
theorem getOtherOwner_ne_self {vertices : List Vertex} {triangles : List (Nat × Nat × Nat)}
    {b : Build} (hb : readAndInitTriangles vertices triangles = .ok b)
    (hM : triangles.length ≤ invalidIndex) {T ri : Nat} {triangle : Triangle} {rib : Rib}
    (htri : b.triangles[T]? = some triangle) (hri : ri ∈ validEntries triangle.ribs)
    (hrib : b.ribs[ri]? = some rib) : rib.getOtherOwner T ≠ T := by
  intro hself
  have hinv := readAndInitTriangles_inv hb
  have hTlt : T < triangles.length := by
    rw [← hinv.length]
    exact (List.getElem?_eq_some.1 htri).1
  have hget : triangles[T]? = some triangles[T] := List.getElem?_eq_getElem hTlt
  have hsound : ListsSound vertices triangles b := by
    have := listsSound_triangles triangles 0 (Build.mk [] [] []) b [] rfl
      (fun i rib key h _ => by simp at h) rfl
      (fun T t triangle h => by simp at h) hb
    simpa using this
  have hself2 : ∀ (T : Nat) (t : Nat × Nat × Nat), triangles[T]? = some t →
      SelfOwned ((sidesOf t).map (canonicalKey vertices)) T b.ribs b.verticesToRibs := by
    have := selfOwned_triangles hM triangles 0 (Build.mk [] [] []) b [] []
      (by simp) ⟨rfl, ⟨fun rib h => by simp at h, fun e h => by simp at h⟩,
        fun T triangle h => by simp at h⟩
      ⟨rfl, fun i rib h => by simp at h, fun i rib key h => by simp at h,
        fun i rib key h => by simp at h, fun i rib key h => by simp at h⟩
      rfl (fun T t h => by simp at h) hb
    simpa using this
  obtain ⟨hslot, hvalid⟩ := mem_validEntries hri
  obtain ⟨e, he, hmem, hccw⟩ := hsound T _ triangle hget htri ri hslot hvalid
  have hown : rib.ownerTriangles.1 = T ∧ rib.ownerTriangles.2 = T := by
    unfold Rib.getOtherOwner at hself
    by_cases h1 : rib.ownerTriangles.1 = T
    · rw [if_pos h1] at hself
      exact ⟨h1, hself⟩
    · rw [if_neg h1] at hself
      exact absurd hself h1
  have hcount := hself2 T _ hget ri rib _ hrib hmem hown.1 hown.2
  have hf := side_seen_twice_not_ccw vertices _ _ _ e he hcount
  rw [hf] at hccw
  cases hccw

/-- C20 as amended (other-owner lookup). On a fresh rib: after `setOwner t1` the lookup
from `t1` returns `invalidIndex`; after `setOwner t1` and `setOwner t2` with two different
triangles the lookup from `t1` returns `t2` and the lookup from `t2` returns `t1`, each
an owner different from the triangle asked for; after `setOwner t1` twice both slots
hold `t1` and the lookup from `t1` returns `t1`. The pressure pass never makes that last
call: in every adjacency the builder produces for at most `2^64 - 1` triangles, the
lookup for a rib in the rib list of triangle `T` returns a value different from `T`. -/
theorem other_owner_lookup (l r : Vertex) (t1 t2 : Nat) (h : t1 ≠ t2) :
    ((Rib.new l r).setOwner t1).getOtherOwner t1 = invalidIndex
    ∧ (((Rib.new l r).setOwner t1).setOwner t2).getOtherOwner t1 = t2
    ∧ (((Rib.new l r).setOwner t1).setOwner t2).getOtherOwner t2 = t1
    ∧ (((Rib.new l r).setOwner t1).setOwner t2).getOtherOwner t1 ≠ t1
    ∧ (((Rib.new l r).setOwner t1).setOwner t2).getOtherOwner t2 ≠ t2
    ∧ (((Rib.new l r).setOwner t1).setOwner t1).getOtherOwner t1 = t1
    ∧ (∀ (vertices : List Vertex) (triangles : List (Nat × Nat × Nat)) (b : Build)
        (T ri : Nat) (triangle : Triangle) (rib : Rib),
        readAndInitTriangles vertices triangles = .ok b →
        triangles.length ≤ invalidIndex → b.triangles[T]? = some triangle →
        ri ∈ validEntries triangle.ribs → b.ribs[ri]? = some rib →
        rib.getOtherOwner T ≠ T) :=
  ⟨getOtherOwner_single l r t1, (getOtherOwner_pair l r t1 t2).1,
    (getOtherOwner_pair l r t1 t2).2, (getOtherOwner_differs l r t1 t2 h).1,
    (getOtherOwner_differs l r t1 t2 h).2, (getOtherOwner_pair l r t1 t1).1,
    fun _ _ _ _ _ _ _ hb hM htri hri hrib => getOtherOwner_ne_self hb hM htri hri hrib⟩

/-- C20 as amended, witness: triangles 0 and 1 on the rib from (0,0) to (1,0), and the
lookup the pressure pass makes for triangle 1 of the mirror example on the common edge. -/
theorem other_owner_lookup_witness :
    (0 : Nat) ≠ 1
    ∧ (((Rib.new { x := 0, y := 0 } { x := 1, y := 0 }).setOwner 0).setOwner 1).getOtherOwner 0
        = 1
    ∧ (((Rib.new { x := 0, y := 0 } { x := 1, y := 0 }).setOwner 0).setOwner 1).getOtherOwner 1
        = 0
    ∧ Rib.getOtherOwner { deltaX := 2, deltaY := 0, ownerTriangles := (0, 1) } 0 ≠ 0 :=
  ⟨by decide,
    (other_owner_lookup { x := 0, y := 0 } { x := 1, y := 0 } 0 1 (by decide)).2.1,
    (other_owner_lookup { x := 0, y := 0 } { x := 1, y := 0 } 0 1 (by decide)).2.2.1,
    (other_owner_lookup { x := 0, y := 0 } { x := 1, y := 0 } 0 1 (by decide)).2.2.2.2.2.2
      mirrorVertices mirrorTriangles (buildOf mirrorVertices mirrorTriangles) 0 2
      { ribs := (2, invalidIndex) } { deltaX := 2, deltaY := 0, ownerTriangles := (0, 1) }
      mirror_build (by decide) (by decide) (by decide) (by decide)⟩

end PuzzleSolver
